import Mathlib

/-
Verification development for the ElevatorDesign simulator
(models.py, elevator_dispatcher.py, building_elevator_engine.py).

Modelling conventions:
* Python in-place mutation is modelled functionally: a function that mutates a
  list and may raise returns the final list together with an optional error
  message, or an `Except String` result.
* Python exceptions (DispatchError, ValueError) are modelled as `Except String`
  errors carrying the message text.
* Request tokens: the dispatcher only reads `request.source_floor` and
  `request.target_floor` and otherwise treats the request object as an opaque
  value (appended to stop lists, compared by identity in sets).  The stop type
  is therefore generic in the request type `α`; the dispatcher takes the two
  floors alongside the token.  The standalone claims instantiate `α` with
  `CallRequest`; the engine instantiates `α` with `Nat`, an index into the
  engine's master request list (Python object references cannot dangle, so
  the index is always in range in engine runs).
* `list(set(a).union(set(b)))` iterates a hash set, whose order is
  unspecified; it is modelled as `(a ++ b).dedup` (one fixed duplicate-free
  enumeration of the union).  No claim below depends on that order.
* CPython's `list.sort` is a stable sort by key; it is modelled by a stable
  insertion sort, which computes the same list.
-/

inductive ElevatorState where
  | idle
  | moving_upwards
  | moving_downwards
  | at_stop
  | unavailable
deriving Repr, DecidableEq, Inhabited

/-- The string `.value` of the Python `ElevatorState` enum. -/
def ElevatorState.value : ElevatorState → String
  | .idle => "idle"
  | .moving_upwards => "moving_upwards"
  | .moving_downwards => "moving_downwards"
  | .at_stop => "at_stop"
  | .unavailable => "unavailable"

/-- `models.ElevatorStop`: a floor with pickup and dropoff request lists,
generic in the request representation `α` (see the header comment). -/
structure ElevatorStop (α : Type) where
  floor : Int
  pickup_requests : List α
  dropoff_requests : List α
deriving Repr, DecidableEq

instance : Inhabited (ElevatorStop α) := ⟨⟨0, [], []⟩⟩

/-- `models.CallRequest`: a call request with lifecycle timestamps
(-1 is the unset sentinel). -/
structure CallRequest where
  time : Int
  id : String
  source_floor : Int
  target_floor : Int
  pickup_time : Int := -1
  dropoff_time : Int := -1
  elevator_name : String := ""
deriving Repr, DecidableEq

instance : Inhabited CallRequest := ⟨⟨0, "", 0, 0, -1, -1, ""⟩⟩

/-- `CallRequest.is_complete`: both timestamps have been assigned. -/
def CallRequest.is_complete (r : CallRequest) : Bool :=
  r.pickup_time ≠ -1 && r.dropoff_time ≠ -1

/-- `models.Elevator`: state, name, current floor, boarded passenger ids,
capacity and the stop plan. -/
structure Elevator (α : Type) where
  state : ElevatorState
  name : String
  current_floor : Int
  passengers : List String
  capacity : Int
  elevator_plan : List (ElevatorStop α)
deriving Repr, DecidableEq

instance : Inhabited (Elevator α) :=
  ⟨⟨.idle, "", 0, [], 0, []⟩⟩

/-- Replace the element at an index, like a Python index assignment
(out-of-range indices leave the list unchanged, which never happens
at the call sites). -/
def modifyIdx (f : α → α) : Nat → List α → List α
  | _, [] => []
  | 0, x :: xs => f x :: xs
  | n + 1, x :: xs => x :: modifyIdx f n xs

/-- Index of the last element satisfying `p` (a Python
`while i >= 0: ... i -= 1` backwards scan). -/
def lastIdxWhere (p : α → Bool) : List α → Option Nat
  | [] => none
  | x :: xs =>
    match lastIdxWhere p xs with
    | some i => some (i + 1)
    | none => if p x then some 0 else none

/-- The floors of a plan, in order. -/
def floorsOf (plan : List (ElevatorStop α)) : List Int := plan.map (·.floor)

/-- Stable insertion used to model CPython's stable `list.sort`. -/
def pyInsert (le : α → α → Bool) (x : α) : List α → List α
  | [] => [x]
  | y :: ys => if le x y then x :: y :: ys else y :: pyInsert le x ys

/-- Stable sort (CPython `list.sort` by key computes exactly this list). -/
def pySort (le : α → α → Bool) : List α → List α
  | [] => []
  | x :: xs => pyInsert le x (pySort le xs)

/-- `elevator_plan.sort(reverse=True if request_dir == -1 else False,
key=lambda stop: stop.floor)`. -/
def sortByFloor (request_dir : Int) (l : List (ElevatorStop α)) :
    List (ElevatorStop α) :=
  if request_dir = -1 then pySort (fun a b => b.floor ≤ a.floor) l
  else pySort (fun a b => a.floor ≤ b.floor) l

/-- `ElevatorDispatcher.coalesce_plan`.  Faithful to the index-skipping scan
of the source: after merging a pair the scan advances past both elements, so
a third consecutive stop on the same floor is not compared against the merged
stop.  `list(set(x).union(set(y)))` is modelled as `(x ++ y).dedup`. -/
def coalesce_plan [DecidableEq α] :
    List (ElevatorStop α) → List (ElevatorStop α)
  | [] => []
  | [a] => [a]
  | a :: b :: rest =>
    if a.floor = b.floor then
      { floor := a.floor,
        pickup_requests := (a.pickup_requests ++ b.pickup_requests).dedup,
        dropoff_requests :=
          (a.dropoff_requests ++ b.dropoff_requests).dedup } ::
        coalesce_plan rest
    else
      a :: coalesce_plan (b :: rest)

/-- Accumulating loop of `get_wait_time_for_request`: walk the plan keeping
the previous floor, add the floor-to-floor distance, return on the source
floor, otherwise add one dwell tick and continue. -/
def get_wait_time_go (source_floor : Int) :
    List (ElevatorStop α) → Int → Int → Except String Int
  | [], _, _ => .error "Source floor not found in elevator's plan"
  | s :: rest, prev_floor, total =>
    let total := total + |s.floor - prev_floor|
    if s.floor = source_floor then .ok total
    else get_wait_time_go source_floor rest s.floor (total + 1)

/-- `ElevatorDispatcher.get_wait_time_for_request`. -/
def get_wait_time_for_request (source_floor : Int)
    (elevator_plan : List (ElevatorStop α)) (current_floor : Int) :
    Except String Int :=
  get_wait_time_go source_floor elevator_plan current_floor 0

/-- Accumulating loop of `get_travel_time_for_request`: once `pickup_done`
is set, each stop adds the floor-to-floor distance plus one dwell tick; the
function returns at the first stop on the target floor after taking one
dwell tick back. -/
def get_travel_time_go (source_floor target_floor : Int) :
    List (ElevatorStop α) → Int → Bool → Int → Except String Int
  | [], _, _, _ => .error "Target floor not found in elevator's plan"
  | s :: rest, prev_floor, pickup_done, total =>
    let total := if pickup_done then total + |s.floor - prev_floor| + 1 else total
    if s.floor = target_floor then .ok (total - 1)
    else
      get_travel_time_go source_floor target_floor rest s.floor
        (pickup_done || decide (s.floor = source_floor)) total

/-- `ElevatorDispatcher.get_travel_time_for_request`.  The previous-floor
argument starts at an arbitrary value (0): it is only read once
`pickup_done` holds, which is first possible at index 1. -/
def get_travel_time_for_request (source_floor target_floor : Int)
    (elevator_plan : List (ElevatorStop α)) : Except String Int :=
  get_travel_time_go source_floor target_floor elevator_plan 0 false 0

/-- `ElevatorDispatcher.get_total_time_for_request`: wait plus travel
(`get_wait_time_for_request` runs, and can raise, first). -/
def get_total_time_for_request (current_floor : Int)
    (elevator_plan : List (ElevatorStop α)) (source_floor target_floor : Int) :
    Except String Int := do
  let w ← get_wait_time_for_request source_floor elevator_plan current_floor
  let t ← get_travel_time_for_request source_floor target_floor elevator_plan
  return w + t

/-- `ElevatorDispatcher.put_request_id_in_elevator_plan`.  Scans backwards for
the last stop on the target floor and appends the request to its dropoffs;
`if not target_index:` in the source also treats index 0 as "not found", so
the error is raised both when the floor is absent and when its only
occurrence is at index 0 (after the dropoff append has already mutated the
plan).  Then scans backwards from the target index for the source floor and
appends to its pickups (silently doing nothing when not found).  Returns the
final plan state together with the raised message, if any. -/
def put_request_id_in_elevator_plan (source_floor target_floor : Int)
    (request : α) (elevator_plan : List (ElevatorStop α)) :
    List (ElevatorStop α) × Option String :=
  match lastIdxWhere (fun s => s.floor == target_floor) elevator_plan with
  | none => (elevator_plan, some "Could not find target floor in new plan")
  | some target_index =>
    let plan1 := modifyIdx
      (fun s => { s with dropoff_requests := s.dropoff_requests ++ [request] })
      target_index elevator_plan
    if target_index = 0 then
      (plan1, some "Could not find target floor in new plan")
    else
      match lastIdxWhere (fun s => s.floor == source_floor)
          (plan1.take (target_index + 1)) with
      | some source_index =>
        (modifyIdx
          (fun s =>
            { s with pickup_requests := s.pickup_requests ++ [request] })
          source_index plan1, none)
      | none => (plan1, none)

/-- Prefix-sum loop of `check_capacity`. -/
def check_capacity_go (capacity : Int) :
    List (ElevatorStop α) → Int → Bool
  | [], _ => true
  | s :: rest, count =>
    let count := count + (s.pickup_requests.length : Int)
      - (s.dropoff_requests.length : Int)
    if count > capacity then false else check_capacity_go capacity rest count

/-- `ElevatorDispatcher.check_capacity`: walk the plan from the current
passenger count; reject as soon as a prefix exceeds the capacity. -/
def check_capacity (elevator : Elevator α)
    (new_elevator_plan : List (ElevatorStop α)) : Bool :=
  check_capacity_go elevator.capacity new_elevator_plan
    (elevator.passengers.length : Int)

/-- Python `range(a, b, step)` as a list; `step` comes from `np.sign` and is
always -1, 0 or 1, and a zero step raises `ValueError`. -/
def pyRange (a b step : Int) : Except String (List Int) :=
  if step = 0 then .error "range() arg 3 must not be zero"
  else if step = 1 then .ok ((List.range (b - a).toNat).map (fun k => a + k))
  else .ok ((List.range (a - b).toNat).map (fun k => a - k))

/-- Inflection scan of `split_plan_into_ordered_subplans`: for
`i in range(1, len - 1)`, record `i + 1` whenever the sign of the next floor
difference differs from the running direction, and update the direction.
The fuel argument starts at the list length, which bounds the loop. -/
def inflection_go (fl : List Int) : Nat → Nat → Int → List Nat
  | 0, _, _ => []
  | fuel + 1, i, dir =>
    if i + 1 < fl.length then
      let d := Int.sign (fl.getD (i + 1) 0 - fl.getD i 0)
      if d ≠ dir then (i + 1) :: inflection_go fl fuel (i + 1) d
      else inflection_go fl fuel (i + 1) dir
    else []

/-- Python slice `l[start:stop]` (for `start ≤ stop ≤ len`). -/
def pySlice (l : List α) (start stop : Nat) : List α :=
  (l.drop start).take (stop - start)

/-- Subplan slicing loop of `split_plan_into_ordered_subplans`: slice at each
cut point, restarting one element earlier so consecutive subplans share their
pivot stop. -/
def subplans_go (plan : List (ElevatorStop α)) :
    List Nat → Nat → List (List (ElevatorStop α))
  | [], _ => []
  | ind :: rest, start =>
    pySlice plan start ind :: subplans_go plan rest (ind - 1)

/-- `ElevatorDispatcher.split_plan_into_ordered_subplans`. -/
def split_plan_into_ordered_subplans (elevator_plan : List (ElevatorStop α)) :
    Except String (List (List (ElevatorStop α))) :=
  if elevator_plan.length < 2 then .error "Plan is too small to split"
  else
    let fl := floorsOf elevator_plan
    let dir0 := Int.sign (fl.getD 1 0 - fl.getD 0 0)
    let pts := inflection_go fl fl.length 1 dir0 ++ [elevator_plan.length]
    .ok (subplans_go elevator_plan pts 0)

/-- Loop of `find_matching_subplan_for_request`: for each subplan compute its
direction and floor range set, compute the request's floor range set (both
`range` calls raise on a zero step), and return the first subplan whose
direction matches the request's and whose range contains the request's range.
Subplans produced by the split are never empty, so the `subplan[0]` /
`subplan[-1]` accesses are modelled with a default that is never used. -/
def find_matching_subplan_go [DecidableEq α]
    (request_dir source_floor target_floor : Int) :
    List (List (ElevatorStop α)) → Nat →
    Except String (Option (List (ElevatorStop α) × Nat))
  | [], _ => .ok none
  | subplan :: rest, i => do
    let firstFloor := (floorsOf subplan).getD 0 0
    let lastFloor := (floorsOf subplan).getLastD 0
    let subplan_dir := Int.sign (lastFloor - firstFloor)
    let subplan_set ← pyRange firstFloor lastFloor subplan_dir
    let request_set ← pyRange source_floor target_floor request_dir
    if subplan_dir = request_dir && request_set.all (· ∈ subplan_set) then
      .ok (some (subplan, i))
    else
      find_matching_subplan_go request_dir source_floor target_floor rest
        (i + 1)

/-- `ElevatorDispatcher.find_matching_subplan_for_request`. -/
def find_matching_subplan_for_request [DecidableEq α]
    (sorted_subplans : List (List (ElevatorStop α)))
    (source_floor target_floor : Int) :
    Except String (Option (List (ElevatorStop α) × Nat)) :=
  find_matching_subplan_go (Int.sign (target_floor - source_floor))
    source_floor target_floor sorted_subplans 0

/-- Rejoin loop of `build_updated_elevator_plan_for_request_in_elevator`:
concatenate all subplans, substituting the updated matching subplan at its
index. -/
def joinSubplans (subplans : List (List (ElevatorStop α)))
    (matching : List (ElevatorStop α)) (loc : Nat) :
    List (ElevatorStop α) :=
  (subplans.enum.map (fun p => if p.1 = loc then matching else p.2)).flatten

/-- `ElevatorDispatcher.build_updated_elevator_plan_for_request_in_elevator`. -/
def build_updated_elevator_plan_for_request_in_elevator [DecidableEq α]
    (elevator : Elevator α) (source_floor target_floor : Int) :
    Except String (List (ElevatorStop α)) :=
  let source_stop : ElevatorStop α := ⟨source_floor, [], []⟩
  let target_stop : ElevatorStop α := ⟨target_floor, [], []⟩
  match elevator.elevator_plan with
  | [] => .ok [source_stop, target_stop]
  | p0 :: _ =>
    let current_floor_is_first_stop := elevator.current_floor = p0.floor
    let current_floor_stop_repr : List (ElevatorStop α) :=
      if current_floor_is_first_stop then []
      else [⟨elevator.current_floor, [], []⟩]
    if elevator.elevator_plan.length = 1 ∧ current_floor_is_first_stop then
      .ok (elevator.elevator_plan ++ [source_stop, target_stop])
    else do
      let current_elevator_plan :=
        current_floor_stop_repr ++ elevator.elevator_plan
      let request_dir := Int.sign (target_floor - source_floor)
      let sorted_subplans ←
        split_plan_into_ordered_subplans current_elevator_plan
      let m ← find_matching_subplan_for_request sorted_subplans source_floor
        target_floor
      match m with
      | none =>
        .ok (coalesce_plan
          (elevator.elevator_plan ++ [source_stop, target_stop]))
      | some (matching_subplan, matching_subplan_loc) =>
        let matching_subplan :=
          matching_subplan ++ [source_stop, target_stop]
        let matching_subplan := sortByFloor request_dir matching_subplan
        let matching_subplan := coalesce_plan matching_subplan
        let new_elevator_plan :=
          joinSubplans sorted_subplans matching_subplan matching_subplan_loc
        let new_elevator_plan := coalesce_plan new_elevator_plan
        -- `new_elevator_plan[0] == current_floor_stop_repr[0]` is the Python
        -- dataclass (structural) equality; the rejoined plan is never empty.
        let new_elevator_plan :=
          if current_floor_stop_repr ≠ [] ∧
              new_elevator_plan.headD default =
                current_floor_stop_repr.headD default ∧
              ¬ (source_floor = elevator.current_floor) then
            new_elevator_plan.tail
          else new_elevator_plan
        if check_capacity elevator new_elevator_plan then
          .ok new_elevator_plan
        else
          .ok (coalesce_plan
            (elevator.elevator_plan ++ [source_stop, target_stop]))

/-- First index of the minimum (Python `min` keeps the first key whose value
is strictly smaller than the best so far, so ties go to the earliest key in
the dict's insertion order, which is the elevator list order). -/
def idxOfMinGo : List Int → Nat → Nat → Int → Nat
  | [], _, best, _ => best
  | v :: rest, i, best, bestVal =>
    if v < bestVal then idxOfMinGo rest (i + 1) i v
    else idxOfMinGo rest (i + 1) best bestVal

/-- `min(mapping, key=mapping.get)` over the insertion-ordered dict; `none`
models the `ValueError` that `min` raises on an empty sequence. -/
def idxOfMin : List Int → Option Nat
  | [] => none
  | v :: rest => some (idxOfMinGo rest 1 0 v)

/-- The per-elevator loop of `get_elevator_and_updated_plan_for_request`:
build a candidate plan and its total time for each elevator, in list order. -/
def buildAll [DecidableEq α] (source_floor target_floor : Int) :
    List (Elevator α) → Except String (List (Int × List (ElevatorStop α)))
  | [] => .ok []
  | e :: rest => do
    let plan ← build_updated_elevator_plan_for_request_in_elevator e
      source_floor target_floor
    let t ← get_total_time_for_request e.current_floor plan source_floor
      target_floor
    let restPairs ← buildAll source_floor target_floor rest
    return (t, plan) :: restPairs

/-- `ElevatorDispatcher.get_elevator_and_updated_plan_for_request`: build and
score a candidate plan per elevator, pick the elevator with the least total
time (first wins ties), then put the request into the chosen plan.  The
chosen elevator is returned as its index into the elevator list (Python
returns the object; distinct elevators are distinct dict keys by object
identity). -/
def get_elevator_and_updated_plan_for_request [DecidableEq α]
    (elevators : List (Elevator α)) (source_floor target_floor : Int)
    (request : α) : Except String (Nat × List (ElevatorStop α)) := do
  let pairs ← buildAll source_floor target_floor elevators
  match idxOfMin (pairs.map (·.1)) with
  | none => .error "min() arg is an empty sequence"
  | some i =>
    let chosen_plan := (pairs.map (·.2)).getD i []
    let res := put_request_id_in_elevator_plan source_floor target_floor
      request chosen_plan
    match res.2 with
    | some e => .error e
    | none => .ok (i, res.1)

/-
Engine embedding (`building_elevator_engine.py` together with
`models.Elevator.next`).  Requests live in the engine's master list
`elevator_requests`; plans reference them by index (`α := Nat`), which models
Python's object references: mutating `request.pickup_time` through a stop is
an update of the indexed entry.  `Elevator.next` can raise `ValueError` via
`passengers.remove`, modelled as an `Except` error, which aborts the run just
as the uncaught Python exception would.
-/

/-- One row of the engine's input table (`{time, id, source, dest}`). -/
structure Row where
  time : Int
  id : String
  source : Int
  dest : Int
deriving Repr, DecidableEq

/-- The engine's mutable state: the clock, the master request list, the
elevators and the elevator log (a list of `(tick, row)` pairs; each row holds
`(floor, state string, comma-joined passenger ids)` per elevator). -/
structure EngineState where
  time : Int
  elevator_requests : List CallRequest
  elevators : List (Elevator Nat)
  elevator_log : List (Int × List (Int × String × String))
deriving Repr, DecidableEq

instance : Inhabited EngineState := ⟨⟨-1, [], [], []⟩⟩

/-- Python `", ".join`. -/
def joinComma : List String → String
  | [] => ""
  | [x] => x
  | x :: xs => x ++ ", " ++ joinComma xs

/-- The row written for the current elevators: floor, `state.value` and the
comma-joined passenger list, one triple per elevator in order. -/
def logRow (elevators : List (Elevator Nat)) : List (Int × String × String) :=
  elevators.map (fun e =>
    (e.current_floor, e.state.value, joinComma e.passengers))

/-- `elevator_log_df.at[time, col] = v`: writes the cells of the row indexed
`t`, creating the row when absent (in engine runs the row is always new). -/
def setLogRow (log : List (Int × List (Int × String × String))) (t : Int)
    (row : List (Int × String × String)) :
    List (Int × List (Int × String × String)) :=
  if log.any (fun p => p.1 = t) then
    log.map (fun p => if p.1 = t then (t, row) else p)
  else log ++ [(t, row)]

/-- `BuildingElevatorEngine.update_elevator_log`. -/
def update_elevator_log (s : EngineState) : EngineState :=
  { s with elevator_log :=
      setLogRow s.elevator_log s.time (logRow s.elevators) }

/-- Python `list.remove(x)`: drop the first occurrence, `ValueError` when
absent. -/
def remove_first (x : String) : List String → Except String (List String)
  | [] => .error "list.remove(x): x not in list"
  | y :: ys =>
    if y = x then .ok ys
    else do
      let r ← remove_first x ys
      return y :: r

/-- Pickup loop of `Elevator.remove_current_floor_from_plan`: set each pickup
request's `pickup_time` and append its id to the passengers. -/
def servicePickups (time : Int) :
    List Nat → List CallRequest → List String →
    List CallRequest × List String
  | [], store, passengers => (store, passengers)
  | rid :: rest, store, passengers =>
    let req := store.getD rid default
    servicePickups time rest (store.set rid { req with pickup_time := time })
      (passengers ++ [req.id])

/-- Dropoff loop of `Elevator.remove_current_floor_from_plan`: set each
dropoff request's `dropoff_time` and remove its id from the passengers
(raising when the id is not on board, as `list.remove` does). -/
def serviceDropoffs (time : Int) :
    List Nat → List CallRequest → List String →
    Except String (List CallRequest × List String)
  | [], store, passengers => .ok (store, passengers)
  | rid :: rest, store, passengers => do
    let req := store.getD rid default
    let passengers ← remove_first req.id passengers
    serviceDropoffs time rest (store.set rid { req with dropoff_time := time })
      passengers

/-- `models.Elevator.next` (one tick): idle on an empty plan, move exactly one
floor towards the head stop, or service the head stop and drop it from the
plan. -/
def Elevator.next (e : Elevator Nat) (time : Int)
    (store : List CallRequest) :
    Except String (Elevator Nat × List CallRequest) :=
  match e.elevator_plan with
  | [] => .ok ({ e with state := .idle }, store)
  | s0 :: rest =>
    if e.current_floor < s0.floor then
      .ok ({ e with
              current_floor := e.current_floor + 1,
              state := .moving_upwards }, store)
    else if s0.floor < e.current_floor then
      .ok ({ e with
              current_floor := e.current_floor - 1,
              state := .moving_downwards }, store)
    else do
      let p := servicePickups time s0.pickup_requests store e.passengers
      let d ← serviceDropoffs time s0.dropoff_requests p.1 p.2
      .ok ({ e with
              state := .at_stop,
              passengers := d.2,
              elevator_plan := rest }, d.1)

/-- `BuildingElevatorEngine.fetch_call_requests_at_time_t`. -/
def fetch_call_requests_at_time_t (input_rows : List Row) (time : Int) :
    List Row :=
  input_rows.filter (fun r => r.time = time)

/-- The dispatch loop of `tick_time`.  `new_calls.pop()` pops from the end of
the fetched batch, so the batch is processed in reverse row order; the caller
passes the reversed batch here.  Each accepted request is appended to the
master list (its index is the token placed into the chosen plan), after
stamping `elevator_name`. -/
def processCallsRev (input_rows : List Row) :
    List Row → EngineState → Except String EngineState
  | [], s => .ok s
  | row :: rest, s => do
    let rid := s.elevator_requests.length
    let res ← get_elevator_and_updated_plan_for_request s.elevators
      row.source row.dest rid
    let elevators := modifyIdx
      (fun e => { e with elevator_plan := res.2 }) res.1 s.elevators
    let ename := (s.elevators.getD res.1 default).name
    let req : CallRequest :=
      { time := row.time, id := row.id, source_floor := row.source,
        target_floor := row.dest, pickup_time := -1, dropoff_time := -1,
        elevator_name := ename }
    processCallsRev input_rows rest
      { s with
          elevators := elevators,
          elevator_requests := s.elevator_requests ++ [req] }

/-- The movement loop of `tick_time`: advance every elevator in order,
threading the request store. -/
def nextAll (time : Int) :
    List (Elevator Nat) → List CallRequest →
    Except String (List (Elevator Nat) × List CallRequest)
  | [], store => .ok ([], store)
  | e :: rest, store => do
    let r ← Elevator.next e time store
    let rr ← nextAll time rest r.2
    return (r.1 :: rr.1, rr.2)

/-- `BuildingElevatorEngine.tick_time`: advance the clock, dispatch the
requests arriving at the new time (in reverse batch order), then move every
elevator one step. -/
def tick_time (input_rows : List Row) (s : EngineState) :
    Except String EngineState := do
  let s := { s with time := s.time + 1 }
  let new_calls := fetch_call_requests_at_time_t input_rows s.time
  let s ← processCallsRev input_rows new_calls.reverse s
  let r ← nextAll s.time s.elevators s.elevator_requests
  return { s with elevators := r.1, elevator_requests := r.2 }

/-- The `run_simulation` loop guard: some expected request has not yet been
accepted, or some accepted request is incomplete. -/
def loopCond (expected : Nat) (s : EngineState) : Bool :=
  s.elevator_requests.length < expected ||
    s.elevator_requests.any (fun r => !r.is_complete)

/-- The `while` loop of `run_simulation`, with explicit fuel: `none` means
the fuel ran out while the guard still held (the run has not terminated
within `fuel` ticks). -/
def run_loop (input_rows : List Row) (expected : Nat) :
    Nat → EngineState → Except String (Option EngineState)
  | 0, s => .ok (if loopCond expected s then none else some s)
  | fuel + 1, s =>
    if loopCond expected s then do
      let s := update_elevator_log s
      let s ← tick_time input_rows s
      run_loop input_rows expected fuel s
    else .ok (some s)

/-- `Building.__init__`: elevators `Ele 1 .. Ele n`, all idle on floor 1 with
no passengers and an empty plan. -/
def buildingElevators (number_of_elevators : Nat) (max_capacity : Int) :
    List (Elevator Nat) :=
  (List.range number_of_elevators).map (fun i =>
    { state := .idle, name := "Ele " ++ toString (i + 1), current_floor := 1,
      passengers := [], capacity := max_capacity, elevator_plan := [] })

/-- `BuildingElevatorEngine.run_simulation`: loop while the guard holds, then
write the final log snapshot.  `expected_request_count` is the input row
count; `ok none` is a run that did not terminate within the fuel. -/
def run_simulation (input_rows : List Row) (number_of_elevators : Nat)
    (max_capacity : Int) (fuel : Nat) :
    Except String (Option EngineState) := do
  let s0 : EngineState :=
    { time := -1, elevator_requests := [],
      elevators := buildingElevators number_of_elevators max_capacity,
      elevator_log := [] }
  let r ← run_loop input_rows input_rows.length fuel s0
  match r with
  | none => .ok none
  | some s => .ok (some (update_elevator_log s))

/-
Theorems.
-/

/-- Total movement along a path of floors starting from `prev`. -/
def pathDistance : Int → List Int → Int
  | _, [] => 0
  | prev, f :: rest => |f - prev| + pathDistance f rest

/-- The prefix of a plan up to and including the first stop on `target`
(used to state the wait-time formula of the spec). -/
def takeToFirstFloor (target : Int) :
    List (ElevatorStop α) → List (ElevatorStop α)
  | [] => []
  | s :: rest =>
    if s.floor = target then [s] else s :: takeToFirstFloor target rest

theorem get_wait_time_go_acc (source_floor : Int)
    (plan : List (ElevatorStop α)) :
    ∀ prev total, get_wait_time_go source_floor plan prev total =
      (get_wait_time_go source_floor plan prev 0).map (total + ·) := by
  induction plan with
  | nil => intro prev total; rfl
  | cons s rest ih =>
    intro prev total
    simp only [get_wait_time_go]
    by_cases h : s.floor = source_floor
    · simp [h, Except.map]
    · simp only [h, if_false]
      rw [ih s.floor (total + |s.floor - prev| + 1),
        ih s.floor (0 + |s.floor - prev| + 1)]
      cases get_wait_time_go source_floor rest s.floor 0 with
      | error e => rfl
      | ok v => simp [Except.map]; ring

theorem get_wait_time_error_iff (source_floor : Int)
    (plan : List (ElevatorStop α)) : ∀ current_floor,
    (get_wait_time_for_request source_floor plan current_floor =
        .error "Source floor not found in elevator's plan" ↔
      ∀ s ∈ plan, s.floor ≠ source_floor) := by
  induction plan with
  | nil => intro cf; simp [get_wait_time_for_request, get_wait_time_go]
  | cons s rest ih =>
    intro cf
    simp only [get_wait_time_for_request, get_wait_time_go]
    by_cases h : s.floor = source_floor
    · simp [h]
    · rw [if_neg h, get_wait_time_go_acc]
      have := ih s.floor
      simp only [get_wait_time_for_request] at this
      constructor
      · intro he
        have hbase : get_wait_time_go source_floor rest s.floor 0 =
            .error "Source floor not found in elevator's plan" := by
          cases hg : get_wait_time_go source_floor rest s.floor 0 with
          | error e => rw [hg] at he; simpa [Except.map] using he
          | ok v => rw [hg] at he; simp [Except.map] at he
        intro x hx
        rcases List.mem_cons.mp hx with hx' | hx'
        · subst hx'; exact h
        · exact (this.mp hbase) x hx'
      · intro hall
        have hbase := this.mpr (fun x hx => hall x (List.mem_cons_of_mem _ hx))
        rw [hbase]; rfl

theorem get_wait_time_found (source_floor : Int)
    (plan : List (ElevatorStop α)) : ∀ current_floor,
    (∃ s ∈ plan, s.floor = source_floor) →
    get_wait_time_for_request source_floor plan current_floor =
      .ok (pathDistance current_floor
          (floorsOf (takeToFirstFloor source_floor plan)) +
        ((takeToFirstFloor source_floor plan).length : Int) - 1) := by
  induction plan with
  | nil => intro cf h; simp at h
  | cons s rest ih =>
    intro cf h
    simp only [get_wait_time_for_request, get_wait_time_go]
    by_cases hs : s.floor = source_floor
    · simp [hs, takeToFirstFloor, floorsOf, pathDistance]
    · rw [if_neg hs, get_wait_time_go_acc]
      have hex : ∃ x ∈ rest, x.floor = source_floor := by
        rcases h with ⟨x, hx, hfx⟩
        rcases List.mem_cons.mp hx with hx' | hx'
        · exact absurd (hx' ▸ hfx) hs
        · exact ⟨x, hx', hfx⟩
      have := ih s.floor hex
      simp only [get_wait_time_for_request] at this
      rw [this]
      simp only [takeToFirstFloor, if_neg hs, floorsOf, List.map_cons,
        pathDistance, List.length_cons, Except.map]
      congr 1
      push_cast
      ring

/-- C7: `get_wait_time_for_request` raises the dispatch error exactly when no
stop of the plan is on the request's source floor; otherwise it returns the
movement from the current floor through the successive stops up to and
including the first stop on the source floor, plus one dwell tick per
intermediate stop strictly before that stop and none for the source stop
itself. -/
theorem claim_C7_wait_time (plan : List (ElevatorStop CallRequest))
    (source_floor current_floor : Int) :
    (get_wait_time_for_request source_floor plan current_floor =
        .error "Source floor not found in elevator's plan" ↔
      ∀ s ∈ plan, s.floor ≠ source_floor) ∧
    ((∃ s ∈ plan, s.floor = source_floor) →
      get_wait_time_for_request source_floor plan current_floor =
        .ok (pathDistance current_floor
            (floorsOf (takeToFirstFloor source_floor plan)) +
          ((takeToFirstFloor source_floor plan).length : Int) - 1)) :=
  ⟨get_wait_time_error_iff source_floor plan current_floor,
    get_wait_time_found source_floor plan current_floor⟩

/-- Witness for C7 on the plan `[floor 4, floor 2]` with source floor 2 and
current floor 1: wait is |4-1| + |2-4| + one dwell at floor 4. -/
theorem claim_C7_wait_time_witness :
    get_wait_time_for_request 2
      [(⟨4, [], []⟩ : ElevatorStop CallRequest), ⟨2, [], []⟩] 1 = .ok 6 := by
  have h := (claim_C7_wait_time
    [(⟨4, [], []⟩ : ElevatorStop CallRequest), ⟨2, [], []⟩] 2 1).2
    ⟨⟨2, [], []⟩, by simp, rfl⟩
  simpa [takeToFirstFloor, floorsOf, pathDistance] using h

/-- C10: `split_plan_into_ordered_subplans` raises "Plan is too small to
split" exactly when the plan has fewer than two stops, and returns normally
for every input with at least two stops. -/
theorem claim_C10_split_small (elevator_plan : List (ElevatorStop CallRequest)) :
    (split_plan_into_ordered_subplans elevator_plan =
        .error "Plan is too small to split" ↔ elevator_plan.length < 2) ∧
    ((∃ out, split_plan_into_ordered_subplans elevator_plan = .ok out) ↔
      ¬ elevator_plan.length < 2) := by
  by_cases h : elevator_plan.length < 2
  · simp [split_plan_into_ordered_subplans, h]
  · simp [split_plan_into_ordered_subplans, h]

theorem inflection_go_all_same (fl : List Int) (d : Int) :
    ∀ fuel i, (∀ k, i ≤ k → k + 1 < fl.length →
      Int.sign (fl.getD (k + 1) 0 - fl.getD k 0) = d) →
    inflection_go fl fuel i d = [] := by
  intro fuel
  induction fuel with
  | zero => intro i _; rfl
  | succ n ih =>
    intro i hall
    simp only [inflection_go]
    by_cases hlt : i + 1 < fl.length
    · rw [if_pos hlt]
      have hd := hall i le_rfl hlt
      simp only [hd, ne_eq, not_true_eq_false, if_false, ite_false]
      exact ih (i + 1) (fun k hk hk1 => hall k (le_trans (Nat.le_succ i) hk) hk1)
    · rw [if_neg hlt]

theorem floorsOf_getD (plan : List (ElevatorStop α)) (i : Nat) (h : i < plan.length) :
    (floorsOf plan).getD i 0 = (plan.get ⟨i, h⟩).floor := by
  simp [floorsOf, List.getD, List.getElem?_map, List.getElem?_eq_getElem h,
    List.get_eq_getElem]

/-- C9: splitting a strictly monotone plan of at least two stops yields
exactly one subplan, equal to the input. -/
theorem claim_C9_split_monotone (plan : List (ElevatorStop CallRequest))
    (hlen : 2 ≤ plan.length)
    (hmono : List.Chain' (fun a b : ElevatorStop CallRequest => a.floor < b.floor) plan ∨
      List.Chain' (fun a b : ElevatorStop CallRequest => b.floor < a.floor) plan) :
    split_plan_into_ordered_subplans plan = .ok [plan] := by
  have hnot : ¬ plan.length < 2 := by omega
  have hfl : (floorsOf plan).length = plan.length := by simp [floorsOf]
  -- every consecutive floor difference has the same sign d
  obtain ⟨d, hd⟩ : ∃ d : Int, ∀ k, k + 1 < plan.length →
      Int.sign ((floorsOf plan).getD (k + 1) 0 - (floorsOf plan).getD k 0) = d := by
    rcases hmono with hup | hdown
    · refine ⟨1, fun k hk => ?_⟩
      have hk' : k < plan.length - 1 := by omega
      have := List.chain'_iff_get.mp hup k hk'
      rw [floorsOf_getD plan k (by omega), floorsOf_getD plan (k + 1) hk]
      exact Int.sign_eq_one_of_pos (by omega)
    · refine ⟨-1, fun k hk => ?_⟩
      have hk' : k < plan.length - 1 := by omega
      have := List.chain'_iff_get.mp hdown k hk'
      rw [floorsOf_getD plan k (by omega), floorsOf_getD plan (k + 1) hk]
      exact Int.sign_eq_neg_one_of_neg (by omega)
  have hdir0 : Int.sign ((floorsOf plan).getD 1 0 - (floorsOf plan).getD 0 0) = d :=
    hd 0 (by omega)
  simp only [split_plan_into_ordered_subplans, hnot, if_false, ite_false]
  rw [hdir0, inflection_go_all_same (floorsOf plan) d (floorsOf plan).length 1
    (fun k _ hk1 => hd k (by rw [hfl] at hk1; exact hk1))]
  simp [subplans_go, pySlice]

/-- Witness for C9 on the ascending plan `[2, 5]`. -/
theorem claim_C9_split_monotone_witness :
    split_plan_into_ordered_subplans
      [(⟨2, [], []⟩ : ElevatorStop CallRequest), ⟨5, [], []⟩] =
      .ok [[⟨2, [], []⟩, ⟨5, [], []⟩]] :=
  claim_C9_split_monotone [⟨2, [], []⟩, ⟨5, [], []⟩] (by decide)
    (Or.inl (List.chain'_cons.mpr ⟨by norm_num, List.chain'_singleton _⟩))

/-- C3 (failing input): coalescing three stops that all sit on floor 1
leaves two adjacent stops on the same floor, because the scan skips the
comparison after a merge.  This evaluates `coalesce_plan` at the failing
input and records that the claimed postcondition fails there. -/
theorem claim_C3_coalesce_three_same_floor :
    coalesce_plan [(⟨1, [], []⟩ : ElevatorStop CallRequest), ⟨1, [], []⟩,
        ⟨1, [], []⟩] = [⟨1, [], []⟩, ⟨1, [], []⟩] ∧
    ¬ List.Chain' (fun a b : ElevatorStop CallRequest => a.floor ≠ b.floor)
      (coalesce_plan [(⟨1, [], []⟩ : ElevatorStop CallRequest), ⟨1, [], []⟩,
        ⟨1, [], []⟩]) := by
  have h1 : coalesce_plan [(⟨1, [], []⟩ : ElevatorStop CallRequest),
      ⟨1, [], []⟩, ⟨1, [], []⟩] = [⟨1, [], []⟩, ⟨1, [], []⟩] := rfl
  refine ⟨h1, ?_⟩
  rw [h1]
  intro h
  exact (List.chain'_cons.mp h).1 rfl

/-- C2 (counterexample): on the plan `[stop 7]` with a request from floor 3
to floor 7 the target floor is present, yet `get_travel_time_for_request`
returns -1 (the dwell tick is subtracted before any pickup happened),
contradicting the claimed non-negativity. -/
theorem claim_C2_counterexample :
    get_travel_time_for_request 3 7
      [(⟨7, [], []⟩ : ElevatorStop CallRequest)] = .ok (-1) ∧
    (∃ s ∈ [(⟨7, [], []⟩ : ElevatorStop CallRequest)], s.floor = 7) ∧
    (-1 : Int) < 0 := by
  refine ⟨rfl, ⟨⟨7, [], []⟩, by simp, rfl⟩, by decide⟩

theorem pathDistance_nonneg : ∀ (prev : Int) (l : List Int),
    0 ≤ pathDistance prev l := by
  intro prev l
  induction l generalizing prev with
  | nil => simp [pathDistance]
  | cons f rest ih =>
    have := abs_nonneg (f - prev)
    have := ih f
    simp only [pathDistance]
    omega

theorem get_travel_time_go_step_false (source_floor target_floor : Int)
    (s : ElevatorStop α) (rest : List (ElevatorStop α)) (prev total : Int) :
    get_travel_time_go source_floor target_floor (s :: rest) prev false
        total =
      if s.floor = target_floor then .ok (total - 1)
      else get_travel_time_go source_floor target_floor rest s.floor
        (decide (s.floor = source_floor)) total := by
  simp [get_travel_time_go]

theorem get_travel_time_go_step_true (source_floor target_floor : Int)
    (s : ElevatorStop α) (rest : List (ElevatorStop α)) (prev total : Int) :
    get_travel_time_go source_floor target_floor (s :: rest) prev true
        total =
      if s.floor = target_floor then
        .ok (total + |s.floor - prev| + 1 - 1)
      else get_travel_time_go source_floor target_floor rest s.floor true
        (total + |s.floor - prev| + 1) := by
  simp [get_travel_time_go]

theorem get_travel_time_go_after_pickup (source_floor target_floor : Int)
    (tStop : ElevatorStop α) (C : List (ElevatorStop α))
    (ht : tStop.floor = target_floor) :
    ∀ (B : List (ElevatorStop α)) (prev total : Int),
    (∀ s ∈ B, s.floor ≠ target_floor) →
    get_travel_time_go source_floor target_floor (B ++ tStop :: C) prev true
        total =
      .ok (total + pathDistance prev (floorsOf B ++ [target_floor]) +
        (B.length : Int)) := by
  intro B
  induction B with
  | nil =>
    intro prev total _
    rw [List.nil_append, get_travel_time_go_step_true, if_pos ht]
    simp only [floorsOf, List.map_nil, List.nil_append, pathDistance,
      List.length_nil, ht]
    norm_num
  | cons b B' ih =>
    intro prev total hB
    have hb : b.floor ≠ target_floor := hB b (List.mem_cons_self b B')
    rw [List.cons_append, get_travel_time_go_step_true, if_neg hb,
      ih b.floor (total + |b.floor - prev| + 1)
        (fun s hs => hB s (List.mem_cons_of_mem _ hs))]
    simp only [floorsOf, List.map_cons, pathDistance, List.length_cons,
      List.cons_append, List.append_eq]
    congr 1
    push_cast
    ring

/-- C2 (amended): when the first stop on the target floor comes strictly
after the first stop on the source floor, `get_travel_time_for_request`
returns the movement over the stops strictly after that first source stop up
to and including that target stop, plus one dwell tick per intermediate stop
and none at the target stop, and the result is non-negative. -/
theorem claim_C2_travel_time (A B C : List (ElevatorStop CallRequest))
    (sStop tStop : ElevatorStop CallRequest) (source_floor target_floor : Int)
    (hst : source_floor ≠ target_floor)
    (hs : sStop.floor = source_floor) (ht : tStop.floor = target_floor)
    (hA : ∀ s ∈ A, s.floor ≠ source_floor ∧ s.floor ≠ target_floor)
    (hB : ∀ s ∈ B, s.floor ≠ target_floor) :
    get_travel_time_for_request source_floor target_floor
        (A ++ (sStop :: (B ++ (tStop :: C)))) =
      .ok (pathDistance source_floor (floorsOf B ++ [target_floor]) +
        (B.length : Int)) ∧
    0 ≤ pathDistance source_floor (floorsOf B ++ [target_floor]) +
      (B.length : Int) := by
  constructor
  · simp only [get_travel_time_for_request]
    -- walk the prefix A: pickup not done, nothing accumulates
    have walkA : ∀ (A' : List (ElevatorStop CallRequest)) (prev : Int),
        (∀ s ∈ A', s.floor ≠ source_floor ∧ s.floor ≠ target_floor) →
        get_travel_time_go source_floor target_floor
            (A' ++ (sStop :: (B ++ (tStop :: C)))) prev false 0 =
          get_travel_time_go source_floor target_floor
            (sStop :: (B ++ (tStop :: C))) prev false 0 := by
      intro A'
      induction A' with
      | nil => intro prev _; rfl
      | cons a A'' ih =>
        intro prev ha
        have h1 := ha a (List.mem_cons_self a A'')
        rw [List.cons_append, get_travel_time_go_step_false, if_neg h1.2,
          decide_eq_false h1.1]
        exact ih a.floor (fun s hs => ha s (List.mem_cons_of_mem _ hs))
    rw [walkA A _ hA]
    rw [get_travel_time_go_step_false, if_neg (hs ▸ hst), hs,
      decide_eq_true rfl]
    have := get_travel_time_go_after_pickup source_floor target_floor tStop C
      ht B source_floor 0 hB
    rw [this]
    congr 1
    ring
  · have h1 := pathDistance_nonneg source_floor (floorsOf B ++ [target_floor])
    have h2 : (0 : Int) ≤ (B.length : Int) := by positivity
    omega

/-- Witness for C2 (amended) on the plan `[4, 3(source), 5, 7(target)]` with
request 3 → 7: movement |5-3| + |7-5| plus one dwell at floor 5. -/
theorem claim_C2_travel_time_witness :
    get_travel_time_for_request 3 7
      [(⟨4, [], []⟩ : ElevatorStop CallRequest), ⟨3, [], []⟩, ⟨5, [], []⟩,
        ⟨7, [], []⟩] = .ok 5 := by
  have h := (claim_C2_travel_time [⟨4, [], []⟩] [⟨5, [], []⟩] []
    ⟨3, [], []⟩ ⟨7, [], []⟩ 3 7 (by decide) rfl rfl
    (by intro s hs; simp at hs; simp [hs]) (by intro s hs; simp at hs; simp [hs])).1
  simpa [floorsOf, pathDistance] using h

theorem lastIdxWhere_eq_none (p : α → Bool) :
    ∀ l : List α, (∀ x ∈ l, ¬ p x) → lastIdxWhere p l = none := by
  intro l
  induction l with
  | nil => intro _; rfl
  | cons x xs ih =>
    intro h
    have hx : p x = false := by
      have := h x (List.mem_cons_self x xs)
      simpa using this
    simp [lastIdxWhere, ih (fun y hy => h y (List.mem_cons_of_mem _ hy)), hx]

/-- C8: on a non-empty plan whose only stop on the request's target floor is
at index 0, `put_request_id_in_elevator_plan` raises "Could not find target
floor in new plan" (because `if not target_index:` treats index 0 as
missing), after having already appended the request to that stop's dropoff
set, leaving the plan mutated. -/
theorem claim_C8_put_request_target_at_head (p0 : ElevatorStop CallRequest)
    (rest : List (ElevatorStop CallRequest)) (r : CallRequest)
    (h0 : p0.floor = r.target_floor)
    (hrest : ∀ s ∈ rest, s.floor ≠ r.target_floor) :
    put_request_id_in_elevator_plan r.source_floor r.target_floor r
        (p0 :: rest) =
      ({ p0 with dropoff_requests := p0.dropoff_requests ++ [r] } :: rest,
        some "Could not find target floor in new plan") := by
  have hnone : lastIdxWhere (fun s => s.floor == r.target_floor) rest = none :=
    lastIdxWhere_eq_none _ rest (by
      intro x hx
      simp [hrest x hx])
  simp only [put_request_id_in_elevator_plan, lastIdxWhere, hnone]
  rw [if_pos (by simp [h0])]
  simp [modifyIdx]

/-- Witness for C8: plan `[floor 4, floor 9]`, request 2 → 4. -/
theorem claim_C8_put_request_target_at_head_witness :
    put_request_id_in_elevator_plan
      (⟨0, "w", 2, 4, -1, -1, ""⟩ : CallRequest).source_floor
      (⟨0, "w", 2, 4, -1, -1, ""⟩ : CallRequest).target_floor
      (⟨0, "w", 2, 4, -1, -1, ""⟩ : CallRequest)
      ([⟨4, [], []⟩, ⟨9, [], []⟩] : List (ElevatorStop CallRequest)) =
      ([⟨4, [], [⟨0, "w", 2, 4, -1, -1, ""⟩]⟩, ⟨9, [], []⟩],
        some "Could not find target floor in new plan") := by
  have h := claim_C8_put_request_target_at_head ⟨4, [], []⟩ [⟨9, [], []⟩]
    ⟨0, "w", 2, 4, -1, -1, ""⟩ rfl (by intro s hs; simp at hs; simp [hs])
  simpa using h

/-- The id strings of the requests referenced by a token list. -/
def idsOf (store : List CallRequest) (l : List Nat) : List String :=
  l.map (fun rid => (store.getD rid default).id)

theorem getD_set_self (store : List CallRequest) (rid : Nat)
    (v : CallRequest) (h : rid < store.length) :
    (store.set rid v).getD rid default = v := by
  simp [List.getD_eq_getElem?_getD, List.getElem?_set_self h]

theorem getD_set_ne (store : List CallRequest) (rid x : Nat)
    (v : CallRequest) (h : rid ≠ x) :
    (store.set rid v).getD x default = store.getD x default := by
  simp [List.getD_eq_getElem?_getD, List.getElem?_set_ne h]

theorem servicePickups_length (t : Int) :
    ∀ (l : List Nat) (store : List CallRequest) (ps : List String),
    (servicePickups t l store ps).1.length = store.length := by
  intro l
  induction l with
  | nil => intro store ps; rfl
  | cons rid rest ih =>
    intro store ps
    simp only [servicePickups]
    rw [ih]
    simp

theorem servicePickups_id_stable (t : Int) :
    ∀ (l : List Nat) (store : List CallRequest) (ps : List String) (x : Nat),
    ((servicePickups t l store ps).1.getD x default).id =
      (store.getD x default).id := by
  intro l
  induction l with
  | nil => intro store ps x; rfl
  | cons rid rest ih =>
    intro store ps x
    simp only [servicePickups]
    rw [ih]
    by_cases hx : rid = x
    · subst hx
      by_cases hr : rid < store.length
      · rw [getD_set_self store rid _ hr]
      · rw [List.set_eq_of_length_le (by omega)]
    · rw [getD_set_ne store rid x _ hx]

theorem servicePickups_getD_not_mem (t : Int) :
    ∀ (l : List Nat) (store : List CallRequest) (ps : List String) (x : Nat),
    x ∉ l →
    (servicePickups t l store ps).1.getD x default = store.getD x default := by
  intro l
  induction l with
  | nil => intro store ps x _; rfl
  | cons rid rest ih =>
    intro store ps x hx
    simp only [servicePickups]
    rw [ih _ _ _ (fun h => hx (List.mem_cons_of_mem _ h)),
      getD_set_ne store rid x _ (fun h => hx (h ▸ List.mem_cons_self rid rest))]

theorem servicePickups_pickup_time (t : Int) :
    ∀ (l : List Nat) (store : List CallRequest) (ps : List String)
      (rid : Nat), rid ∈ l → rid < store.length →
    ((servicePickups t l store ps).1.getD rid default).pickup_time = t := by
  intro l
  induction l with
  | nil => intro store ps rid h; simp at h
  | cons r0 rest ih =>
    intro store ps rid hmem hlt
    simp only [servicePickups]
    by_cases hr : rid ∈ rest
    · exact ih _ _ rid hr (by simpa using hlt)
    · have h0 : rid = r0 := by
        rcases List.mem_cons.mp hmem with h | h
        · exact h
        · exact absurd h hr
      subst h0
      rw [servicePickups_getD_not_mem t rest _ _ rid hr,
        getD_set_self store rid _ hlt]

theorem servicePickups_passengers (t : Int) :
    ∀ (l : List Nat) (store : List CallRequest) (ps : List String),
    (servicePickups t l store ps).2 = ps ++ idsOf store l := by
  intro l
  induction l with
  | nil => intro store ps; simp [servicePickups, idsOf]
  | cons rid rest ih =>
    intro store ps
    simp only [servicePickups, idsOf]
    rw [ih]
    have hids : idsOf (store.set rid
        { store.getD rid default with pickup_time := t }) rest =
        idsOf store rest := by
      simp only [idsOf]
      apply List.map_congr_left
      intro x _
      by_cases hx : rid = x
      · subst hx
        by_cases hr : rid < store.length
        · rw [getD_set_self store rid _ hr]
        · rw [List.set_eq_of_length_le (by omega)]
      · rw [getD_set_ne store rid x _ hx]
    rw [hids]
    simp [idsOf]

theorem remove_first_ok (x : String) :
    ∀ (l l' : List String), remove_first x l = .ok l' →
    (∀ y ∈ l', y ∈ l) ∧ (l.Nodup → x ∉ l' ∧ l'.Nodup) ∧
    (∀ y, y ∈ l → y ≠ x → y ∈ l') := by
  intro l
  induction l with
  | nil => intro l' h; simp [remove_first] at h
  | cons z zs ih =>
    intro l' h
    simp only [remove_first] at h
    by_cases hz : z = x
    · rw [if_pos hz] at h
      cases h
      subst hz
      refine ⟨fun y hy => List.mem_cons_of_mem _ hy, fun hnd => ?_, ?_⟩
      · exact ⟨(List.nodup_cons.mp hnd).1, (List.nodup_cons.mp hnd).2⟩
      · intro y hy hyx
        rcases List.mem_cons.mp hy with h | h
        · exact absurd h hyx
        · exact h
    · rw [if_neg hz] at h
      cases hr : remove_first x zs with
      | error e => rw [hr] at h; simp [Except.bind] at h
      | ok zs' =>
        rw [hr] at h
        simp only [Except.bind, Except.ok.injEq, bind, pure] at h
        have hl' : l' = z :: zs' := by
          cases h; rfl
        subst hl'
        obtain ⟨h1, h2, h3⟩ := ih zs' hr
        refine ⟨?_, ?_, ?_⟩
        · intro y hy
          rcases List.mem_cons.mp hy with h | h
          · exact h ▸ List.mem_cons_self z zs
          · exact List.mem_cons_of_mem _ (h1 y h)
        · intro hnd
          obtain ⟨hz1, hz2⟩ := List.nodup_cons.mp hnd
          obtain ⟨hx1, hx2⟩ := h2 hz2
          refine ⟨?_, List.nodup_cons.mpr ⟨fun hc => hz1 (h1 z hc), hx2⟩⟩
          intro hc
          rcases List.mem_cons.mp hc with h | h
          · exact hz (h.symm)
          · exact hx1 h
        · intro y hy hyx
          rcases List.mem_cons.mp hy with h | h
          · exact h ▸ List.mem_cons_self z zs'
          · exact List.mem_cons_of_mem _ (h3 y h hyx)

theorem serviceDropoffs_entries (t : Int) :
    ∀ (l : List Nat) (store store' : List CallRequest)
      (ps ps' : List String),
    serviceDropoffs t l store ps = .ok (store', ps') →
    store'.length = store.length ∧
    (∀ x, ((store'.getD x default).pickup_time =
        (store.getD x default).pickup_time ∧
      (store'.getD x default).id = (store.getD x default).id)) ∧
    (∀ y ∈ ps', y ∈ ps) := by
  intro l
  induction l with
  | nil =>
    intro store store' ps ps' h
    simp only [serviceDropoffs] at h
    cases h
    exact ⟨rfl, fun x => ⟨rfl, rfl⟩, fun y hy => hy⟩
  | cons rid rest ih =>
    intro store store' ps ps' h
    simp only [serviceDropoffs] at h
    cases hr : remove_first (store.getD rid default).id ps with
    | error e =>
      rw [hr] at h
      simp [Except.bind, bind] at h
    | ok ps1 =>
      rw [hr] at h
      simp only [Except.bind, bind] at h
      obtain ⟨hlen, hent, hsub⟩ := ih _ _ _ _ h
      have hstep : ∀ x,
          (((store.set rid { store.getD rid default with
              dropoff_time := t }).getD x default).pickup_time =
            (store.getD x default).pickup_time ∧
          ((store.set rid { store.getD rid default with
              dropoff_time := t }).getD x default).id =
            (store.getD x default).id) := by
        intro x
        by_cases hx : rid = x
        · subst hx
          by_cases hl : rid < store.length
          · rw [getD_set_self store rid _ hl]; exact ⟨rfl, rfl⟩
          · rw [List.set_eq_of_length_le (by omega)]; exact ⟨rfl, rfl⟩
        · rw [getD_set_ne store rid x _ hx]; exact ⟨rfl, rfl⟩
      refine ⟨by rw [hlen]; simp, fun x => ?_, ?_⟩
      · exact ⟨((hent x).1).trans (hstep x).1, ((hent x).2).trans (hstep x).2⟩
      · intro y hy
        exact (remove_first_ok _ ps ps1 hr).1 y (hsub y hy)

theorem serviceDropoffs_getD_not_mem (t : Int) :
    ∀ (l : List Nat) (store store' : List CallRequest)
      (ps ps' : List String) (x : Nat),
    serviceDropoffs t l store ps = .ok (store', ps') → x ∉ l →
    store'.getD x default = store.getD x default := by
  intro l
  induction l with
  | nil =>
    intro store store' ps ps' x h _
    simp only [serviceDropoffs] at h
    cases h
    rfl
  | cons rid rest ih =>
    intro store store' ps ps' x h hx
    simp only [serviceDropoffs] at h
    cases hr : remove_first (store.getD rid default).id ps with
    | error e => rw [hr] at h; simp [Except.bind, bind] at h
    | ok ps1 =>
      rw [hr] at h
      simp only [Except.bind, bind] at h
      rw [ih _ _ _ _ x h (fun hc => hx (List.mem_cons_of_mem _ hc)),
        getD_set_ne store rid x _
          (fun hc => hx (hc ▸ List.mem_cons_self rid rest))]

theorem CallRequest.set_dropoff_twice (r : CallRequest) (t : Int) :
    ({ { r with dropoff_time := t } with dropoff_time := t } :
      CallRequest) = { r with dropoff_time := t } := rfl

theorem serviceDropoffs_dropoff_entry (t : Int) :
    ∀ (l : List Nat) (store store' : List CallRequest)
      (ps ps' : List String) (rid : Nat),
    serviceDropoffs t l store ps = .ok (store', ps') →
    rid ∈ l → rid < store.length →
    store'.getD rid default =
      { store.getD rid default with dropoff_time := t } := by
  intro l
  induction l with
  | nil => intro _ _ _ _ rid _ h; simp at h
  | cons r0 rest ih =>
    intro store store' ps ps' rid h hmem hlt
    simp only [serviceDropoffs] at h
    cases hr : remove_first (store.getD r0 default).id ps with
    | error e => rw [hr] at h; simp [Except.bind, bind] at h
    | ok ps1 =>
      rw [hr] at h
      simp only [Except.bind, bind] at h
      by_cases hrr : rid ∈ rest
      · have := ih _ _ _ _ rid h hrr (by simpa using hlt)
        rw [this]
        by_cases h0 : r0 = rid
        · subst h0
          rw [getD_set_self store r0 _ hlt]
        · rw [getD_set_ne store r0 rid _ h0]
      · have h0 : rid = r0 := by
          rcases List.mem_cons.mp hmem with hh | hh
          · exact hh
          · exact absurd hh hrr
        subst h0
        rw [serviceDropoffs_getD_not_mem t rest _ _ _ _ rid h hrr,
          getD_set_self store rid _ hlt]

theorem getD_id_set (store : List CallRequest) (rid : Nat) (v : CallRequest)
    (hid : v.id = (store.getD rid default).id) (x : Nat) :
    ((store.set rid v).getD x default).id = (store.getD x default).id := by
  by_cases hx : rid = x
  · subst hx
    by_cases hr : rid < store.length
    · rw [getD_set_self store rid _ hr, hid]
    · rw [List.set_eq_of_length_le (by omega)]
  · rw [getD_set_ne store rid x _ hx]

theorem idsOf_set (store : List CallRequest) (rid : Nat) (v : CallRequest)
    (hid : v.id = (store.getD rid default).id) (l : List Nat) :
    idsOf (store.set rid v) l = idsOf store l := by
  simp only [idsOf]
  apply List.map_congr_left
  intro x _
  exact getD_id_set store rid v hid x

theorem serviceDropoffs_keeps (t : Int) :
    ∀ (l : List Nat) (store store' : List CallRequest)
      (ps ps' : List String) (y : String),
    serviceDropoffs t l store ps = .ok (store', ps') →
    y ∈ ps → y ∉ idsOf store l → y ∈ ps' := by
  intro l
  induction l with
  | nil =>
    intro store store' ps ps' y h hy _
    simp only [serviceDropoffs] at h
    cases h
    exact hy
  | cons rid rest ih =>
    intro store store' ps ps' y h hy hni
    simp only [serviceDropoffs] at h
    cases hr : remove_first (store.getD rid default).id ps with
    | error e => rw [hr] at h; simp [Except.bind, bind] at h
    | ok ps1 =>
      rw [hr] at h
      simp only [Except.bind, bind] at h
      have hyne : y ≠ (store.getD rid default).id := by
        intro hc
        exact hni (hc ▸ List.mem_cons_self _ _)
      have hy1 : y ∈ ps1 := (remove_first_ok _ ps ps1 hr).2.2 y hy hyne
      refine ih _ _ _ _ y h hy1 ?_
      rw [idsOf_set store rid
        { store.getD rid default with dropoff_time := t } rfl rest]
      intro hc
      exact hni (List.mem_cons_of_mem _ hc)

theorem serviceDropoffs_removes (t : Int) :
    ∀ (l : List Nat) (store store' : List CallRequest)
      (ps ps' : List String),
    serviceDropoffs t l store ps = .ok (store', ps') → ps.Nodup →
    ∀ rid ∈ l, (store.getD rid default).id ∉ ps' := by
  intro l
  induction l with
  | nil => intro _ _ _ _ _ _ rid h; simp at h
  | cons r0 rest ih =>
    intro store store' ps ps' h hnd rid hmem
    simp only [serviceDropoffs] at h
    cases hr : remove_first (store.getD r0 default).id ps with
    | error e => rw [hr] at h; simp [Except.bind, bind] at h
    | ok ps1 =>
      rw [hr] at h
      simp only [Except.bind, bind] at h
      obtain ⟨hnot1, hnd1⟩ := (remove_first_ok _ ps ps1 hr).2.1 hnd
      by_cases hrr : rid ∈ rest
      · have := ih _ _ _ _ h hnd1 rid hrr
        rwa [getD_id_set store r0
          { store.getD r0 default with dropoff_time := t } rfl rid] at this
      · have h0 : rid = r0 := by
          rcases List.mem_cons.mp hmem with hh | hh
          · exact hh
          · exact absurd hh hrr
        subst h0
        intro hc
        have hsub := (serviceDropoffs_entries t rest _ _ _ _ h).2.2
        exact hnot1 (hsub _ hc)

/-- C5: one `Elevator.next` tick.  An empty plan makes the elevator idle and
changes nothing else.  Otherwise the elevator moves exactly one floor towards
the head stop (setting the matching moving state), or, on the head stop's
floor, enters `at_stop`, stamps `pickup_time = T` and appends the id for
every pickup request of the head stop, stamps `dropoff_time = T` and removes
the id for every dropoff request, and drops the head stop; in all cases the
current floor changes by at most one. -/
theorem claim_C5_elevator_tick (e : Elevator Nat) (t : Int)
    (store : List CallRequest) :
    (e.elevator_plan = [] →
      Elevator.next e t store = .ok ({ e with state := .idle }, store)) ∧
    (∀ s0 rest, e.elevator_plan = s0 :: rest →
      (e.current_floor < s0.floor →
        Elevator.next e t store =
          .ok ({ e with
                  current_floor := e.current_floor + 1,
                  state := .moving_upwards }, store)) ∧
      (s0.floor < e.current_floor →
        Elevator.next e t store =
          .ok ({ e with
                  current_floor := e.current_floor - 1,
                  state := .moving_downwards }, store)) ∧
      (e.current_floor = s0.floor →
        ∀ e' store', Elevator.next e t store = .ok (e', store') →
          e'.state = .at_stop ∧
          e'.current_floor = e.current_floor ∧
          e'.elevator_plan = rest ∧
          (∀ rid ∈ s0.pickup_requests, rid < store.length →
            (store'.getD rid default).pickup_time = t) ∧
          (∀ rid ∈ s0.dropoff_requests, rid < store.length →
            (store'.getD rid default).dropoff_time = t) ∧
          ((e.passengers ++ idsOf store s0.pickup_requests).Nodup →
            (∀ rid ∈ s0.pickup_requests,
              (store.getD rid default).id ∉
                idsOf store s0.dropoff_requests →
              (store.getD rid default).id ∈ e'.passengers) ∧
            (∀ rid ∈ s0.dropoff_requests,
              (store.getD rid default).id ∉ e'.passengers)))) ∧
    (∀ e' store', Elevator.next e t store = .ok (e', store') →
      (e'.current_floor - e.current_floor).natAbs ≤ 1) := by
  refine ⟨?_, ?_, ?_⟩
  · intro hp
    simp [Elevator.next, hp]
  · intro s0 rest hp
    refine ⟨?_, ?_, ?_⟩
    · intro hlt
      simp only [Elevator.next, hp]
      rw [if_pos hlt]
    · intro hgt
      simp only [Elevator.next, hp]
      rw [if_neg (by omega), if_pos hgt]
    · intro heq e' store' hok
      simp only [Elevator.next, hp] at hok
      rw [if_neg (by omega), if_neg (by omega)] at hok
      set p := servicePickups t s0.pickup_requests store e.passengers with hpdef
      cases hd : serviceDropoffs t s0.dropoff_requests p.1 p.2 with
      | error er =>
        rw [hd] at hok
        simp [Except.bind, bind] at hok
      | ok d =>
        rw [hd] at hok
        simp only [Except.bind, bind, Except.ok.injEq, Prod.mk.injEq] at hok
        obtain ⟨he', hstore'⟩ := hok
        have hplen : p.1.length = store.length := servicePickups_length t _ _ _
        have hids : ∀ l, idsOf p.1 l = idsOf store l := by
          intro l
          simp only [idsOf]
          apply List.map_congr_left
          intro x _
          exact servicePickups_id_stable t s0.pickup_requests store
            e.passengers x
        refine ⟨by rw [← he'], by rw [← he'], by rw [← he'], ?_, ?_, ?_⟩
        · intro rid hm hlt
          have hpick : (p.1.getD rid default).pickup_time = t :=
            servicePickups_pickup_time t _ store e.passengers rid hm hlt
          have := ((serviceDropoffs_entries t _ _ _ _ _ hd).2.1 rid).1
          rw [← hstore', this, hpick]
        · intro rid hm hlt
          have := serviceDropoffs_dropoff_entry t _ _ _ _ _ rid hd hm
            (by omega)
          rw [← hstore', this]
        · intro hnd
          have hps : p.2 = e.passengers ++ idsOf store s0.pickup_requests :=
            servicePickups_passengers t _ store e.passengers
          constructor
          · intro rid hm hnot
            have hy : (store.getD rid default).id ∈ p.2 := by
              rw [hps]
              refine List.mem_append_right _ ?_
              exact List.mem_map_of_mem _ hm
            have := serviceDropoffs_keeps t _ _ _ _ _
              ((store.getD rid default).id) hd hy
              (by rw [hids]; exact hnot)
            rw [← he']
            exact this
          · intro rid hm
            have := serviceDropoffs_removes t _ _ _ _ _ hd
              (by rw [hps]; exact hnd) rid hm
            rw [servicePickups_id_stable t s0.pickup_requests store
              e.passengers rid] at this
            rw [← he']
            exact this
  · intro e' store' hok
    cases hp : e.elevator_plan with
    | nil =>
      simp only [Elevator.next, hp, Except.ok.injEq, Prod.mk.injEq] at hok
      rw [← hok.1]
      simp
    | cons s0 rest =>
      simp only [Elevator.next, hp] at hok
      by_cases h1 : e.current_floor < s0.floor
      · rw [if_pos h1] at hok
        simp only [Except.ok.injEq, Prod.mk.injEq] at hok
        rw [← hok.1]
        simp
      · rw [if_neg h1] at hok
        by_cases h2 : s0.floor < e.current_floor
        · rw [if_pos h2] at hok
          simp only [Except.ok.injEq, Prod.mk.injEq] at hok
          rw [← hok.1]
          simp
        · rw [if_neg h2] at hok
          cases hd : serviceDropoffs t s0.dropoff_requests
              (servicePickups t s0.pickup_requests store e.passengers).1
              (servicePickups t s0.pickup_requests store e.passengers).2 with
          | error er =>
            rw [hd] at hok
            simp [Except.bind, bind] at hok
          | ok d =>
            rw [hd] at hok
            simp only [Except.bind, bind, Except.ok.injEq,
              Prod.mk.injEq] at hok
            rw [← hok.1]
            simp

/-- Witness for C5: an idle elevator with an empty plan at tick 3. -/
theorem claim_C5_elevator_tick_witness :
    Elevator.next
      (⟨.moving_upwards, "Ele 1", 4, [], 5, []⟩ : Elevator Nat) 3 [] =
      .ok (⟨.idle, "Ele 1", 4, [], 5, []⟩, []) := by
  have h := (claim_C5_elevator_tick
    (⟨.moving_upwards, "Ele 1", 4, [], 5, []⟩ : Elevator Nat) 3 []).1 rfl
  exact h

/-- The request of the C1 counterexample. -/
def c1req : CallRequest :=
  { time := 10, id := "R", source_floor := 3, target_floor := 5 }

/-- The elevator of the C1 counterexample: one planned stop at floor 3,
currently on floor 3. -/
def c1ele : Elevator CallRequest :=
  ⟨.moving_upwards, "Ele 1", 3, [], 5, [⟨3, [], []⟩]⟩

/-- C1 (counterexample): for an elevator whose plan is the single stop at its
current floor 3 and a request 3 → 5, the dispatcher takes the
one-stop-plan branch, which appends the source and target stops without
coalescing, and returns a plan with two adjacent stops on floor 3 —
contradicting the claim that the returned plan has no two adjacent stops on
the same floor. -/
theorem claim_C1_counterexample :
    get_elevator_and_updated_plan_for_request [c1ele] 3 5 c1req =
      .ok (0, [⟨3, [], []⟩, ⟨3, [c1req], []⟩, ⟨5, [], [c1req]⟩]) ∧
    ¬ List.Chain' (fun a b : ElevatorStop CallRequest => a.floor ≠ b.floor)
      [⟨3, [], []⟩, ⟨3, [c1req], []⟩, ⟨5, [], [c1req]⟩] := by
  refine ⟨rfl, fun h => ?_⟩
  exact (List.chain'_cons.mp h).1 rfl

theorem build_updated_plan_empty (e : Elevator CallRequest)
    (source_floor target_floor : Int) (hp : e.elevator_plan = []) :
    build_updated_elevator_plan_for_request_in_elevator e source_floor
        target_floor =
      .ok [⟨source_floor, [], []⟩, ⟨target_floor, [], []⟩] := by
  simp [build_updated_elevator_plan_for_request_in_elevator, hp]

theorem wait_time_fresh (source_floor target_floor current_floor : Int) :
    get_wait_time_for_request source_floor
        ([⟨source_floor, [], []⟩, ⟨target_floor, [], []⟩] :
          List (ElevatorStop CallRequest)) current_floor =
      .ok |source_floor - current_floor| := by
  simp [get_wait_time_for_request, get_wait_time_go]

theorem travel_time_fresh (source_floor target_floor : Int)
    (hst : source_floor ≠ target_floor) :
    get_travel_time_for_request source_floor target_floor
        ([⟨source_floor, [], []⟩, ⟨target_floor, [], []⟩] :
          List (ElevatorStop CallRequest)) =
      .ok |target_floor - source_floor| := by
  simp only [get_travel_time_for_request, get_travel_time_go, if_neg hst]
  simp [hst]

theorem buildAll_empty_plans (source_floor target_floor : Int)
    (hst : source_floor ≠ target_floor) :
    ∀ es : List (Elevator CallRequest), (∀ e ∈ es, e.elevator_plan = []) →
    buildAll source_floor target_floor es =
      .ok (es.map (fun e =>
        (|source_floor - e.current_floor| + |target_floor - source_floor|,
          [⟨source_floor, [], []⟩, ⟨target_floor, [], []⟩]))) := by
  intro es
  induction es with
  | nil => intro _; rfl
  | cons e rest ih =>
    intro h
    have he := h e (List.mem_cons_self e rest)
    have htot : get_total_time_for_request e.current_floor
        ([⟨source_floor, [], []⟩, ⟨target_floor, [], []⟩] :
          List (ElevatorStop CallRequest)) source_floor target_floor =
        .ok (|source_floor - e.current_floor| +
          |target_floor - source_floor|) := by
      simp [get_total_time_for_request, wait_time_fresh,
        travel_time_fresh _ _ hst, Except.bind, bind, pure, Except.pure]
    simp only [buildAll, build_updated_plan_empty e _ _ he, htot,
      ih (fun x hx => h x (List.mem_cons_of_mem _ hx)), Except.bind, bind,
      List.map_cons]
    rfl

theorem idxOfMinGo_bound :
    ∀ (l : List Int) (i best : Nat) (bv : Int), best < i →
    idxOfMinGo l i best bv < i + l.length := by
  intro l
  induction l with
  | nil => intro i best bv h; simpa [idxOfMinGo] using by omega
  | cons v rest ih =>
    intro i best bv h
    simp only [idxOfMinGo]
    by_cases hv : v < bv
    · rw [if_pos hv]
      have := ih (i + 1) i v (by omega)
      simpa [Nat.add_comm, Nat.add_left_comm] using by omega
    · rw [if_neg hv]
      have := ih (i + 1) best bv (by omega)
      simpa using by omega

theorem idxOfMin_lt_length (l : List Int) (i : Nat)
    (h : idxOfMin l = some i) : i < l.length := by
  cases l with
  | nil => simp [idxOfMin] at h
  | cons v rest =>
    simp only [idxOfMin, Option.some.injEq] at h
    have := idxOfMinGo_bound rest 1 0 v (by omega)
    simp only [List.length_cons]
    omega

theorem getD_map_const (c : List (ElevatorStop CallRequest)) :
    ∀ (l : List (Elevator CallRequest)) (i : Nat), i < l.length →
    (l.map (fun _ => c)).getD i [] = c := by
  intro l
  induction l with
  | nil => intro i h; simp at h
  | cons x xs ih =>
    intro i h
    cases i with
    | zero => rfl
    | succ n =>
      simp only [List.map_cons, List.getD]
      exact ih n (by simpa using h)

theorem put_request_fresh (source_floor target_floor : Int)
    (hst : source_floor ≠ target_floor) (r : CallRequest) :
    put_request_id_in_elevator_plan source_floor target_floor r
        ([⟨source_floor, [], []⟩, ⟨target_floor, [], []⟩] :
          List (ElevatorStop CallRequest)) =
      ([⟨source_floor, [r], []⟩, ⟨target_floor, [], [r]⟩], none) := by
  have hts : (target_floor == source_floor) = false := by
    simp [Ne.symm hst]
  simp [put_request_id_in_elevator_plan, lastIdxWhere, modifyIdx, hts]

theorem getD_mem_self (l : List (Elevator CallRequest)) (i : Nat)
    (h : i < l.length) : l.getD i default ∈ l := by
  rw [List.getD_eq_getElem?_getD, List.getElem?_eq_getElem h]
  simp [List.getElem_mem]

/-- C1 (amended): for a non-empty elevator list in which every elevator has
an empty plan and strictly fewer passengers than its capacity, and a request
whose source and target floors differ, the dispatcher returns some elevator
index and the two-stop plan `[source, target]` with the request in the source
stop's pickups and the target stop's dropoffs; that plan has no two adjacent
stops on the same floor, and walking it from the chosen elevator's passenger
count never exceeds its capacity (the source's own `check_capacity`). -/
theorem claim_C1_amended (elevators : List (Elevator CallRequest))
    (r : CallRequest) (hne : elevators ≠ [])
    (hempty : ∀ e ∈ elevators, e.elevator_plan = [] ∧
      (e.passengers.length : Int) < e.capacity)
    (hst : r.source_floor ≠ r.target_floor) :
    ∃ i, i < elevators.length ∧
      get_elevator_and_updated_plan_for_request elevators r.source_floor
          r.target_floor r =
        .ok (i, [⟨r.source_floor, [r], []⟩, ⟨r.target_floor, [], [r]⟩]) ∧
      (∃ stop ∈ ([⟨r.source_floor, [r], []⟩, ⟨r.target_floor, [], [r]⟩] :
          List (ElevatorStop CallRequest)),
        stop.floor = r.source_floor ∧ r ∈ stop.pickup_requests) ∧
      (∃ stop ∈ ([⟨r.source_floor, [r], []⟩, ⟨r.target_floor, [], [r]⟩] :
          List (ElevatorStop CallRequest)),
        stop.floor = r.target_floor ∧ r ∈ stop.dropoff_requests) ∧
      List.Chain' (fun a b : ElevatorStop CallRequest => a.floor ≠ b.floor)
        [⟨r.source_floor, [r], []⟩, ⟨r.target_floor, [], [r]⟩] ∧
      check_capacity (elevators.getD i default)
        [⟨r.source_floor, [r], []⟩, ⟨r.target_floor, [], [r]⟩] = true := by
  obtain ⟨e0, es, rfl⟩ : ∃ e0 es, elevators = e0 :: es := by
    cases elevators with
    | nil => exact absurd rfl hne
    | cons a l => exact ⟨a, l, rfl⟩
  have hb := buildAll_empty_plans r.source_floor r.target_floor hst (e0 :: es)
    (fun e he => (hempty e he).1)
  set w : Elevator CallRequest → Int :=
    fun e => |r.source_floor - e.current_floor| +
      |r.target_floor - r.source_floor| with hw
  set P : List (ElevatorStop CallRequest) :=
    [⟨r.source_floor, [], []⟩, ⟨r.target_floor, [], []⟩] with hP
  set i := idxOfMinGo (es.map w) 1 0 (w e0) with hi
  have hfst : (((e0 :: es).map (fun e => (w e, P))).map (fun p => p.1)) =
      (e0 :: es).map w := by
    rw [List.map_map]
    rfl
  have hsnd : (((e0 :: es).map (fun e => (w e, P))).map (fun p => p.2)) =
      (e0 :: es).map (fun _ => P) := by
    rw [List.map_map]
    rfl
  have hidx : idxOfMin (((e0 :: es).map (fun e => (w e, P))).map
      (fun p => p.1)) = some i := by
    rw [hfst]
    simp [idxOfMin, hi]
  have hbound : i < (e0 :: es).length := by
    have h1 := idxOfMin_lt_length _ i hidx
    rw [hfst] at h1
    simpa using h1
  have hchosen : (((e0 :: es).map (fun e => (w e, P))).map
      (fun p => p.2)).getD i [] = P := by
    rw [hsnd]
    exact getD_map_const P (e0 :: es) i hbound
  have hmain : get_elevator_and_updated_plan_for_request (e0 :: es)
      r.source_floor r.target_floor r =
      .ok (i, [⟨r.source_floor, [r], []⟩, ⟨r.target_floor, [], [r]⟩]) := by
    simp only [get_elevator_and_updated_plan_for_request, hb, Except.bind,
      bind, hidx, hchosen, put_request_fresh r.source_floor r.target_floor
        hst r]
  refine ⟨i, hbound, hmain, ⟨⟨r.source_floor, [r], []⟩, by simp, rfl, by
    simp⟩, ⟨⟨r.target_floor, [], [r]⟩, by simp, rfl, by simp⟩, ?_, ?_⟩
  · exact List.chain'_cons.mpr ⟨hst, List.chain'_singleton _⟩
  · have hcap := (hempty ((e0 :: es).getD i default)
      (getD_mem_self _ i hbound)).2
    simp only [check_capacity, check_capacity_go, List.length_cons,
      List.length_nil]
    rw [if_neg (by push_cast; omega)]
    rw [if_neg (by push_cast; omega)]

/-- Witness for C1 (amended): one elevator on floor 2 with an empty plan and
no passengers, request 4 → 6. -/
theorem claim_C1_amended_witness :
    ∃ i, i < ([(⟨.idle, "Ele 1", 2, [], 5, []⟩ : Elevator CallRequest)]).length ∧
      get_elevator_and_updated_plan_for_request
          [(⟨.idle, "Ele 1", 2, [], 5, []⟩ : Elevator CallRequest)]
          (⟨0, "W", 4, 6, -1, -1, ""⟩ : CallRequest).source_floor
          (⟨0, "W", 4, 6, -1, -1, ""⟩ : CallRequest).target_floor
          ⟨0, "W", 4, 6, -1, -1, ""⟩ =
        .ok (i, [⟨4, [⟨0, "W", 4, 6, -1, -1, ""⟩], []⟩,
          ⟨6, [], [⟨0, "W", 4, 6, -1, -1, ""⟩]⟩]) ∧
      (∃ stop ∈ ([⟨4, [⟨0, "W", 4, 6, -1, -1, ""⟩], []⟩,
          ⟨6, [], [⟨0, "W", 4, 6, -1, -1, ""⟩]⟩] :
          List (ElevatorStop CallRequest)),
        stop.floor = 4 ∧ (⟨0, "W", 4, 6, -1, -1, ""⟩ : CallRequest) ∈
          stop.pickup_requests) ∧
      (∃ stop ∈ ([⟨4, [⟨0, "W", 4, 6, -1, -1, ""⟩], []⟩,
          ⟨6, [], [⟨0, "W", 4, 6, -1, -1, ""⟩]⟩] :
          List (ElevatorStop CallRequest)),
        stop.floor = 6 ∧ (⟨0, "W", 4, 6, -1, -1, ""⟩ : CallRequest) ∈
          stop.dropoff_requests) ∧
      List.Chain' (fun a b : ElevatorStop CallRequest => a.floor ≠ b.floor)
        [⟨4, [⟨0, "W", 4, 6, -1, -1, ""⟩], []⟩,
          ⟨6, [], [⟨0, "W", 4, 6, -1, -1, ""⟩]⟩] ∧
      check_capacity
        (([(⟨.idle, "Ele 1", 2, [], 5, []⟩ : Elevator CallRequest)]).getD i
          default)
        [⟨4, [⟨0, "W", 4, 6, -1, -1, ""⟩], []⟩,
          ⟨6, [], [⟨0, "W", 4, 6, -1, -1, ""⟩]⟩] = true :=
  claim_C1_amended [⟨.idle, "Ele 1", 2, [], 5, []⟩] ⟨0, "W", 4, 6, -1, -1, ""⟩
    (by simp) (by intro e he; simp at he; subst he; exact ⟨rfl, by norm_num⟩)
    (by norm_num)

/-- The integers from `a` to `b` inclusive (empty when `b < a`). -/
def intRangeIncl (a b : Int) : List Int :=
  (List.range (b + 1 - a).toNat).map (fun (k : Nat) => a + (k : Int))

theorem mem_intRangeIncl (a b x : Int) :
    x ∈ intRangeIncl a b ↔ a ≤ x ∧ x ≤ b := by
  simp only [intRangeIncl, List.mem_map, List.mem_range]
  constructor
  · rintro ⟨k, hk, hkx⟩
    omega
  · rintro ⟨h1, h2⟩
    refine ⟨(x - a).toNat, by omega, by omega⟩

theorem intRangeIncl_append (a b : Int) (h : a ≤ b + 1) :
    intRangeIncl a b ++ [b + 1] = intRangeIncl a (b + 1) := by
  simp only [intRangeIncl]
  have h1 : (b + 1 + 1 - a).toNat = (b + 1 - a).toNat + 1 := by omega
  rw [h1, List.range_succ, List.map_append]
  simp only [List.map_cons, List.map_nil, List.append_cancel_left_eq,
    List.cons.injEq, and_true]
  omega

theorem setLogRow_append (log : List (Int × List (Int × String × String)))
    (t : Int) (row : List (Int × String × String))
    (h : ∀ p ∈ log, p.1 ≠ t) :
    setLogRow log t row = log ++ [(t, row)] := by
  rw [setLogRow, if_neg]
  simp only [List.any_eq_true, not_exists, not_and]
  intro p hp
  simp [h p hp]

theorem modifyIdx_length (f : α → α) :
    ∀ (n : Nat) (l : List α), (modifyIdx f n l).length = l.length := by
  intro n l
  induction l generalizing n with
  | nil => cases n <;> rfl
  | cons x xs ih =>
    cases n with
    | zero => rfl
    | succ m => simp [modifyIdx, ih m]

theorem processCallsRev_shape (input_rows : List Row) :
    ∀ (batch : List Row) (s s' : EngineState),
    processCallsRev input_rows batch s = .ok s' →
    s'.time = s.time ∧ s'.elevator_log = s.elevator_log ∧
    s'.elevators.length = s.elevators.length := by
  intro batch
  induction batch with
  | nil =>
    intro s s' h
    simp only [processCallsRev] at h
    cases h
    exact ⟨rfl, rfl, rfl⟩
  | cons row rest ih =>
    intro s s' h
    simp only [processCallsRev] at h
    cases hg : get_elevator_and_updated_plan_for_request s.elevators
        row.source row.dest s.elevator_requests.length with
    | error e => rw [hg] at h; simp [Except.bind, bind] at h
    | ok res =>
      rw [hg] at h
      simp only [Except.bind, bind] at h
      obtain ⟨h1, h2, h3⟩ := ih _ _ h
      refine ⟨h1, h2, ?_⟩
      rw [h3]
      simp [modifyIdx_length]

theorem nextAll_length (t : Int) :
    ∀ (es es' : List (Elevator Nat)) (store store' : List CallRequest),
    nextAll t es store = .ok (es', store') → es'.length = es.length := by
  intro es
  induction es with
  | nil =>
    intro es' store store' h
    simp only [nextAll] at h
    cases h
    rfl
  | cons e rest ih =>
    intro es' store store' h
    simp only [nextAll] at h
    cases he : Elevator.next e t store with
    | error er => rw [he] at h; simp [Except.bind, bind] at h
    | ok r =>
      rw [he] at h
      simp only [Except.bind, bind] at h
      cases hr : nextAll t rest r.2 with
      | error er => rw [hr] at h; simp [Except.bind, bind] at h
      | ok rr =>
        rw [hr] at h
        simp only [Except.bind, bind, pure, Except.pure,
          Except.ok.injEq] at h
        have hlen := ih rr.1 r.2 rr.2 (by rw [hr])
        have hfst : es' = r.1 :: rr.1 := congrArg Prod.fst h.symm
        rw [hfst]
        simp [hlen]

theorem tick_time_shape (input_rows : List Row) (s s' : EngineState)
    (h : tick_time input_rows s = .ok s') :
    s'.time = s.time + 1 ∧ s'.elevator_log = s.elevator_log ∧
    s'.elevators.length = s.elevators.length := by
  simp only [tick_time, Except.bind, bind] at h
  cases hp : processCallsRev input_rows
      (fetch_call_requests_at_time_t input_rows (s.time + 1)).reverse
      { s with time := s.time + 1 } with
  | error e => rw [hp] at h; simp [Except.bind, bind] at h
  | ok s1 =>
    rw [hp] at h
    simp only [Except.bind, bind] at h
    cases hn : nextAll s1.time s1.elevators s1.elevator_requests with
    | error e => rw [hn] at h; simp [Except.bind, bind] at h
    | ok r =>
      rw [hn] at h
      simp only [Except.bind, bind, pure, Except.pure, Except.ok.injEq] at h
      obtain ⟨h1, h2, h3⟩ := processCallsRev_shape input_rows _ _ _ hp
      have hl := nextAll_length s1.time s1.elevators r.1 s1.elevator_requests
        r.2 (by rw [hn])
      refine ⟨?_, ?_, ?_⟩
      · rw [← h]
        simpa using h1
      · rw [← h]
        simpa using h2
      · rw [← h]
        simp only []
        rw [hl]
        simpa using h3

/-- The loop invariant for the elevator log: at loop entry the log rows are
exactly the ticks -1 .. time - 1, each with one column group per elevator. -/
def LogInv (n : Nat) (s : EngineState) : Prop :=
  s.elevator_log.map Prod.fst = intRangeIncl (-1) (s.time - 1) ∧
  (∀ p ∈ s.elevator_log, p.2.length = n) ∧
  s.elevators.length = n ∧ -1 ≤ s.time

theorem update_elevator_log_inv (n : Nat) (s : EngineState)
    (h : LogInv n s) :
    (update_elevator_log s).elevator_log.map Prod.fst =
      intRangeIncl (-1) s.time ∧
    (∀ p ∈ (update_elevator_log s).elevator_log, p.2.length = n) := by
  obtain ⟨h1, h2, h3, h4⟩ := h
  have hnot : ∀ p ∈ s.elevator_log, p.1 ≠ s.time := by
    intro p hp hc
    have : p.1 ∈ s.elevator_log.map Prod.fst := List.mem_map_of_mem _ hp
    rw [h1, mem_intRangeIncl] at this
    omega
  have happ := setLogRow_append s.elevator_log s.time (logRow s.elevators)
    hnot
  constructor
  · simp only [update_elevator_log, happ, List.map_append, List.map_cons,
      List.map_nil, h1]
    have := intRangeIncl_append (-1) (s.time - 1) (by omega)
    simpa using this
  · intro p hp
    simp only [update_elevator_log, happ, List.mem_append,
      List.mem_singleton] at hp
    rcases hp with hp | hp
    · exact h2 p hp
    · rw [hp]
      simp [logRow, h3]

theorem run_loop_inv (input_rows : List Row) (expected n : Nat) :
    ∀ (fuel : Nat) (s s' : EngineState), LogInv n s →
    run_loop input_rows expected fuel s = .ok (some s') →
    LogInv n s' := by
  intro fuel
  induction fuel with
  | zero =>
    intro s s' hinv h
    simp only [run_loop] at h
    by_cases hc : loopCond expected s
    · rw [if_pos hc] at h; simp at h
    · rw [if_neg hc] at h
      cases h
      exact hinv
  | succ m ih =>
    intro s s' hinv h
    simp only [run_loop] at h
    by_cases hc : loopCond expected s
    · rw [if_pos hc] at h
      simp only [Except.bind, bind] at h
      cases ht : tick_time input_rows (update_elevator_log s) with
      | error e => rw [ht] at h; simp [Except.bind, bind] at h
      | ok s1 =>
        rw [ht] at h
        simp only [Except.bind, bind] at h
        obtain ⟨g1, g2⟩ := update_elevator_log_inv n s hinv
        obtain ⟨t1, t2, t3⟩ := tick_time_shape input_rows _ _ ht
        have hup : (update_elevator_log s).time = s.time := rfl
        have hupe : (update_elevator_log s).elevators = s.elevators := rfl
        refine ih s1 s' ⟨?_, ?_, ?_, ?_⟩ h
        · rw [t2, g1, t1, hup]
          congr 1
          omega
        · intro p hp
          rw [t2] at hp
          exact g2 p hp
        · rw [t3, hupe]
          exact hinv.2.2.1
        · rw [t1, hup]
          have h4 := hinv.2.2.2
          omega
    · rw [if_neg hc] at h
      cases h
      exact hinv

/-- C4 (amended): on every terminating run the elevator log has exactly one
row for each tick from -1 to the terminal tick inclusive (the row at -1 is
the snapshot of the initial state), no row for any other index, and each row
carries one (floor, state name, passengers) column group per elevator. -/
theorem claim_C4_elevator_log (input_rows : List Row)
    (number_of_elevators : Nat) (max_capacity : Int) (fuel : Nat)
    (s : EngineState)
    (h : run_simulation input_rows number_of_elevators max_capacity fuel =
      .ok (some s)) :
    s.elevator_log.map Prod.fst = intRangeIncl (-1) s.time ∧
    ∀ p ∈ s.elevator_log, p.2.length = number_of_elevators := by
  simp only [run_simulation, Except.bind, bind] at h
  cases hl : run_loop input_rows input_rows.length fuel
      { time := -1, elevator_requests := [],
        elevators := buildingElevators number_of_elevators max_capacity,
        elevator_log := [] } with
  | error e => rw [hl] at h; simp [Except.bind, bind] at h
  | ok r =>
    rw [hl] at h
    cases r with
    | none => simp [Except.bind, bind, pure, Except.pure] at h
    | some s1 =>
      simp only [Except.bind, bind, pure, Except.pure, Except.ok.injEq,
        Option.some.injEq] at h
      have hinv0 : LogInv number_of_elevators
          { time := -1, elevator_requests := [],
            elevators := buildingElevators number_of_elevators max_capacity,
            elevator_log := [] } := by
        refine ⟨rfl, by simp, by simp [buildingElevators], by norm_num⟩
      have hinv1 := run_loop_inv input_rows input_rows.length
        number_of_elevators fuel _ s1 hinv0 hl
      have hfinal := update_elevator_log_inv number_of_elevators s1 hinv1
      have htime : (update_elevator_log s1).time = s1.time := rfl
      rw [← h]
      exact ⟨by rw [htime]; exact hfinal.1, hfinal.2⟩

/-- The input rows of the C4 concrete run: one request, floor 1 to floor 2
at tick 0. -/
def c4rows : List Row := [⟨0, "A", 1, 2⟩]

/-- The final state of the C4 concrete run. -/
def c4final : EngineState :=
  (((run_simulation c4rows 1 5 10).toOption).getD none).getD default

/-- C4 (counterexample): the concrete run of one elevator serving the single
request 1 → 2 at tick 0 terminates at tick 2, and its elevator log has rows
at ticks -1, 0, 1 and 2 — the row at -1 (the initial snapshot) contradicts
the claim that the log has a row only for each tick from 0 to the terminal
tick. -/
theorem claim_C4_counterexample :
    run_simulation c4rows 1 5 10 = .ok (some c4final) ∧
    c4final.elevator_log.map Prod.fst = [-1, 0, 1, 2] ∧
    c4final.time = 2 ∧
    c4final.elevator_log.map Prod.fst ≠ intRangeIncl 0 c4final.time := by
  refine ⟨rfl, by decide, by decide, ?_⟩
  intro h
  have h1 : c4final.elevator_log.map Prod.fst = [-1, 0, 1, 2] := by decide
  have h2 : c4final.time = 2 := by decide
  rw [h1, h2] at h
  have : (-1 : Int) ∈ intRangeIncl 0 2 := by
    rw [← h]
    simp
  rw [mem_intRangeIncl] at this
  omega

/-- Witness for C4 (amended), applying it to the concrete run of `c4rows`. -/
theorem claim_C4_elevator_log_witness :
    c4final.elevator_log.map Prod.fst = intRangeIncl (-1) c4final.time ∧
    ∀ p ∈ c4final.elevator_log, p.2.length = 1 :=
  claim_C4_elevator_log c4rows 1 5 10 c4final rfl

/-
Support for C6: structural facts about the dispatcher needed to show that a
terminating run stamps every request consistently.
-/

/-- No two adjacent stops of a plan share a floor. -/
def NoAdjDup (p : List (ElevatorStop α)) : Prop :=
  List.Chain' (fun a b : ElevatorStop α => a.floor ≠ b.floor) p

/-- Every stop's pickup and dropoff lists are duplicate-free. -/
def StopNodup (p : List (ElevatorStop α)) : Prop :=
  ∀ s ∈ p, s.pickup_requests.Nodup ∧ s.dropoff_requests.Nodup

/-- The pickup list of a stop (a selector for the generic counting lemmas). -/
def pickOf (s : ElevatorStop α) : List α := s.pickup_requests

/-- The dropoff list of a stop (a selector for the generic counting lemmas). -/
def dropOf (s : ElevatorStop α) : List α := s.dropoff_requests

/-- Number of stops of a plan whose `sel` list contains `x`. -/
def countS [DecidableEq α] (sel : ElevatorStop α → List α) (x : α)
    (p : List (ElevatorStop α)) : Nat :=
  (p.filter (fun s => x ∈ sel s)).length

/-- Number of stops of a plan on floor `v`. -/
def countF (v : Int) (p : List (ElevatorStop α)) : Nat :=
  (p.filter (fun s => s.floor = v)).length

/-- No three consecutive stops share a floor. -/
def No3 : List (ElevatorStop α) → Prop
  | a :: b :: c :: rest =>
    ¬(a.floor = b.floor ∧ b.floor = c.floor) ∧ No3 (b :: c :: rest)
  | _ => True

/-- The stop produced by one coalesce merge. -/
def mergeStop [DecidableEq α] (a b : ElevatorStop α) : ElevatorStop α :=
  { floor := a.floor,
    pickup_requests := (a.pickup_requests ++ b.pickup_requests).dedup,
    dropoff_requests := (a.dropoff_requests ++ b.dropoff_requests).dedup }

theorem coalesce_cons_merge [DecidableEq α] (a b : ElevatorStop α)
    (rest : List (ElevatorStop α)) (h : a.floor = b.floor) :
    coalesce_plan (a :: b :: rest) = mergeStop a b :: coalesce_plan rest := by
  simp [coalesce_plan, h, mergeStop]

theorem coalesce_cons_ne [DecidableEq α] (a b : ElevatorStop α)
    (rest : List (ElevatorStop α)) (h : a.floor ≠ b.floor) :
    coalesce_plan (a :: b :: rest) = a :: coalesce_plan (b :: rest) := by
  simp [coalesce_plan, h]

theorem coalesce_head_floor [DecidableEq α] (a : ElevatorStop α)
    (rest : List (ElevatorStop α)) :
    ∃ s0 t, coalesce_plan (a :: rest) = s0 :: t ∧ s0.floor = a.floor := by
  cases rest with
  | nil => exact ⟨a, [], rfl, rfl⟩
  | cons b rest' =>
    by_cases h : a.floor = b.floor
    · exact ⟨mergeStop a b, coalesce_plan rest',
        coalesce_cons_merge a b rest' h, rfl⟩
    · exact ⟨a, coalesce_plan (b :: rest'), coalesce_cons_ne a b rest' h, rfl⟩

theorem No3.tail {l : List (ElevatorStop α)} (a : ElevatorStop α)
    (h : No3 (a :: l)) : No3 l := by
  cases l with
  | nil => trivial
  | cons b l' =>
    cases l' with
    | nil => trivial
    | cons c l'' => exact h.2

theorem coalesce_NoAdjDup [DecidableEq α] :
    ∀ (l : List (ElevatorStop α)), No3 l → NoAdjDup (coalesce_plan l) := by
  intro l
  induction l using coalesce_plan.induct with
  | case1 => intro _; exact List.chain'_nil
  | case2 a => intro _; exact List.chain'_singleton a
  | case3 a b rest h ih =>
    intro h3
    rw [coalesce_cons_merge a b rest h]
    cases rest with
    | nil => exact List.chain'_singleton _
    | cons c rest' =>
      have hbc : b.floor ≠ c.floor := fun hbc => h3.1 ⟨h, hbc⟩
      obtain ⟨s0, t, heq, hfloor⟩ := coalesce_head_floor c rest'
      rw [heq]
      refine List.chain'_cons.mpr ⟨?_, ?_⟩
      · show (mergeStop a b).floor ≠ s0.floor
        rw [hfloor]
        show a.floor ≠ c.floor
        rw [h]
        exact hbc
      · rw [← heq]
        exact ih (No3.tail b h3.2)
  | case4 a b rest h ih =>
    intro h3
    rw [coalesce_cons_ne a b rest h]
    obtain ⟨s0, t, heq, hfloor⟩ := coalesce_head_floor b rest
    rw [heq]
    refine List.chain'_cons.mpr ⟨?_, ?_⟩
    · rw [hfloor]; exact h
    · rw [← heq]
      exact ih (h3.tail a)

theorem countS_nil [DecidableEq α] (sel : ElevatorStop α → List α) (x : α) :
    countS sel x ([] : List (ElevatorStop α)) = 0 := rfl

theorem countS_cons [DecidableEq α] (sel : ElevatorStop α → List α) (x : α)
    (s : ElevatorStop α) (l : List (ElevatorStop α)) :
    countS sel x (s :: l) =
      (if x ∈ sel s then 1 else 0) + countS sel x l := by
  simp only [countS, List.filter]
  by_cases h : x ∈ sel s
  · simp [h, Nat.add_comm]
  · simp [h]

theorem countS_append [DecidableEq α] (sel : ElevatorStop α → List α) (x : α)
    (l1 l2 : List (ElevatorStop α)) :
    countS sel x (l1 ++ l2) = countS sel x l1 + countS sel x l2 := by
  simp [countS, List.filter_append]

theorem countS_pos_iff [DecidableEq α] (sel : ElevatorStop α → List α) (x : α)
    (l : List (ElevatorStop α)) :
    0 < countS sel x l ↔ ∃ s ∈ l, x ∈ sel s := by
  simp only [countS, List.length_pos_iff_ne_nil, ← List.length_pos_iff_ne_nil]
  rw [List.length_pos_iff_exists_mem]
  constructor
  · rintro ⟨s, hs⟩
    rw [List.mem_filter] at hs
    exact ⟨s, hs.1, by simpa using hs.2⟩
  · rintro ⟨s, hs, hx⟩
    exact ⟨s, List.mem_filter.mpr ⟨hs, by simpa using hx⟩⟩

theorem countS_perm [DecidableEq α] (sel : ElevatorStop α → List α) (x : α)
    {l1 l2 : List (ElevatorStop α)} (h : l1.Perm l2) :
    countS sel x l1 = countS sel x l2 :=
  (h.filter _).length_eq

/-- A selector is merge-compatible when membership in a merged stop's list is
membership in either merged stop's list; both `pickOf` and `dropOf` are. -/
def MergeSel [DecidableEq α] (sel : ElevatorStop α → List α) : Prop :=
  ∀ (a b : ElevatorStop α) (y : α),
    y ∈ sel (mergeStop a b) ↔ y ∈ sel a ∨ y ∈ sel b

theorem mergeSel_pickOf [DecidableEq α] :
    MergeSel (pickOf (α := α)) := by
  intro a b y
  simp [pickOf, mergeStop, List.mem_dedup, List.mem_append]

theorem mergeSel_dropOf [DecidableEq α] :
    MergeSel (dropOf (α := α)) := by
  intro a b y
  simp [dropOf, mergeStop, List.mem_dedup, List.mem_append]

theorem coalesce_countS_le [DecidableEq α] (sel : ElevatorStop α → List α)
    (hm : MergeSel sel) (x : α) :
    ∀ (l : List (ElevatorStop α)),
    countS sel x (coalesce_plan l) ≤ countS sel x l := by
  intro l
  induction l using coalesce_plan.induct with
  | case1 => simp [coalesce_plan]
  | case2 a => simp [coalesce_plan]
  | case3 a b rest h ih =>
    rw [coalesce_cons_merge a b rest h]
    have hiff := hm a b x
    simp only [countS_cons]
    by_cases hx : x ∈ sel (mergeStop a b)
    · rcases hiff.mp hx with h1 | h1 <;> simp [hx, h1] <;> omega
    · simp [hx]; omega
  | case4 a b rest h ih =>
    rw [coalesce_cons_ne a b rest h]
    simp only [countS_cons] at ih ⊢
    omega

theorem coalesce_mem_sel [DecidableEq α] (sel : ElevatorStop α → List α)
    (hm : MergeSel sel) (x : α)
    (l : List (ElevatorStop α)) (s : ElevatorStop α)
    (hs : s ∈ coalesce_plan l) (hx : x ∈ sel s) :
    ∃ s' ∈ l, x ∈ sel s' := by
  have h1 : 0 < countS sel x (coalesce_plan l) :=
    (countS_pos_iff sel x _).mpr ⟨s, hs, hx⟩
  have h2 := coalesce_countS_le sel hm x l
  exact (countS_pos_iff sel x l).mp (by omega)

theorem coalesce_ne_nil [DecidableEq α] (l : List (ElevatorStop α))
    (h : l ≠ []) : coalesce_plan l ≠ [] := by
  cases l with
  | nil => exact absurd rfl h
  | cons a rest =>
    obtain ⟨s0, t, heq, _⟩ := coalesce_head_floor a rest
    rw [heq]
    exact List.cons_ne_nil s0 t

theorem coalesce_getLast_floor [DecidableEq α] :
    ∀ (l : List (ElevatorStop α)) (lastStop : ElevatorStop α),
    (coalesce_plan l).getLast? = some lastStop →
    ∃ fl, l.getLast? = some fl ∧ lastStop.floor = fl.floor := by
  intro l
  induction l using coalesce_plan.induct with
  | case1 => intro lastStop h; simp [coalesce_plan] at h
  | case2 a =>
    intro lastStop h
    simp only [coalesce_plan, List.getLast?_singleton,
      Option.some.injEq] at h
    subst h
    exact ⟨a, rfl, rfl⟩
  | case3 a b rest h ih =>
    intro lastStop hl
    rw [coalesce_cons_merge a b rest h] at hl
    cases hrestnil : rest with
    | nil =>
      subst hrestnil
      simp only [coalesce_plan, List.getLast?_singleton,
        Option.some.injEq] at hl
      subst hl
      exact ⟨b, rfl, h⟩
    | cons c r' =>
      subst hrestnil
      have hne := coalesce_ne_nil (c :: r') (List.cons_ne_nil c r')
      cases hrest : coalesce_plan (c :: r') with
      | nil => exact absurd hrest hne
      | cons c0 crest =>
        rw [hrest, List.getLast?_cons_cons] at hl
        rw [← hrest] at hl
        obtain ⟨fl, hfl, hfloor⟩ := ih lastStop hl
        refine ⟨fl, ?_, hfloor⟩
        rw [List.getLast?_cons_cons, List.getLast?_cons_cons]
        exact hfl
  | case4 a b rest h ih =>
    intro lastStop hl
    rw [coalesce_cons_ne a b rest h] at hl
    have hne := coalesce_ne_nil (b :: rest) (List.cons_ne_nil b rest)
    cases hrest : coalesce_plan (b :: rest) with
    | nil => exact absurd hrest hne
    | cons c0 crest =>
      rw [hrest, List.getLast?_cons_cons] at hl
      rw [← hrest] at hl
      obtain ⟨fl, hfl, hfloor⟩ := ih lastStop hl
      refine ⟨fl, ?_, hfloor⟩
      rw [List.getLast?_cons_cons]
      exact hfl


theorem countF_cons (v : Int) (s : ElevatorStop α) (l : List (ElevatorStop α)) :
    countF v (s :: l) = (if s.floor = v then 1 else 0) + countF v l := by
  simp only [countF, List.filter]
  by_cases h : s.floor = v
  · simp [h, Nat.add_comm]
  · simp [h]

theorem countF_append (v : Int) (l1 l2 : List (ElevatorStop α)) :
    countF v (l1 ++ l2) = countF v l1 + countF v l2 := by
  simp [countF, List.filter_append]

theorem countF_perm (v : Int) {l1 l2 : List (ElevatorStop α)}
    (h : l1.Perm l2) : countF v l1 = countF v l2 :=
  (h.filter _).length_eq

theorem countF_eq_zero (v : Int) (l : List (ElevatorStop α))
    (h : ∀ x ∈ l, x.floor ≠ v) : countF v l = 0 := by
  induction l with
  | nil => rfl
  | cons s l ih =>
    rw [countF_cons]
    have hs := h s (List.mem_cons_self s l)
    rw [if_neg hs, Nat.zero_add]
    exact ih (fun x hx => h x (List.mem_cons_of_mem s hx))

theorem countF_le_one_of_pairwise (v : Int) (l : List (ElevatorStop α))
    (h : List.Pairwise (fun a b : ElevatorStop α => a.floor ≠ b.floor) l) :
    countF v l ≤ 1 := by
  induction l with
  | nil => exact Nat.zero_le 1
  | cons s l ih =>
    rw [countF_cons]
    rcases List.pairwise_cons.mp h with ⟨hs, hl⟩
    by_cases hf : s.floor = v
    · have : countF v l = 0 :=
        countF_eq_zero v l (fun x hx => by rw [← hf]; exact (hs x hx).symm)
      simp [hf, this]
    · simpa [hf] using ih hl

theorem No3_of_countF : ∀ (l : List (ElevatorStop α)),
    (∀ v, countF v l ≤ 2) → No3 l := by
  intro l
  induction l with
  | nil => intro _; trivial
  | cons a l ih =>
    intro h
    cases l with
    | nil => trivial
    | cons b l' =>
      cases l' with
      | nil => trivial
      | cons c l'' =>
        refine ⟨?_, ?_⟩
        · rintro ⟨h1, h2⟩
          have h3 := h a.floor
          rw [countF_cons, countF_cons, countF_cons] at h3
          simp [h1.symm, h2.symm] at h3
          omega
        · refine ih (fun v => ?_)
          have h3 := h v
          rw [countF_cons] at h3
          omega

theorem No3_append_pair : ∀ (p : List (ElevatorStop α))
    (s t : ElevatorStop α), NoAdjDup p → s.floor ≠ t.floor →
    No3 (p ++ [s, t]) := by
  intro p
  induction p with
  | nil => intro s t _ hst; trivial
  | cons a p' ih =>
    intro s t hnd hst
    cases p' with
    | nil => exact ⟨fun hc => hst hc.2, trivial⟩
    | cons b p'' =>
      have hab : a.floor ≠ b.floor := (List.chain'_cons.mp hnd).1
      have htail := ih s t (List.chain'_cons.mp hnd).2 hst
      cases hpp : p'' ++ [s, t] with
      | nil => simp at hpp
      | cons c r =>
        show No3 (a :: b :: (p'' ++ [s, t]))
        rw [hpp]
        refine ⟨fun hc => hab hc.1, ?_⟩
        rw [← hpp]
        exact htail

theorem NoAdjDup_No3 : ∀ (l : List (ElevatorStop α)), NoAdjDup l → No3 l := by
  intro l
  induction l with
  | nil => intro _; trivial
  | cons a l ih =>
    intro h
    cases l with
    | nil => trivial
    | cons b l' =>
      cases l' with
      | nil => trivial
      | cons c l'' =>
        refine ⟨fun hc => (List.chain'_cons.mp h).1 hc.1, ?_⟩
        exact ih (List.chain'_cons.mp h).2

theorem NoAdjDup_tail {l : List (ElevatorStop α)} (h : NoAdjDup l) :
    NoAdjDup l.tail := by
  cases l with
  | nil => exact List.chain'_nil
  | cons a l' => exact (List.chain'_cons'.mp h).2

theorem coalesce_append_left [DecidableEq α] :
    ∀ (X rest : List (ElevatorStop α)), NoAdjDup X →
    (∀ xl ∈ X.getLast?, ∀ rh ∈ rest.head?, xl.floor ≠ rh.floor) →
    coalesce_plan (X ++ rest) = X ++ coalesce_plan rest := by
  intro X
  induction X with
  | nil => intro rest _ _; rfl
  | cons a X' ih =>
    intro rest hnd hb
    cases X' with
    | nil =>
      cases rest with
      | nil => rfl
      | cons r rs =>
        have har : a.floor ≠ r.floor := hb a rfl r rfl
        simpa using coalesce_cons_ne a r rs har
    | cons b X'' =>
      have hab : a.floor ≠ b.floor := (List.chain'_cons.mp hnd).1
      have step := coalesce_cons_ne a b (X'' ++ rest) hab
      calc coalesce_plan ((a :: b :: X'') ++ rest)
          = a :: coalesce_plan ((b :: X'') ++ rest) := step
        _ = a :: ((b :: X'') ++ coalesce_plan rest) := by
            rw [ih rest (List.chain'_cons.mp hnd).2 (fun xl hxl => hb xl hxl)]
        _ = (a :: b :: X'') ++ coalesce_plan rest := rfl

theorem natCastMapFlat (f : Int → Int) :
    ∀ (l : List Nat),
    List.map f (l.flatMap fun n => [(n : Int)]) =
    List.map (fun (k : Nat) => f (k : Int)) l := by
  intro l
  induction l with
  | nil => rfl
  | cons x xs ih => rw [List.flatMap_cons, List.map_append, ih]; rfl

theorem mem_pyRange_pos (a b x : Int) :
    (x ∈ (List.range (b - a).toNat).map (fun (k : Nat) => a + (k : Int))) ↔
      a ≤ x ∧ x < b := by
  constructor
  · intro hx
    rcases List.mem_map.mp hx with ⟨k, hk, hkx⟩
    rw [List.mem_range] at hk
    omega
  · rintro ⟨h1, h2⟩
    exact List.mem_map.mpr ⟨(x - a).toNat, List.mem_range.mpr (by omega),
      by omega⟩

theorem mem_pyRange_neg (a b x : Int) :
    (x ∈ (List.range (a - b).toNat).map (fun (k : Nat) => a - (k : Int))) ↔
      b < x ∧ x ≤ a := by
  constructor
  · intro hx
    rcases List.mem_map.mp hx with ⟨k, hk, hkx⟩
    rw [List.mem_range] at hk
    omega
  · rintro ⟨h1, h2⟩
    exact List.mem_map.mpr ⟨(a - x).toNat, List.mem_range.mpr (by omega),
      by omega⟩

theorem pyRange_one (a b : Int) :
    pyRange a b 1 =
      .ok ((List.range (b - a).toNat).map (fun (k : Nat) => a + (k : Int))) := by
  have h := natCastMapFlat (fun x => a + x) (List.range (b - a).toNat)
  simp only [pyRange, if_neg one_ne_zero, if_pos rfl]
  exact congrArg Except.ok h

theorem pyRange_neg_one (a b : Int) :
    pyRange a b (-1) =
      .ok ((List.range (a - b).toNat).map (fun (k : Nat) => a - (k : Int))) := by
  have h := natCastMapFlat (fun x => a - x) (List.range (a - b).toNat)
  have h1 : (-1 : Int) ≠ 0 := by decide
  have h2 : (-1 : Int) ≠ 1 := by decide
  simp only [pyRange, if_neg h1, if_neg h2]
  exact congrArg Except.ok h

theorem pyInsert_perm (le : β → β → Bool) (x : β) :
    ∀ l : List β, (pyInsert le x l).Perm (x :: l) := by
  intro l
  induction l with
  | nil => exact List.Perm.refl [x]
  | cons y ys ih =>
    rw [pyInsert]
    by_cases h : le x y
    · rw [if_pos h]
    · rw [if_neg h]
      exact (ih.cons y).trans (List.Perm.swap x y ys)

theorem pySort_perm (le : β → β → Bool) :
    ∀ l : List β, (pySort le l).Perm l := by
  intro l
  induction l with
  | nil => exact List.Perm.refl []
  | cons x xs ih =>
    rw [pySort]
    exact (pyInsert_perm le x (pySort le xs)).trans (ih.cons x)

theorem pyInsert_head (le : β → β → Bool) (x : β) :
    ∀ l : List β, (pyInsert le x l).head? = some x ∨
      ∃ y, l.head? = some y ∧ (pyInsert le x l).head? = some y := by
  intro l
  cases l with
  | nil => exact Or.inl rfl
  | cons y ys =>
    rw [pyInsert]
    by_cases h : le x y
    · rw [if_pos h]; exact Or.inl rfl
    · rw [if_neg h]; exact Or.inr ⟨y, rfl, rfl⟩

theorem pyInsert_sorted (le : β → β → Bool)
    (htot : ∀ a b : β, le a b = true ∨ le b a = true) (x : β) :
    ∀ l : List β, List.Chain' (fun a b => le a b = true) l →
    List.Chain' (fun a b => le a b = true) (pyInsert le x l) := by
  intro l
  induction l with
  | nil => intro _; exact List.chain'_singleton x
  | cons y ys ih =>
    intro h
    rw [pyInsert]
    by_cases hxy : le x y
    · rw [if_pos hxy]
      exact List.chain'_cons.mpr ⟨hxy, h⟩
    · rw [if_neg hxy]
      have hyx : le y x = true := by
        rcases htot x y with h1 | h1
        · exact absurd h1 hxy
        · exact h1
      rcases List.chain'_cons'.mp h with ⟨hhd, hys⟩
      refine List.chain'_cons'.mpr ⟨?_, ih hys⟩
      intro z hz
      rcases pyInsert_head le x ys with hh | ⟨w, hw1, hw2⟩
      · rw [hz] at hh
        injection hh with hh
        rw [hh]
        exact hyx
      · rw [hz] at hw2
        injection hw2 with hw2
        rw [hw2]
        exact hhd w hw1

theorem pySort_sorted (le : β → β → Bool)
    (htot : ∀ a b : β, le a b = true ∨ le b a = true) :
    ∀ l : List β, List.Chain' (fun a b => le a b = true) (pySort le l) := by
  intro l
  induction l with
  | nil => exact List.chain'_nil
  | cons x xs ih => exact pyInsert_sorted le htot x (pySort le xs) ih

theorem chain'_rel_head (P : β → β → Prop)
    (htr : ∀ a b c, P a b → P b c → P a c) (hrefl : ∀ a, P a a) :
    ∀ l : List β, List.Chain' P l →
    ∀ h0 ∈ l.head?, ∀ x ∈ l, P h0 x := by
  intro l
  induction l with
  | nil => intro _ h0 hh0; simp at hh0
  | cons a rest ih =>
    intro h h0 hh0 x hx
    injection hh0 with hh0
    subst hh0
    rcases List.mem_cons.mp hx with hx' | hx'
    · rw [hx']; exact hrefl a
    · rcases List.chain'_cons'.mp h with ⟨hhd, hrest⟩
      cases rest with
      | nil => simp at hx'
      | cons b rest' =>
        have hab : P a b := hhd b rfl
        exact htr a b x hab (ih hrest b rfl x hx')

theorem chain'_rel_getLast (P : β → β → Prop)
    (htr : ∀ a b c, P a b → P b c → P a c) (hrefl : ∀ a, P a a) :
    ∀ l : List β, List.Chain' P l →
    ∀ hl ∈ l.getLast?, ∀ x ∈ l, P x hl := by
  intro l
  induction l with
  | nil => intro _ hl hhl; simp at hhl
  | cons a rest ih =>
    intro h hl hhl x hx
    cases rest with
    | nil =>
      simp only [List.getLast?_singleton, Option.mem_def,
        Option.some.injEq] at hhl
      rcases List.mem_cons.mp hx with hx' | hx'
      · rw [hx', ← hhl]; exact hrefl a
      · simp at hx'
    | cons b rest' =>
      rw [List.getLast?_cons_cons] at hhl
      rcases List.chain'_cons'.mp h with ⟨hhd, hrest⟩
      rcases List.mem_cons.mp hx with hx' | hx'
      · subst hx'
        have hab : P x b := hhd b rfl
        have hbl : P b hl := ih hrest hl hhl b (List.mem_cons_self b rest')
        exact htr x b hl hab hbl
      · exact ih hrest hl hhl x hx'

/-- Adjacent floor-difference signs are constant on `[start, stop)`: every
sign equals the sign at the segment's start.  The inflection scan of
`split_plan_into_ordered_subplans` cuts exactly at sign changes, so each
produced segment satisfies this. -/
def SignConst (fl : List Int) (start stop : Nat) : Prop :=
  ∀ k, start ≤ k → k + 1 < stop →
    Int.sign (fl.getD (k + 1) 0 - fl.getD k 0) =
      Int.sign (fl.getD (start + 1) 0 - fl.getD start 0)

/-- The cut list produced by the inflection scan, relative to a segment
start: each cut is at least two past its segment's start, cuts stay within
the list, each segment is sign-constant, and the last cut is the length. -/
def CutsOK (fl : List Int) : Nat → List Nat → Prop
  | _, [] => False
  | start, [c] => start + 2 ≤ c ∧ c = fl.length ∧ SignConst fl start c
  | start, c :: c' :: cs =>
    start + 2 ≤ c ∧ c ≤ fl.length ∧ SignConst fl start c ∧
      CutsOK fl (c - 1) (c' :: cs)

theorem CutsOK_intro (fl : List Int) (start c : Nat) (cs : List Nat)
    (h1 : start + 2 ≤ c) (h2 : c ≤ fl.length) (h3 : SignConst fl start c)
    (h4 : cs = [] → c = fl.length)
    (h5 : cs ≠ [] → CutsOK fl (c - 1) cs) :
    CutsOK fl start (c :: cs) := by
  cases cs with
  | nil => exact ⟨h1, h4 rfl, h3⟩
  | cons c' cs' => exact ⟨h1, h2, h3, h5 (List.cons_ne_nil c' cs')⟩

theorem CutsOK_head (fl : List Int) (start c : Nat) (cs : List Nat)
    (h : CutsOK fl start (c :: cs)) : start + 2 ≤ c ∧ c ≤ fl.length := by
  cases cs with
  | nil => exact ⟨h.1, le_of_eq h.2.1⟩
  | cons c' cs' => exact ⟨h.1, h.2.1⟩

/-- The subplans glue back to the plan: each subplan after the first begins
with the previous subplan's last stop (Python's slices overlap at one pivot
stop). -/
def ChainedFrom (p : List (ElevatorStop α)) :
    List (List (ElevatorStop α)) → Prop
  | [] => False
  | [S] => p = S
  | S :: S' :: subs =>
    ∃ lastS rest, S.getLast? = some lastS ∧ p = S ++ rest ∧
      ChainedFrom (lastS :: rest) (S' :: subs)

/-- A directional subplan: at least two stops, strictly monotone floors. -/
def SMono (S : List (ElevatorStop α)) : Prop :=
  2 ≤ S.length ∧
    (List.Chain' (fun a b : ElevatorStop α => a.floor < b.floor) S ∨
     List.Chain' (fun a b : ElevatorStop α => b.floor < a.floor) S)

theorem pySlice_length (l : List β) (start c : Nat) (h1 : start ≤ c)
    (h2 : c ≤ l.length) : (pySlice l start c).length = c - start := by
  simp only [pySlice, List.length_take, List.length_drop]
  omega

theorem pySlice_decomp (l : List β) (start c : Nat) (h1 : start ≤ c)
    (h2 : c ≤ l.length) :
    l.drop start = pySlice l start c ++ l.drop c := by
  have h3 := List.take_append_drop (c - start) (l.drop start)
  rw [List.drop_drop] at h3
  have h4 : start + (c - start) = c := by omega
  rw [h4] at h3
  exact h3.symm

theorem pySlice_all (l : List β) (start : Nat) :
    pySlice l start l.length = l.drop start := by
  apply List.take_of_length_le
  simp only [List.length_drop]
  omega

theorem pySlice_getD (l : List β) (start c i : Nat) (hd : β)
    (h1 : i < c - start) (h2 : c ≤ l.length) :
    (pySlice l start c).getD i hd = l.getD (start + i) hd := by
  have hlen : (pySlice l start c).length = c - start :=
    pySlice_length l start c (by omega) h2
  have hi : i < (pySlice l start c).length := by omega
  have hsi : start + i < l.length := by omega
  rw [List.getD_eq_getElem _ _ hi, List.getD_eq_getElem _ _ hsi]
  simp only [pySlice]
  rw [List.getElem_take, List.getElem_drop]

theorem pySlice_getLast (l : List β) (start c : Nat) (hd : β)
    (h1 : start < c) (h2 : c ≤ l.length) :
    (pySlice l start c).getLast? = some (l.getD (c - 1) hd) := by
  have hlen : (pySlice l start c).length = c - start :=
    pySlice_length l start c (by omega) h2
  rw [List.getLast?_eq_getElem?, hlen]
  have h3 : c - start - 1 < c - start := by omega
  have h4 : (pySlice l start c).getD (c - start - 1) hd = l.getD (c - 1) hd := by
    rw [pySlice_getD l start c _ hd h3 h2]
    have : start + (c - start - 1) = c - 1 := by omega
    rw [this]
  have h5 : c - start - 1 < (pySlice l start c).length := by omega
  rw [List.getElem?_eq_getElem (by omega)]
  rw [List.getD_eq_getElem _ _ h5] at h4
  rw [List.getD_eq_getElem _ _ (by omega : c - 1 < l.length)] at h4
  rw [h4, List.getD_eq_getElem _ _ (by omega : c - 1 < l.length)]

theorem inflection_go_cutsOK (fl : List Int) :
    ∀ (fuel i start : Nat) (dir : Int),
    start + 1 ≤ i → i < fl.length → fl.length ≤ fuel + i →
    (∀ k, start ≤ k → k + 1 < i + 1 →
      Int.sign (fl.getD (k + 1) 0 - fl.getD k 0) = dir) →
    CutsOK fl start (inflection_go fl fuel i dir ++ [fl.length]) := by
  intro fuel
  induction fuel with
  | zero =>
    intro i start dir h1 h2 h3 _
    exfalso
    omega
  | succ fuel ih =>
    intro i start dir h1 h2 h3 hconst
    rw [inflection_go]
    by_cases hlt : i + 1 < fl.length
    · rw [if_pos hlt]
      by_cases hne : Int.sign (fl.getD (i + 1) 0 - fl.getD i 0) ≠ dir
      · rw [if_pos hne]
        have hbase : Int.sign (fl.getD (start + 1) 0 - fl.getD start 0) =
            dir := hconst start (le_refl start) (by omega)
        refine CutsOK_intro fl start (i + 1) _ (by omega) (by omega) ?_ ?_ ?_
        · intro k hk hk1
          rw [hconst k hk hk1, hbase]
        · intro hemp
          simp at hemp
        · intro _
          have hrec := ih (i + 1) i
            (Int.sign (fl.getD (i + 1) 0 - fl.getD i 0))
            (by omega) hlt (by omega)
            (fun k hk hk1 => by
              have hki : k = i := by omega
              subst hki
              rfl)
          simpa using hrec
      · rw [if_neg hne]
        have heq : Int.sign (fl.getD (i + 1) 0 - fl.getD i 0) = dir :=
          not_not.mp hne
        exact ih (i + 1) start dir (by omega) hlt (by omega)
          (fun k hk hk1 => by
            by_cases hki : k = i
            · subst hki; exact heq
            · exact hconst k hk (by omega))
    · rw [if_neg hlt]
      refine ⟨by omega, rfl, ?_⟩
      intro k hk hk1
      exact (hconst k hk (by omega)).trans
        (hconst start (le_refl start) (by omega)).symm

theorem slice_SMono (plan : List (ElevatorStop α)) (start c : Nat)
    (h1 : start + 2 ≤ c) (h2 : c ≤ plan.length)
    (hsc : SignConst (floorsOf plan) start c)
    (hne : ∀ k, k + 1 < plan.length →
      (floorsOf plan).getD (k + 1) 0 ≠ (floorsOf plan).getD k 0) :
    SMono (pySlice plan start c) := by
  have hlen : (pySlice plan start c).length = c - start :=
    pySlice_length plan start c (by omega) h2
  refine ⟨by omega, ?_⟩
  have hbase : (floorsOf plan).getD (start + 1) 0 ≠
      (floorsOf plan).getD start 0 := hne start (by omega)
  have hfloor : ∀ i (hi : i < (pySlice plan start c).length),
      ((pySlice plan start c).get ⟨i, hi⟩).floor =
        (floorsOf plan).getD (start + i) 0 := by
    intro i hi
    have hic : i < c - start := by omega
    have hp : start + i < plan.length := by omega
    rw [List.get_eq_getElem, ← List.getD_eq_getElem _ default hi,
      pySlice_getD plan start c i default hic h2,
      List.getD_eq_getElem _ _ hp, floorsOf_getD plan (start + i) hp,
      List.get_eq_getElem]
  have key : ∀ i, i + 1 < c - start →
      Int.sign ((floorsOf plan).getD (start + i + 1) 0 -
        (floorsOf plan).getD (start + i) 0) =
      Int.sign ((floorsOf plan).getD (start + 1) 0 -
        (floorsOf plan).getD start 0) := by
    intro i hi
    exact hsc (start + i) (by omega) (by omega)
  rcases lt_trichotomy ((floorsOf plan).getD (start + 1) 0)
      ((floorsOf plan).getD start 0) with hlt | heq | hgt
  · right
    rw [List.chain'_iff_get]
    intro i hi
    rw [hlen] at hi
    have hkey := key i (by omega)
    have hneg : Int.sign ((floorsOf plan).getD (start + 1) 0 -
        (floorsOf plan).getD start 0) = -1 :=
      Int.sign_eq_neg_one_iff_neg.mpr (by omega)
    rw [hneg] at hkey
    have hlt2 := Int.sign_eq_neg_one_iff_neg.mp hkey
    rw [hfloor i (by omega), hfloor (i + 1) (by omega)]
    have hadd : start + (i + 1) = start + i + 1 := by omega
    rw [hadd]
    omega
  · exact absurd heq hbase
  · left
    rw [List.chain'_iff_get]
    intro i hi
    rw [hlen] at hi
    have hkey := key i (by omega)
    have hpos : Int.sign ((floorsOf plan).getD (start + 1) 0 -
        (floorsOf plan).getD start 0) = 1 :=
      Int.sign_eq_one_iff_pos.mpr (by omega)
    rw [hpos] at hkey
    have hgt2 := Int.sign_eq_one_iff_pos.mp hkey
    rw [hfloor i (by omega), hfloor (i + 1) (by omega)]
    have hadd : start + (i + 1) = start + i + 1 := by omega
    rw [hadd]
    omega

theorem subplans_go_chained (plan : List (ElevatorStop α)) :
    ∀ (cuts : List Nat) (start : Nat),
    CutsOK (floorsOf plan) start cuts →
    (∀ k, k + 1 < plan.length →
      (floorsOf plan).getD (k + 1) 0 ≠ (floorsOf plan).getD k 0) →
    ChainedFrom (plan.drop start) (subplans_go plan cuts start) ∧
    ∀ S ∈ subplans_go plan cuts start, SMono S := by
  have hflen : (floorsOf plan).length = plan.length := List.length_map _ _
  intro cuts
  induction cuts with
  | nil =>
    intro start hok _
    exact False.elim hok
  | cons c cs ihc =>
    intro start hok hne
    cases cs with
    | nil =>
      obtain ⟨hs2, hceq, hsc⟩ := hok
      have hceq' : c = plan.length := by rw [← hflen]; exact hceq
      subst hceq'
      constructor
      · show ChainedFrom (plan.drop start)
          (pySlice plan start plan.length :: subplans_go plan [] _)
        show plan.drop start = pySlice plan start plan.length
        rw [pySlice_all]
      · intro S hS
        simp only [subplans_go, List.mem_singleton] at hS
        rw [hS]
        exact slice_SMono plan start plan.length hs2 (le_refl _) hsc hne
    | cons c' cs' =>
      obtain ⟨hs2, hcle, hsc, hrec⟩ := hok
      have hnext := CutsOK_head _ _ _ _ hrec
      have hclt : c < plan.length := by omega
      obtain ⟨ih1, ih2⟩ := ihc (c - 1) hrec hne
      constructor
      · show ChainedFrom (plan.drop start)
          (pySlice plan start c :: subplans_go plan (c' :: cs') (c - 1))
        have hsub : subplans_go plan (c' :: cs') (c - 1) =
            pySlice plan (c - 1) c' :: subplans_go plan cs' (c' - 1) := rfl
        rw [hsub]
        have hdrop : plan.drop (c - 1) =
            plan.getD (c - 1) default :: plan.drop c := by
          have hcm : c - 1 < plan.length := by omega
          rw [List.drop_eq_getElem_cons hcm,
            List.getD_eq_getElem _ default hcm]
          have : c - 1 + 1 = c := by omega
          rw [this]
        refine ⟨plan.getD (c - 1) default, plan.drop c, ?_, ?_, ?_⟩
        · exact pySlice_getLast plan start c default (by omega) (by omega)
        · exact pySlice_decomp plan start c (by omega) (by omega)
        · rw [← hdrop, ← hsub]
          exact ih1
      · intro S hS
        rcases List.mem_cons.mp hS with h | h
        · rw [h]
          exact slice_SMono plan start c hs2 (by omega) hsc hne
        · exact ih2 S h

theorem split_plan_chained (plan : List (ElevatorStop α))
    (subs : List (List (ElevatorStop α))) (hnd : NoAdjDup plan)
    (hok : split_plan_into_ordered_subplans plan = .ok subs) :
    ChainedFrom plan subs ∧ ∀ S ∈ subs, SMono S := by
  have hflen : (floorsOf plan).length = plan.length := List.length_map _ _
  by_cases hlen : plan.length < 2
  · rw [split_plan_into_ordered_subplans, if_pos hlen] at hok
    exact absurd hok (by simp)
  · rw [split_plan_into_ordered_subplans, if_neg hlen] at hok
    injection hok with hok
    have hne : ∀ k, k + 1 < plan.length →
        (floorsOf plan).getD (k + 1) 0 ≠ (floorsOf plan).getD k 0 := by
      intro k hk
      have hget := List.chain'_iff_get.mp hnd k (by omega)
      rw [floorsOf_getD plan (k + 1) (by omega),
        floorsOf_getD plan k (by omega)]
      exact fun h => hget h.symm
    have hcuts := inflection_go_cutsOK (floorsOf plan)
      (floorsOf plan).length 1 0
      (Int.sign ((floorsOf plan).getD 1 0 - (floorsOf plan).getD 0 0))
      (by omega) (by omega) (by omega)
      (fun k hk hk1 => by
        have hk0 : k = 0 := by omega
        subst hk0
        rfl)
    rw [← hflen] at hok
    obtain ⟨h1, h2⟩ := subplans_go_chained plan _ 0 hcuts hne
    rw [hok] at h1 h2
    rw [List.drop_zero] at h1
    exact ⟨h1, h2⟩

theorem coalesce_self [DecidableEq α] :
    ∀ (l : List (ElevatorStop α)), NoAdjDup l → coalesce_plan l = l := by
  intro l
  induction l using coalesce_plan.induct with
  | case1 => intro _; rfl
  | case2 a => intro _; rfl
  | case3 a b rest h ih =>
    intro hnd
    exact absurd h (List.chain'_cons.mp hnd).1
  | case4 a b rest h ih =>
    intro hnd
    rw [coalesce_cons_ne a b rest h, ih (List.chain'_cons.mp hnd).2]

theorem enumFrom_map_high (M : List (ElevatorStop α)) :
    ∀ (subs : List (List (ElevatorStop α))) (n loc : Nat), loc < n →
    (List.enumFrom n subs).map
      (fun p => if p.1 = loc then M else p.2) = subs := by
  intro subs
  induction subs with
  | nil => intro n loc _; rfl
  | cons S subs' ih =>
    intro n loc h
    show (if n = loc then M else S) :: (List.enumFrom (n + 1) subs').map _ =
      S :: subs'
    rw [if_neg (by omega), ih (n + 1) loc (by omega)]

theorem enumFrom_map_shift (M : List (ElevatorStop α)) :
    ∀ (subs : List (List (ElevatorStop α))) (n k : Nat),
    (List.enumFrom (n + 1) subs).map
      (fun p => if p.1 = k + 1 then M else p.2) =
    (List.enumFrom n subs).map (fun p => if p.1 = k then M else p.2) := by
  intro subs
  induction subs with
  | nil => intro n k; rfl
  | cons S subs' ih =>
    intro n k
    show (if n + 1 = k + 1 then M else S) :: _ = (if n = k then M else S) :: _
    rw [ih (n + 1) k]
    by_cases h : n = k
    · rw [if_pos (by omega), if_pos h]
    · rw [if_neg (by omega), if_neg h]

theorem joinSubplans_zero (S : List (ElevatorStop α))
    (subs' : List (List (ElevatorStop α))) (M : List (ElevatorStop α)) :
    joinSubplans (S :: subs') M 0 = M ++ subs'.flatten := by
  show ((if 0 = 0 then M else S) ::
    (List.enumFrom 1 subs').map (fun p => if p.1 = 0 then M else p.2)).flatten
    = M ++ subs'.flatten
  rw [if_pos rfl, enumFrom_map_high M subs' 1 0 (by omega)]
  rfl

theorem joinSubplans_succ (S : List (ElevatorStop α))
    (subs' : List (List (ElevatorStop α))) (M : List (ElevatorStop α))
    (loc : Nat) :
    joinSubplans (S :: subs') M (loc + 1) = S ++ joinSubplans subs' M loc := by
  show ((if 0 = loc + 1 then M else S) ::
    (List.enumFrom 1 subs').map
      (fun p => if p.1 = loc + 1 then M else p.2)).flatten = _
  rw [if_neg (by omega)]
  show S ++ ((List.enumFrom 1 subs').map
    (fun p => if p.1 = loc + 1 then M else p.2)).flatten = _
  rw [show (1 : Nat) = 0 + 1 from rfl, enumFrom_map_shift M subs' 0 loc]
  rfl

theorem SMono_NoAdjDup (S : List (ElevatorStop α)) (h : SMono S) :
    NoAdjDup S := by
  rcases h.2 with hc | hc
  · exact hc.imp (fun _ _ hab => ne_of_lt hab)
  · exact hc.imp (fun _ _ hab => ne_of_gt hab)

theorem SMono_ne_nil (S : List (ElevatorStop α)) (h : SMono S) : S ≠ [] := by
  intro hnil
  rw [hnil] at h
  exact absurd h.1 (by simp)

theorem ChainedFrom_head :
    ∀ (subs : List (List (ElevatorStop α))) (q S : List (ElevatorStop α)),
    ChainedFrom q subs → subs.head? = some S → ∃ qr, q = S ++ qr := by
  intro subs q S hcf hhd
  cases subs with
  | nil => exact False.elim hcf
  | cons S0 rest =>
    injection hhd with hhd
    subst hhd
    cases rest with
    | nil => exact ⟨[], by rw [List.append_nil]; exact hcf⟩
    | cons S' rest' =>
      obtain ⟨lastS, restq, _, hq, _⟩ := hcf
      exact ⟨restq, hq⟩

theorem coalesce_flatten_chained [DecidableEq α]
    (sel : ElevatorStop α → List α) (hm : MergeSel sel) :
    ∀ (subs : List (List (ElevatorStop α))) (p : List (ElevatorStop α)),
    ChainedFrom p subs → (∀ S ∈ subs, SMono S) →
    ∃ t0 T, coalesce_plan subs.flatten = t0 :: T ∧
      NoAdjDup (t0 :: T) ∧
      (∃ p0 pt, p = p0 :: pt ∧ t0.floor = p0.floor ∧
        (∀ x, x ∈ sel t0 ↔ x ∈ sel p0)) ∧
      (∀ x, countS sel x (t0 :: T) ≤ countS sel x p) := by
  intro subs
  induction subs with
  | nil => intro p hcf _; exact False.elim hcf
  | cons S subs' ih =>
    intro p hcf hsm
    cases subs' with
    | nil =>
      have hp : p = S := hcf
      have hS := hsm S (List.mem_singleton_self S)
      have hnd : NoAdjDup S := SMono_NoAdjDup S hS
      have hflat : ([S] : List (List (ElevatorStop α))).flatten = S := by
        simp
      rw [hflat, coalesce_self S hnd]
      cases S with
      | nil => exact absurd hS.1 (by simp)
      | cons s0 st =>
        refine ⟨s0, st, rfl, hnd, ⟨s0, st, hp, rfl, fun x => Iff.rfl⟩,
          fun x => ?_⟩
        rw [hp]
    | cons S' subs'' =>
      obtain ⟨lastS, restp, hlastS, hp, hcf'⟩ := hcf
      have hS := hsm S (List.mem_cons_self S _)
      have hS' := hsm S' (List.mem_cons_of_mem S (List.mem_cons_self S' _))
      obtain ⟨t0', T'', hW, hndW, ⟨p0', pt', hp', hfl', hiff'⟩, hcnt'⟩ :=
        ih (lastS :: restp) hcf'
          (fun X hX => hsm X (List.mem_cons_of_mem S hX))
      have hpp := (List.cons.injEq lastS restp p0' pt').mp hp'
      rw [← hpp.1] at hfl' hiff'
      -- decompose S = initS ++ [lastS]
      have hSne : S ≠ [] := SMono_ne_nil S hS
      have hlastS' : S.getLast hSne = lastS := by
        have := List.getLast?_eq_getLast S hSne
        rw [hlastS] at this
        injection this with h
        exact h.symm
      have hSdec : S.dropLast ++ [lastS] = S := by
        rw [← hlastS']
        exact List.dropLast_append_getLast hSne
      have hndS : NoAdjDup S := SMono_NoAdjDup S hS
      have hndInit : NoAdjDup S.dropLast ∧
          ∀ xl ∈ S.dropLast.getLast?, xl.floor ≠ lastS.floor := by
        have := hndS
        rw [← hSdec] at this
        rcases List.chain'_append.mp this with ⟨h1, _, h3⟩
        exact ⟨h1, fun xl hxl => h3 xl hxl lastS rfl⟩
      -- the flattened suffix W
      have hS'ne : S' ≠ [] := SMono_ne_nil S' hS'
      obtain ⟨qr, hqr⟩ := ChainedFrom_head (S' :: subs'') (lastS :: restp)
        S' hcf' rfl
      obtain ⟨w0, S't, hS'shape⟩ : ∃ w0 S't, S' = w0 :: S't := by
        cases S' with
        | nil => exact absurd rfl hS'ne
        | cons a b => exact ⟨a, b, rfl⟩
      rw [hS'shape] at hqr
      have hw0 : lastS = w0 := ((List.cons.injEq _ _ _ _).mp hqr).1
      have hS'shape2 : S' = lastS :: S't := by rw [hS'shape, ← hw0]
      obtain ⟨s1, s1rest, hS'tshape⟩ : ∃ s1 s1rest, S't = s1 :: s1rest := by
        cases S't with
        | nil =>
          exfalso
          rw [hS'shape2] at hS'
          exact absurd hS'.1 (by simp)
        | cons a b => exact ⟨a, b, rfl⟩
      -- W = lastS :: s1 :: W2
      have hs1ne : lastS.floor ≠ s1.floor := by
        have hnd' := SMono_NoAdjDup S' hS'
        rw [hS'shape2, hS'tshape] at hnd'
        exact (List.chain'_cons.mp hnd').1
      -- flatten (S :: S' :: subs'') = S ++ (S' ++ flatten subs'')
      have hflat : ((S :: S' :: subs'') :
          List (List (ElevatorStop α))).flatten =
          S ++ (lastS :: s1 :: (s1rest ++ subs''.flatten)) := by
        rw [List.flatten_cons, List.flatten_cons, hS'shape2, hS'tshape]
        simp
      have hWeq : ((S' :: subs'') :
          List (List (ElevatorStop α))).flatten =
          lastS :: s1 :: (s1rest ++ subs''.flatten) := by
        rw [List.flatten_cons, hS'shape2, hS'tshape]
        simp
      -- coalesce W = lastS :: coalesce (s1 :: ...)
      have hcW : coalesce_plan
          (((S' :: subs'') : List (List (ElevatorStop α))).flatten) =
          lastS :: coalesce_plan (s1 :: (s1rest ++ subs''.flatten)) := by
        rw [hWeq]
        exact coalesce_cons_ne lastS s1 _ hs1ne
      have ht0' : t0' = lastS ∧
          T'' = coalesce_plan (s1 :: (s1rest ++ subs''.flatten)) := by
        rw [hW, List.cons.injEq] at hcW
        exact hcW
      obtain ⟨ht0'eq, hT''eq⟩ := ht0'
      -- coalesce (S ++ W) = initS ++ merge :: coalesce (s1 :: ...)
      have hmain : coalesce_plan
          (((S :: S' :: subs'') : List (List (ElevatorStop α))).flatten)
          = S.dropLast ++
            (mergeStop lastS lastS ::
              coalesce_plan (s1 :: (s1rest ++ subs''.flatten))) := by
        rw [hflat]
        have hstep1 : S ++ (lastS :: s1 :: (s1rest ++ subs''.flatten)) =
            S.dropLast ++ ([lastS] ++
              (lastS :: s1 :: (s1rest ++ subs''.flatten))) := by
          rw [← List.append_assoc, hSdec]
        rw [hstep1,
          coalesce_append_left S.dropLast _ hndInit.1
            (fun xl hxl rh hrh => by
              injection hrh with hrh
              rw [← hrh]
              exact hndInit.2 xl hxl)]
        congr 1
        exact coalesce_cons_merge lastS lastS _ rfl
      -- shapes for the head
      cases hInitshape : S.dropLast with
      | nil =>
        exfalso
        have : S.length = 1 := by
          have h1 : S.dropLast.length = S.length - 1 :=
            List.length_dropLast S
          rw [hInitshape] at h1
          simp at h1
          have h2 := hS.1
          omega
        have h2 := hS.1
        omega
      | cons i0 irest =>
        refine ⟨i0, irest ++ (mergeStop lastS lastS ::
          coalesce_plan (s1 :: (s1rest ++ subs''.flatten))), ?_, ?_, ?_, ?_⟩
        · rw [hmain, hInitshape]
          rfl
        · -- NoAdjDup of the assembled list
          show NoAdjDup ((i0 :: irest) ++ (mergeStop lastS lastS ::
            coalesce_plan (s1 :: (s1rest ++ subs''.flatten))))
          rw [← hInitshape]
          refine List.chain'_append.mpr ⟨hndInit.1, ?_, ?_⟩
          · refine List.chain'_cons'.mpr ⟨?_, ?_⟩
            · intro y hy
              show (mergeStop lastS lastS).floor ≠ y.floor
              have hfa : (mergeStop lastS lastS).floor = t0'.floor := by
                rw [ht0'eq]; rfl
              rw [hfa]
              have := List.chain'_cons'.mp hndW
              rw [hT''eq] at this
              exact this.1 y hy
            · have := List.chain'_cons'.mp hndW
              rw [hT''eq] at this
              exact this.2
          · intro xl hxl y hy
            injection hy with hy
            rw [← hy]
            show xl.floor ≠ (mergeStop lastS lastS).floor
            exact hndInit.2 xl hxl
        · refine ⟨i0, irest ++ ([lastS] ++ restp), ?_, rfl, fun x => Iff.rfl⟩
          rw [hp, ← hSdec, hInitshape]
          simp
        · intro x
          have a1 : countS sel x (S.dropLast ++ (mergeStop lastS lastS ::
              coalesce_plan (s1 :: (s1rest ++ subs''.flatten)))) =
              countS sel x S.dropLast +
              ((if x ∈ sel (mergeStop lastS lastS) then 1 else 0) +
                countS sel x
                  (coalesce_plan (s1 :: (s1rest ++ subs''.flatten)))) := by
            rw [countS_append, countS_cons]
          have a2 : (if x ∈ sel (mergeStop lastS lastS) then 1 else 0) =
              (if x ∈ sel lastS then 1 else 0) := by
            by_cases hx : x ∈ sel lastS
            · rw [if_pos hx, if_pos ((hm lastS lastS x).mpr (Or.inl hx))]
            · rw [if_neg hx, if_neg (fun hc => by
                rcases (hm lastS lastS x).mp hc with h | h <;>
                  exact hx h)]
          have a3 := hcnt' x
          have a4 : countS sel x (t0' :: T'') =
              (if x ∈ sel t0' then 1 else 0) + countS sel x T'' :=
            countS_cons sel x t0' T''
          have a5 : (if x ∈ sel t0' then 1 else 0) =
              (if x ∈ sel lastS then 1 else 0) := by
            rw [ht0'eq]
          have a6 : countS sel x p = countS sel x S.dropLast +
              ((if x ∈ sel lastS then 1 else 0) + countS sel x restp) := by
            conv_lhs => rw [hp, ← hSdec]
            rw [List.append_assoc, countS_append, countS_append, countS_cons,
              countS_nil]
            omega
          have a7 : countS sel x (lastS :: restp) =
              (if x ∈ sel lastS then 1 else 0) + countS sel x restp :=
            countS_cons sel x lastS restp
          show countS sel x ((i0 :: irest) ++ (mergeStop lastS lastS ::
            coalesce_plan (s1 :: (s1rest ++ subs''.flatten)))) ≤
            countS sel x p
          rw [← hInitshape, a1]
          rw [hT''eq] at a3 a4
          omega

theorem SMono_head_ne_last (S : List (ElevatorStop α)) (h : SMono S) :
    ∀ h0 ∈ S.head?, ∀ hl ∈ S.getLast?, h0.floor ≠ hl.floor := by
  intro h0 hh0 hl hhl
  cases S with
  | nil => exact absurd h.1 (by simp)
  | cons s0 st =>
    cases st with
    | nil => exact absurd h.1 (by simp)
    | cons s1 rest =>
      injection hh0 with hh0
      rw [List.getLast?_cons_cons] at hhl
      subst hh0
      rcases h.2 with hc | hc
      · have h01 : s0.floor < s1.floor := (List.chain'_cons.mp hc).1
        have hchain : List.Chain'
            (fun a b : ElevatorStop α => a.floor ≤ b.floor) (s1 :: rest) :=
          ((List.chain'_cons.mp hc).2).imp (fun _ _ hab => le_of_lt hab)
        have h1l : s1.floor ≤ hl.floor :=
          chain'_rel_getLast (fun a b : ElevatorStop α => a.floor ≤ b.floor)
            (fun a b c hab hbc => le_trans hab hbc) (fun a => le_refl _)
            (s1 :: rest) hchain hl hhl s1 (List.mem_cons_self s1 rest)
        exact ne_of_lt (lt_of_lt_of_le h01 h1l)
      · have h01 : s1.floor < s0.floor := (List.chain'_cons.mp hc).1
        have hchain : List.Chain'
            (fun a b : ElevatorStop α => b.floor ≤ a.floor) (s1 :: rest) :=
          ((List.chain'_cons.mp hc).2).imp (fun _ _ hab => le_of_lt hab)
        have h1l : hl.floor ≤ s1.floor :=
          chain'_rel_getLast (fun a b : ElevatorStop α => b.floor ≤ a.floor)
            (fun a b c hab hbc => le_trans hbc hab) (fun a => le_refl _)
            (s1 :: rest) hchain hl hhl s1 (List.mem_cons_self s1 rest)
        exact ne_of_gt (lt_of_le_of_lt h1l h01)

theorem coalesce_join_zero [DecidableEq α]
    (sel : ElevatorStop α → List α) (hm : MergeSel sel)
    (S M p : List (ElevatorStop α)) (subs' : List (List (ElevatorStop α)))
    (hcf : ChainedFrom p (S :: subs'))
    (hsm : ∀ X ∈ S :: subs', SMono X)
    (hndM : NoAdjDup M)
    (m0 : ElevatorStop α) (tM : List (ElevatorStop α)) (mh : ElevatorStop α)
    (hM : M = m0 :: tM) (hmh : S.head? = some mh)
    (hm0f : m0.floor = mh.floor)
    (hm0iff : ∀ x, x ∈ sel m0 ↔ x ∈ sel mh)
    (ml mt : ElevatorStop α)
    (hml : M.getLast? = some ml) (hmt : S.getLast? = some mt)
    (hmlf : ml.floor = mt.floor)
    (hmliff : ∀ x, x ∈ sel ml ↔ x ∈ sel mt) :
    ∃ t0 T, coalesce_plan (M ++ subs'.flatten) = t0 :: T ∧
      NoAdjDup (t0 :: T) ∧
      (∃ p0 pt, p = p0 :: pt ∧ t0.floor = p0.floor ∧
        (∀ x, x ∈ sel t0 ↔ x ∈ sel p0)) ∧
      (∀ x, countS sel x (t0 :: T) + countS sel x S ≤
        countS sel x p + countS sel x M) := by
  have hS := hsm S (List.mem_cons_self S _)
  have hSne : S ≠ [] := SMono_ne_nil S hS
  cases subs' with
  | nil =>
    have hp : p = S := hcf
    have hj : M ++ (([] : List (List (ElevatorStop α))).flatten) = M := by
      simp
    rw [hj, coalesce_self M hndM, hM]
    refine ⟨m0, tM, rfl, ?_, ?_, ?_⟩
    · rw [← hM]; exact hndM
    · refine ⟨mh, S.tail, ?_, hm0f, hm0iff⟩
      rw [hp]
      conv_lhs => rw [← List.cons_head?_tail hmh]
    · intro x
      rw [← hM, hp]
      omega
  | cons S' subs'' =>
    obtain ⟨lastS, restp, hlastS, hp, hcf'⟩ := hcf
    have hmtl : mt = lastS := by
      rw [hmt, Option.some.injEq] at hlastS
      exact hlastS
    have hmlf2 : ml.floor = lastS.floor := by rw [hmlf, hmtl]
    have hmliff2 : ∀ x, x ∈ sel ml ↔ x ∈ sel lastS := fun x =>
      (hmliff x).trans (by rw [hmtl])
    have hS' := hsm S' (List.mem_cons_of_mem S (List.mem_cons_self S' _))
    have hS'ne : S' ≠ [] := SMono_ne_nil S' hS'
    obtain ⟨qr, hqr⟩ := ChainedFrom_head (S' :: subs'') (lastS :: restp)
      S' hcf' rfl
    obtain ⟨w0, S't, hS'shape⟩ : ∃ w0 S't, S' = w0 :: S't := by
      cases S' with
      | nil => exact absurd rfl hS'ne
      | cons a b => exact ⟨a, b, rfl⟩
    rw [hS'shape] at hqr
    have hw0 : lastS = w0 := ((List.cons.injEq _ _ _ _).mp hqr).1
    have hS'shape2 : S' = lastS :: S't := by rw [hS'shape, ← hw0]
    obtain ⟨s1, s1rest, hS'tshape⟩ : ∃ s1 s1rest, S't = s1 :: s1rest := by
      cases S't with
      | nil =>
        exfalso
        rw [hS'shape2] at hS'
        exact absurd hS'.1 (by simp)
      | cons a b => exact ⟨a, b, rfl⟩
    have hs1ne : lastS.floor ≠ s1.floor := by
      have hnd' := SMono_NoAdjDup S' hS'
      rw [hS'shape2, hS'tshape] at hnd'
      exact (List.chain'_cons.mp hnd').1
    have hWeq : ((S' :: subs'') : List (List (ElevatorStop α))).flatten =
        lastS :: s1 :: (s1rest ++ subs''.flatten) := by
      rw [List.flatten_cons, hS'shape2, hS'tshape]
      simp
    obtain ⟨t0', T'', hW, hndW, ⟨p0', pt', hp', hfl', hiff'⟩, hcnt'⟩ :=
      coalesce_flatten_chained sel hm (S' :: subs'') (lastS :: restp) hcf'
        (fun X hX => hsm X (List.mem_cons_of_mem S hX))
    have hpp := (List.cons.injEq lastS restp p0' pt').mp hp'
    rw [← hpp.1] at hfl' hiff'
    have hcW : coalesce_plan
        (((S' :: subs'') : List (List (ElevatorStop α))).flatten) =
        lastS :: coalesce_plan (s1 :: (s1rest ++ subs''.flatten)) := by
      rw [hWeq]
      exact coalesce_cons_ne lastS s1 _ hs1ne
    have ht0' : t0' = lastS ∧
        T'' = coalesce_plan (s1 :: (s1rest ++ subs''.flatten)) := by
      rw [hW, List.cons.injEq] at hcW
      exact hcW
    obtain ⟨ht0'eq, hT''eq⟩ := ht0'
    have hMne : M ≠ [] := by rw [hM]; exact List.cons_ne_nil _ _
    have hmlast : M.getLast hMne = ml := by
      have := List.getLast?_eq_getLast M hMne
      rw [hml] at this
      injection this with h
      exact h.symm
    have hMdec : M.dropLast ++ [ml] = M := by
      rw [← hmlast]
      exact List.dropLast_append_getLast hMne
    have hndMdrop : NoAdjDup M.dropLast ∧
        ∀ xl ∈ M.dropLast.getLast?, xl.floor ≠ ml.floor := by
      have h0 := hndM
      rw [← hMdec] at h0
      rcases List.chain'_append.mp h0 with ⟨h1, _, h3⟩
      exact ⟨h1, fun xl hxl => h3 xl hxl ml rfl⟩
    have hheadlast : mh.floor ≠ mt.floor :=
      SMono_head_ne_last S hS mh hmh mt hmt
    obtain ⟨t1, tRest, htM⟩ : ∃ t1 tRest, tM = t1 :: tRest := by
      cases tM with
      | nil =>
        exfalso
        rw [hM] at hml
        simp only [List.getLast?_singleton, Option.mem_def,
          Option.some.injEq] at hml
        apply hheadlast
        rw [← hm0f, hml, hmlf]
      | cons a b => exact ⟨a, b, rfl⟩
    have hMdropshape : M.dropLast = m0 :: tM.dropLast := by
      rw [hM, htM]
      rfl
    have hmain : coalesce_plan
        (M ++ ((S' :: subs'') : List (List (ElevatorStop α))).flatten) =
        M.dropLast ++ (mergeStop ml lastS ::
          coalesce_plan (s1 :: (s1rest ++ subs''.flatten))) := by
      have hstep1 : M ++
          ((S' :: subs'') : List (List (ElevatorStop α))).flatten =
          M.dropLast ++ ([ml] ++
            (lastS :: s1 :: (s1rest ++ subs''.flatten))) := by
        rw [← List.append_assoc, hMdec, hWeq]
      rw [hstep1,
        coalesce_append_left M.dropLast _ hndMdrop.1
          (fun xl hxl rh hrh => by
            injection hrh with hrh
            rw [← hrh]
            exact hndMdrop.2 xl hxl)]
      congr 1
      exact coalesce_cons_merge ml lastS _ hmlf2
    refine ⟨m0, tM.dropLast ++ (mergeStop ml lastS ::
      coalesce_plan (s1 :: (s1rest ++ subs''.flatten))), ?_, ?_, ?_, ?_⟩
    · rw [hmain, hMdropshape]
      rfl
    · show NoAdjDup ((m0 :: tM.dropLast) ++ (mergeStop ml lastS ::
        coalesce_plan (s1 :: (s1rest ++ subs''.flatten))))
      rw [← hMdropshape]
      refine List.chain'_append.mpr ⟨hndMdrop.1, ?_, ?_⟩
      · refine List.chain'_cons'.mpr ⟨?_, ?_⟩
        · intro y hy
          show (mergeStop ml lastS).floor ≠ y.floor
          have hfm : (mergeStop ml lastS).floor = t0'.floor := by
            rw [ht0'eq]
            exact hmlf2
          rw [hfm]
          have h2 := List.chain'_cons'.mp hndW
          rw [hT''eq] at h2
          exact h2.1 y hy
        · have h2 := List.chain'_cons'.mp hndW
          rw [hT''eq] at h2
          exact h2.2
      · intro xl hxl y hy
        injection hy with hy
        rw [← hy]
        show xl.floor ≠ (mergeStop ml lastS).floor
        exact hndMdrop.2 xl hxl
    · refine ⟨mh, S.tail ++ restp, ?_, hm0f, hm0iff⟩
      rw [hp, ← List.cons_head?_tail hmh]
      rfl
    · intro x
      have a1 : countS sel x (M.dropLast ++ (mergeStop ml lastS ::
          coalesce_plan (s1 :: (s1rest ++ subs''.flatten)))) =
          countS sel x M.dropLast +
          ((if x ∈ sel (mergeStop ml lastS) then 1 else 0) +
            countS sel x
              (coalesce_plan (s1 :: (s1rest ++ subs''.flatten)))) := by
        rw [countS_append, countS_cons]
      have a2 : (if x ∈ sel (mergeStop ml lastS) then 1 else 0) =
          (if x ∈ sel lastS then 1 else 0) := by
        by_cases hx : x ∈ sel lastS
        · rw [if_pos hx, if_pos ((hm ml lastS x).mpr (Or.inr hx))]
        · rw [if_neg hx, if_neg (fun hc => by
            rcases (hm ml lastS x).mp hc with h | h
            · exact hx ((hmliff2 x).mp h)
            · exact hx h)]
      have a3 := hcnt' x
      have a4 : countS sel x (t0' :: T'') =
          (if x ∈ sel t0' then 1 else 0) + countS sel x T'' :=
        countS_cons sel x t0' T''
      have a5 : (if x ∈ sel t0' then 1 else 0) =
          (if x ∈ sel lastS then 1 else 0) := by
        rw [ht0'eq]
      have a6 : countS sel x M = countS sel x M.dropLast +
          (if x ∈ sel ml then 1 else 0) := by
        conv_lhs => rw [← hMdec]
        rw [countS_append, countS_cons, countS_nil]
        omega
      have a6' : (if x ∈ sel ml then 1 else 0) =
          (if x ∈ sel lastS then 1 else 0) := by
        by_cases hx : x ∈ sel lastS
        · rw [if_pos hx, if_pos ((hmliff2 x).mpr hx)]
        · rw [if_neg hx, if_neg (fun hc => hx ((hmliff2 x).mp hc))]
      have a7 : countS sel x p = countS sel x S + countS sel x restp := by
        rw [hp, countS_append]
      have a8 : countS sel x (lastS :: restp) =
          (if x ∈ sel lastS then 1 else 0) + countS sel x restp :=
        countS_cons sel x lastS restp
      show countS sel x ((m0 :: tM.dropLast) ++ (mergeStop ml lastS ::
        coalesce_plan (s1 :: (s1rest ++ subs''.flatten)))) +
        countS sel x S ≤ countS sel x p + countS sel x M
      rw [← hMdropshape, a1]
      rw [hT''eq] at a3 a4
      omega

theorem coalesce_step_assemble [DecidableEq α]
    (sel : ElevatorStop α → List α) (hm : MergeSel sel)
    (S p W : List (ElevatorStop α)) (lastS : ElevatorStop α)
    (restp : List (ElevatorStop α)) (A B : α → Nat)
    (hS : SMono S) (hlastS : S.getLast? = some lastS) (hp : p = S ++ restp)
    (w0' W1h : ElevatorStop α) (W1t : List (ElevatorStop α))
    (hWshape : W = w0' :: W1h :: W1t)
    (hw0'f : w0'.floor = lastS.floor)
    (hw0'iff : ∀ x, x ∈ sel w0' ↔ x ∈ sel lastS)
    (hne1 : w0'.floor ≠ W1h.floor)
    (t0' : ElevatorStop α) (T'' : List (ElevatorStop α))
    (hW : coalesce_plan W = t0' :: T'')
    (hndW : NoAdjDup (t0' :: T''))
    (hcnt' : ∀ x, countS sel x (t0' :: T'') + A x ≤
      countS sel x (lastS :: restp) + B x) :
    ∃ t0 T, coalesce_plan (S ++ W) = t0 :: T ∧
      NoAdjDup (t0 :: T) ∧
      (∃ p0 pt, p = p0 :: pt ∧ t0.floor = p0.floor ∧
        (∀ x, x ∈ sel t0 ↔ x ∈ sel p0)) ∧
      (∀ x, countS sel x (t0 :: T) + A x ≤ countS sel x p + B x) := by
  have hSne : S ≠ [] := SMono_ne_nil S hS
  have hlastS' : S.getLast hSne = lastS := by
    have h0 := List.getLast?_eq_getLast S hSne
    rw [hlastS, Option.some.injEq] at h0
    exact h0.symm
  have hSdec : S.dropLast ++ [lastS] = S := by
    rw [← hlastS']
    exact List.dropLast_append_getLast hSne
  have hndS : NoAdjDup S := SMono_NoAdjDup S hS
  have hndInit : NoAdjDup S.dropLast ∧
      ∀ xl ∈ S.dropLast.getLast?, xl.floor ≠ lastS.floor := by
    have h0 := hndS
    rw [← hSdec] at h0
    rcases List.chain'_append.mp h0 with ⟨h1, _, h3⟩
    exact ⟨h1, fun xl hxl => h3 xl hxl lastS rfl⟩
  have hcW : coalesce_plan W = w0' :: coalesce_plan (W1h :: W1t) := by
    rw [hWshape]
    exact coalesce_cons_ne w0' W1h W1t hne1
  have ht0' : t0' = w0' ∧ T'' = coalesce_plan (W1h :: W1t) := by
    rw [hW, List.cons.injEq] at hcW
    exact hcW
  obtain ⟨ht0'eq, hT''eq⟩ := ht0'
  have hmain : coalesce_plan (S ++ W) =
      S.dropLast ++ (mergeStop lastS w0' ::
        coalesce_plan (W1h :: W1t)) := by
    have hstep1 : S ++ W =
        S.dropLast ++ ([lastS] ++ (w0' :: W1h :: W1t)) := by
      rw [← List.append_assoc, hSdec, hWshape]
    rw [hstep1,
      coalesce_append_left S.dropLast _ hndInit.1
        (fun xl hxl rh hrh => by
          injection hrh with hrh
          rw [← hrh]
          exact hndInit.2 xl hxl)]
    congr 1
    exact coalesce_cons_merge lastS w0' _ hw0'f.symm
  obtain ⟨i0, irest, hInitshape⟩ :
      ∃ i0 irest, S.dropLast = i0 :: irest := by
    cases hd : S.dropLast with
    | nil =>
      exfalso
      have h1 := List.length_dropLast S
      rw [hd] at h1
      simp at h1
      have h2 := hS.1
      omega
    | cons a b => exact ⟨a, b, rfl⟩
  refine ⟨i0, irest ++ (mergeStop lastS w0' ::
    coalesce_plan (W1h :: W1t)), ?_, ?_, ?_, ?_⟩
  · rw [hmain, hInitshape]
    rfl
  · show NoAdjDup ((i0 :: irest) ++ (mergeStop lastS w0' ::
      coalesce_plan (W1h :: W1t)))
    rw [← hInitshape]
    refine List.chain'_append.mpr ⟨hndInit.1, ?_, ?_⟩
    · refine List.chain'_cons'.mpr ⟨?_, ?_⟩
      · intro y hy
        show (mergeStop lastS w0').floor ≠ y.floor
        have hfa : (mergeStop lastS w0').floor = t0'.floor := by
          rw [ht0'eq]
          exact hw0'f.symm
        rw [hfa]
        have h2 := List.chain'_cons'.mp hndW
        rw [hT''eq] at h2
        exact h2.1 y hy
      · have h2 := List.chain'_cons'.mp hndW
        rw [hT''eq] at h2
        exact h2.2
    · intro xl hxl y hy
      injection hy with hy
      rw [← hy]
      show xl.floor ≠ (mergeStop lastS w0').floor
      exact hndInit.2 xl hxl
  · refine ⟨i0, irest ++ ([lastS] ++ restp), ?_, rfl, fun x => Iff.rfl⟩
    rw [hp, ← hSdec, hInitshape]
    simp
  · intro x
    have a1 : countS sel x (S.dropLast ++ (mergeStop lastS w0' ::
        coalesce_plan (W1h :: W1t))) =
        countS sel x S.dropLast +
        ((if x ∈ sel (mergeStop lastS w0') then 1 else 0) +
          countS sel x (coalesce_plan (W1h :: W1t))) := by
      rw [countS_append, countS_cons]
    have a2 : (if x ∈ sel (mergeStop lastS w0') then 1 else 0) =
        (if x ∈ sel lastS then 1 else 0) := by
      by_cases hx : x ∈ sel lastS
      · rw [if_pos hx, if_pos ((hm lastS w0' x).mpr (Or.inl hx))]
      · rw [if_neg hx, if_neg (fun hc => by
          rcases (hm lastS w0' x).mp hc with h | h
          · exact hx h
          · exact hx ((hw0'iff x).mp h))]
    have a3 := hcnt' x
    have a4 : countS sel x (t0' :: T'') =
        (if x ∈ sel t0' then 1 else 0) + countS sel x T'' :=
      countS_cons sel x t0' T''
    have a5 : (if x ∈ sel t0' then 1 else 0) =
        (if x ∈ sel lastS then 1 else 0) := by
      rw [ht0'eq]
      by_cases hx : x ∈ sel lastS
      · rw [if_pos hx, if_pos ((hw0'iff x).mpr hx)]
      · rw [if_neg hx, if_neg (fun hc => hx ((hw0'iff x).mp hc))]
    have a6 : countS sel x p = countS sel x S.dropLast +
        ((if x ∈ sel lastS then 1 else 0) + countS sel x restp) := by
      conv_lhs => rw [hp, ← hSdec]
      rw [List.append_assoc, countS_append, countS_append, countS_cons,
        countS_nil]
      omega
    have a7 : countS sel x (lastS :: restp) =
        (if x ∈ sel lastS then 1 else 0) + countS sel x restp :=
      countS_cons sel x lastS restp
    show countS sel x ((i0 :: irest) ++ (mergeStop lastS w0' ::
      coalesce_plan (W1h :: W1t))) + A x ≤ countS sel x p + B x
    rw [← hInitshape, a1]
    rw [hT''eq] at a3 a4
    omega

theorem coalesce_join_chained [DecidableEq α]
    (sel : ElevatorStop α → List α) (hm : MergeSel sel) :
    ∀ (subs : List (List (ElevatorStop α))) (p : List (ElevatorStop α))
      (loc : Nat) (M : List (ElevatorStop α)),
    ChainedFrom p subs → (∀ X ∈ subs, SMono X) → loc < subs.length →
    NoAdjDup M →
    (∃ m0 tM mh, M = m0 :: tM ∧ (subs.getD loc []).head? = some mh ∧
      m0.floor = mh.floor ∧ (∀ x, x ∈ sel m0 ↔ x ∈ sel mh)) →
    (∃ ml mt, M.getLast? = some ml ∧ (subs.getD loc []).getLast? = some mt ∧
      ml.floor = mt.floor ∧ (∀ x, x ∈ sel ml ↔ x ∈ sel mt)) →
    ∃ t0 T, coalesce_plan (joinSubplans subs M loc) = t0 :: T ∧
      NoAdjDup (t0 :: T) ∧
      (∃ p0 pt, p = p0 :: pt ∧ t0.floor = p0.floor ∧
        (∀ x, x ∈ sel t0 ↔ x ∈ sel p0)) ∧
      (∀ x, countS sel x (t0 :: T) + countS sel x (subs.getD loc []) ≤
        countS sel x p + countS sel x M) := by
  intro subs
  induction subs with
  | nil =>
    intro p loc M _ _ hloc _ _ _
    simp at hloc
  | cons S subs' ih =>
    intro p loc M hcf hsm hloc hndM hhead hlast
    cases loc with
    | zero =>
      rw [joinSubplans_zero]
      rw [List.getD_cons_zero] at hhead hlast ⊢
      obtain ⟨m0, tM, mh, hM, hmh, hm0f, hm0iff⟩ := hhead
      obtain ⟨ml, mt, hml, hmt, hmlf, hmliff⟩ := hlast
      exact coalesce_join_zero sel hm S M p subs' hcf hsm hndM
        m0 tM mh hM hmh hm0f hm0iff ml mt hml hmt hmlf hmliff
    | succ k =>
      rw [joinSubplans_succ]
      rw [List.getD_cons_succ] at hhead hlast ⊢
      cases subs' with
      | nil => simp at hloc
      | cons S' subs'' =>
        obtain ⟨lastS, restp, hlastS, hp, hcf'⟩ := hcf
        have hS := hsm S (List.mem_cons_self S _)
        have hS' := hsm S' (List.mem_cons_of_mem S (List.mem_cons_self S' _))
        have hS'ne : S' ≠ [] := SMono_ne_nil S' hS'
        obtain ⟨qr, hqr⟩ := ChainedFrom_head (S' :: subs'')
          (lastS :: restp) S' hcf' rfl
        obtain ⟨w0, S't, hS'shape⟩ : ∃ w0 S't, S' = w0 :: S't := by
          cases S' with
          | nil => exact absurd rfl hS'ne
          | cons a b => exact ⟨a, b, rfl⟩
        rw [hS'shape] at hqr
        have hw0 : lastS = w0 := ((List.cons.injEq _ _ _ _).mp hqr).1
        have hS'shape2 : S' = lastS :: S't := by rw [hS'shape, ← hw0]
        obtain ⟨s1, s1rest, hS'tshape⟩ :
            ∃ s1 s1rest, S't = s1 :: s1rest := by
          cases S't with
          | nil =>
            exfalso
            rw [hS'shape2] at hS'
            exact absurd hS'.1 (by simp)
          | cons a b => exact ⟨a, b, rfl⟩
        have hs1ne : lastS.floor ≠ s1.floor := by
          have hnd' := SMono_NoAdjDup S' hS'
          rw [hS'shape2, hS'tshape] at hnd'
          exact (List.chain'_cons.mp hnd').1
        obtain ⟨t0', T'', hW, hndW, ⟨p0', pt', hp', hfl', hiff'⟩, hcnt'⟩ :=
          ih (lastS :: restp) k M hcf'
            (fun X hX => hsm X (List.mem_cons_of_mem S hX))
            (Nat.lt_of_succ_lt_succ hloc) hndM hhead hlast
        cases k with
        | zero =>
          rw [joinSubplans_zero] at hW ⊢
          rw [List.getD_cons_zero] at hhead hlast ⊢
          obtain ⟨m0, tM, mh, hM, hmh, hm0f, hm0iff⟩ := hhead
          obtain ⟨ml, mt, hml, hmt, hmlf, hmliff⟩ := hlast
          have hmhl : mh = lastS := by
            rw [hS'shape2] at hmh
            injection hmh with h
            exact h.symm
          have hm0f2 : m0.floor = lastS.floor := by rw [hm0f, hmhl]
          have hm0iff2 : ∀ x, x ∈ sel m0 ↔ x ∈ sel lastS := fun x =>
            (hm0iff x).trans (by rw [hmhl])
          have hheadlast : mh.floor ≠ mt.floor :=
            SMono_head_ne_last S' hS' mh hmh mt hmt
          obtain ⟨t1, tRest, htM⟩ : ∃ t1 tRest, tM = t1 :: tRest := by
            cases tM with
            | nil =>
              exfalso
              rw [hM] at hml
              simp only [List.getLast?_singleton, Option.mem_def,
                Option.some.injEq] at hml
              apply hheadlast
              rw [← hm0f, hml, hmlf]
            | cons a b => exact ⟨a, b, rfl⟩
          have hWshape : M ++ subs''.flatten =
              m0 :: t1 :: (tRest ++ subs''.flatten) := by
            rw [hM, htM]
            simp
          have hne1 : m0.floor ≠ t1.floor := by
            have h0 := hndM
            rw [hM, htM] at h0
            exact (List.chain'_cons.mp h0).1
          rw [hWshape] at hW
          obtain ⟨t0, T, hres, hnd, hph, hcnt⟩ :=
            coalesce_step_assemble sel hm S p
              (m0 :: t1 :: (tRest ++ subs''.flatten)) lastS restp
              (fun x => countS sel x S') (fun x => countS sel x M)
              hS hlastS hp m0 t1 (tRest ++ subs''.flatten) rfl
              hm0f2 hm0iff2 hne1 t0' T'' hW hndW hcnt'
          rw [← hWshape] at hres
          exact ⟨t0, T, hres, hnd, hph, hcnt⟩
        | succ j =>
          rw [joinSubplans_succ] at hW ⊢
          have hWshape : S' ++ joinSubplans subs'' M j =
              lastS :: s1 :: (s1rest ++ joinSubplans subs'' M j) := by
            rw [hS'shape2, hS'tshape]
            rfl
          rw [hWshape] at hW
          obtain ⟨t0, T, hres, hnd, hph, hcnt⟩ :=
            coalesce_step_assemble sel hm S p
              (lastS :: s1 :: (s1rest ++ joinSubplans subs'' M j))
              lastS restp
              (fun x => countS sel x ((S' :: subs'').getD (j + 1) []))
              (fun x => countS sel x M)
              hS hlastS hp lastS s1 (s1rest ++ joinSubplans subs'' M j) rfl
              rfl (fun x => Iff.rfl) hs1ne t0' T'' hW hndW hcnt'
          rw [← hWshape] at hres
          exact ⟨t0, T, hres, hnd, hph, hcnt⟩

theorem chain'_pairwise (R : β → β → Prop)
    (htr : ∀ a b c, R a b → R b c → R a c) :
    ∀ l : List β, List.Chain' R l → List.Pairwise R l := by
  intro l
  induction l with
  | nil => intro _; exact List.Pairwise.nil
  | cons a rest ih =>
    intro h
    rcases List.chain'_cons'.mp h with ⟨hhd, hrest⟩
    have hp := ih hrest
    refine List.Pairwise.cons ?_ hp
    intro b hb
    cases rest with
    | nil => simp at hb
    | cons r0 rr =>
      have har : R a r0 := hhd r0 rfl
      rcases List.mem_cons.mp hb with hb' | hb'
      · rw [hb']; exact har
      · exact htr a r0 b har ((List.pairwise_cons.mp hp).1 b hb')

theorem SMono_pairwise_ne (S : List (ElevatorStop α)) (h : SMono S) :
    List.Pairwise (fun a b : ElevatorStop α => a.floor ≠ b.floor) S := by
  rcases h.2 with hc | hc
  · exact (chain'_pairwise (fun a b : ElevatorStop α => a.floor < b.floor)
      (fun a b c hab hbc => lt_trans hab hbc) S hc).imp
      (fun hab => ne_of_lt hab)
  · exact (chain'_pairwise (fun a b : ElevatorStop α => b.floor < a.floor)
      (fun a b c hab hbc => lt_trans hbc hab) S hc).imp
      (fun hab => ne_of_gt hab)

theorem coalesce_head_tokens [DecidableEq α]
    (sel : ElevatorStop α → List α) (hm : MergeSel sel)
    (le : Int → Int → Prop)
    (htr : ∀ a b c : Int, le a b → le b c → le a c)
    (hanti : ∀ a b : Int, le a b → le b a → a = b)
    (hrefl : ∀ a : Int, le a a)
    (L : List (ElevatorStop α))
    (hchain : List.Chain' (fun s t : ElevatorStop α => le s.floor t.floor) L)
    (h3 : No3 L) (m0 : ElevatorStop α) (T : List (ElevatorStop α))
    (hL : coalesce_plan L = m0 :: T) (x : α) :
    x ∈ sel m0 ↔ ∃ s ∈ L, s.floor = m0.floor ∧ x ∈ sel s := by
  cases L with
  | nil => simp [coalesce_plan] at hL
  | cons a L' =>
    cases L' with
    | nil =>
      rw [show coalesce_plan [a] = [a] from rfl, List.cons.injEq] at hL
      constructor
      · intro hx
        exact ⟨a, List.mem_singleton_self a, by rw [hL.1],
          by rw [hL.1]; exact hx⟩
      · rintro ⟨s, hs, _, hx⟩
        rw [List.mem_singleton] at hs
        rw [hL.1] at hs
        rw [← hs]
        exact hx
    | cons b rest =>
      by_cases hab : a.floor = b.floor
      · rw [coalesce_cons_merge a b rest hab, List.cons.injEq] at hL
        have hm0 : m0 = mergeStop a b := hL.1.symm
        have hm0f : m0.floor = a.floor := by rw [hm0]; rfl
        constructor
        · intro hx
          rw [hm0] at hx
          rcases (hm a b x).mp hx with h | h
          · exact ⟨a, List.mem_cons_self a _, hm0f.symm, h⟩
          · exact ⟨b, List.mem_cons_of_mem a (List.mem_cons_self b rest),
              by rw [hm0f, hab], h⟩
        · rintro ⟨s, hs, hsf, hx⟩
          rcases List.mem_cons.mp hs with hs' | hs'
          · rw [hm0]
            exact (hm a b x).mpr (Or.inl (hs' ▸ hx))
          rcases List.mem_cons.mp hs' with hs'' | hs''
          · rw [hm0]
            exact (hm a b x).mpr (Or.inr (hs'' ▸ hx))
          · exfalso
            cases rest with
            | nil => simp at hs''
            | cons r0 rr =>
              have h1 : le b.floor r0.floor :=
                (List.chain'_cons.mp (List.chain'_cons.mp hchain).2).1
              have h2 : le r0.floor s.floor :=
                chain'_rel_head
                  (fun u v : ElevatorStop α => le u.floor v.floor)
                  (fun a b c hab hbc => htr _ _ _ hab hbc)
                  (fun a => hrefl _) (r0 :: rr)
                  (List.chain'_cons.mp (List.chain'_cons.mp hchain).2).2
                  r0 rfl s hs''
              have h4 : s.floor = b.floor := by
                rw [hsf, hm0f, hab]
              have h5 : r0.floor = b.floor := by
                rw [h4] at h2
                exact hanti _ _ h2 h1
              exact h3.1 ⟨hab, h5.symm⟩
      · rw [coalesce_cons_ne a b rest hab] at hL
        have hm0 : m0 = a := by
          obtain ⟨s0, t, heq, _⟩ := coalesce_head_floor b rest
          rw [List.cons.injEq] at hL
          exact hL.1.symm
        subst hm0
        constructor
        · intro hx
          exact ⟨m0, List.mem_cons_self m0 _, rfl, hx⟩
        · rintro ⟨s, hs, hsf, hx⟩
          rcases List.mem_cons.mp hs with hs' | hs'
          · rw [← hs']
            exact hx
          · exfalso
            have h1 : le m0.floor b.floor := (List.chain'_cons.mp hchain).1
            have h2 : le b.floor s.floor :=
              chain'_rel_head
                (fun u v : ElevatorStop α => le u.floor v.floor)
                (fun a b c hab hbc => htr _ _ _ hab hbc)
                (fun a => hrefl _) (b :: rest)
                (List.chain'_cons.mp hchain).2 b rfl s hs'
            rw [hsf] at h2
            exact hab (hanti _ _ h1 h2)

theorem coalesce_last_tokens [DecidableEq α]
    (sel : ElevatorStop α → List α) (hm : MergeSel sel)
    (le : Int → Int → Prop)
    (htr : ∀ a b c : Int, le a b → le b c → le a c)
    (hanti : ∀ a b : Int, le a b → le b a → a = b)
    (hrefl : ∀ a : Int, le a a) :
    ∀ (L : List (ElevatorStop α)),
    List.Chain' (fun s t : ElevatorStop α => le s.floor t.floor) L →
    No3 L →
    ∀ (ml : ElevatorStop α), (coalesce_plan L).getLast? = some ml →
    ∀ x, (x ∈ sel ml ↔ ∃ s ∈ L, s.floor = ml.floor ∧ x ∈ sel s) := by
  intro L
  induction L using coalesce_plan.induct with
  | case1 =>
    intro _ _ ml hml x
    simp [coalesce_plan] at hml
  | case2 a =>
    intro _ _ ml hml x
    have hma : some a = some ml := by
      simpa [coalesce_plan] using hml
    rw [Option.some.injEq] at hma
    subst hma
    constructor
    · intro hx
      exact ⟨a, List.mem_singleton_self a, rfl, hx⟩
    · rintro ⟨s, hs, _, hx⟩
      rw [List.mem_singleton] at hs
      rw [← hs]
      exact hx
  | case3 a b rest h ih =>
    intro hchain h3 ml hml x
    rw [coalesce_cons_merge a b rest h] at hml
    cases hrestnil : rest with
    | nil =>
      subst hrestnil
      simp only [coalesce_plan, List.getLast?_singleton,
        Option.some.injEq] at hml
      have hmlf : ml.floor = a.floor := by rw [← hml]; rfl
      constructor
      · intro hx
        rw [← hml] at hx
        rcases (hm a b x).mp hx with h' | h'
        · exact ⟨a, List.mem_cons_self a _, hmlf.symm, h'⟩
        · exact ⟨b, List.mem_cons_of_mem a (List.mem_singleton_self b),
            by rw [hmlf, h], h'⟩
      · rintro ⟨s, hs, hsf, hx⟩
        rw [← hml]
        rcases List.mem_cons.mp hs with hs' | hs'
        · exact (hm a b x).mpr (Or.inl (hs' ▸ hx))
        · rw [List.mem_singleton] at hs'
          exact (hm a b x).mpr (Or.inr (hs' ▸ hx))
    | cons c r' =>
      subst hrestnil
      have hne := coalesce_ne_nil (c :: r') (List.cons_ne_nil c r')
      obtain ⟨c0, crest, hrest⟩ :
          ∃ c0 crest, coalesce_plan (c :: r') = c0 :: crest := by
        cases hx : coalesce_plan (c :: r') with
        | nil => exact absurd hx hne
        | cons u v => exact ⟨u, v, rfl⟩
      rw [hrest, List.getLast?_cons_cons] at hml
      rw [← hrest] at hml
      have hchain2 : List.Chain'
          (fun s t : ElevatorStop α => le s.floor t.floor) (c :: r') :=
        (List.chain'_cons.mp (List.chain'_cons.mp hchain).2).2
      have h32 : No3 (c :: r') := (h3.tail a).tail b
      have hiff := ih hchain2 h32 ml hml x
      obtain ⟨fl, hfl, hmlfl⟩ := coalesce_getLast_floor (c :: r') ml hml
      have hlecfl : le c.floor fl.floor :=
        chain'_rel_getLast
          (fun u v : ElevatorStop α => le u.floor v.floor)
          (fun p q r hpq hqr => htr _ _ _ hpq hqr)
          (fun p => hrefl _) (c :: r') hchain2 fl hfl c
          (List.mem_cons_self c r')
      have hlebc : le b.floor c.floor :=
        (List.chain'_cons.mp (List.chain'_cons.mp hchain).2).1
      constructor
      · intro hx
        obtain ⟨s, hs, hsf, hxs⟩ := hiff.mp hx
        exact ⟨s, List.mem_cons_of_mem a (List.mem_cons_of_mem b hs),
          hsf, hxs⟩
      · rintro ⟨s, hs, hsf, hxs⟩
        rcases List.mem_cons.mp hs with hs' | hs'
        · exfalso
          have hsb : s.floor = b.floor := by rw [hs']; exact h
          have hflb : fl.floor = b.floor := by
            rw [← hmlfl, ← hsf]
            exact hsb
          have hcb : b.floor = c.floor :=
            hanti _ _ hlebc (by rw [← hflb]; exact hlecfl)
          exact h3.1 ⟨h, hcb⟩
        · rcases List.mem_cons.mp hs' with hs'' | hs''
          · exfalso
            have hsb : s.floor = b.floor := by rw [hs'']
            have hflb : fl.floor = b.floor := by
              rw [← hmlfl, ← hsf]
              exact hsb
            have hcb : b.floor = c.floor :=
              hanti _ _ hlebc (by rw [← hflb]; exact hlecfl)
            exact h3.1 ⟨h, hcb⟩
          · exact hiff.mpr ⟨s, hs'', hsf, hxs⟩
  | case4 a b rest h ih =>
    intro hchain h3 ml hml x
    rw [coalesce_cons_ne a b rest h] at hml
    have hne := coalesce_ne_nil (b :: rest) (List.cons_ne_nil b rest)
    obtain ⟨c0, crest, hrest⟩ :
        ∃ c0 crest, coalesce_plan (b :: rest) = c0 :: crest := by
      cases hx : coalesce_plan (b :: rest) with
      | nil => exact absurd hx hne
      | cons u v => exact ⟨u, v, rfl⟩
    rw [hrest, List.getLast?_cons_cons] at hml
    rw [← hrest] at hml
    have hchain2 : List.Chain'
        (fun s t : ElevatorStop α => le s.floor t.floor) (b :: rest) :=
      (List.chain'_cons.mp hchain).2
    have h32 : No3 (b :: rest) := h3.tail a
    have hiff := ih hchain2 h32 ml hml x
    obtain ⟨fl, hfl, hmlfl⟩ := coalesce_getLast_floor (b :: rest) ml hml
    have hlebfl : le b.floor fl.floor :=
      chain'_rel_getLast
        (fun u v : ElevatorStop α => le u.floor v.floor)
        (fun p q r hpq hqr => htr _ _ _ hpq hqr)
        (fun p => hrefl _) (b :: rest) hchain2 fl hfl b
        (List.mem_cons_self b rest)
    have hleab : le a.floor b.floor := (List.chain'_cons.mp hchain).1
    constructor
    · intro hx
      obtain ⟨s, hs, hsf, hxs⟩ := hiff.mp hx
      exact ⟨s, List.mem_cons_of_mem a hs, hsf, hxs⟩
    · rintro ⟨s, hs, hsf, hxs⟩
      rcases List.mem_cons.mp hs with hs' | hs'
      · exfalso
        have hsa : s.floor = a.floor := by rw [hs']
        have hfla : fl.floor = a.floor := by
          rw [← hmlfl, ← hsf]
          exact hsa
        apply h
        exact hanti _ _ hleab (by rw [← hfla]; exact hlebfl)
      · exact hiff.mpr ⟨s, hs', hsf, hxs⟩

theorem countF_nil (v : Int) :
    countF v ([] : List (ElevatorStop α)) = 0 := rfl

theorem processed_subplan_facts [DecidableEq α]
    (sel : ElevatorStop α → List α) (hm : MergeSel sel)
    (le : Int → Int → Prop)
    (cmp : ElevatorStop α → ElevatorStop α → Bool)
    (hcmp : ∀ a b : ElevatorStop α, cmp a b = true ↔ le a.floor b.floor)
    (htot : ∀ a b : Int, le a b ∨ le b a)
    (htr : ∀ a b c : Int, le a b → le b c → le a c)
    (hanti : ∀ a b : Int, le a b → le b a → a = b)
    (hrefl : ∀ a : Int, le a a)
    (m : List (ElevatorStop α)) (hsm : SMono m)
    (hchm : List.Chain' (fun s t : ElevatorStop α => le s.floor t.floor) m)
    (mh mt : ElevatorStop α) (hmh : m.head? = some mh)
    (hmt : m.getLast? = some mt)
    (src tgt : ElevatorStop α)
    (hsrc : sel src = []) (htgt : sel tgt = [])
    (hsf1 : le mh.floor src.floor) (hsf2 : le src.floor mt.floor)
    (htf1 : le mh.floor tgt.floor) (htf2 : le tgt.floor mt.floor)
    (hstf : src.floor ≠ tgt.floor) :
    NoAdjDup (coalesce_plan (pySort cmp (m ++ [src, tgt]))) ∧
    (∃ m0 tM, coalesce_plan (pySort cmp (m ++ [src, tgt])) = m0 :: tM ∧
      m0.floor = mh.floor ∧ (∀ x, x ∈ sel m0 ↔ x ∈ sel mh)) ∧
    (∃ ml, (coalesce_plan (pySort cmp (m ++ [src, tgt]))).getLast? =
        some ml ∧ ml.floor = mt.floor ∧
      (∀ x, x ∈ sel ml ↔ x ∈ sel mt)) ∧
    (∀ x, countS sel x (coalesce_plan (pySort cmp (m ++ [src, tgt]))) ≤
      countS sel x m) := by
  have hperm : (pySort cmp (m ++ [src, tgt])).Perm (m ++ [src, tgt]) :=
    pySort_perm cmp (m ++ [src, tgt])
  have hbtot : ∀ a b : ElevatorStop α, cmp a b = true ∨ cmp b a = true := by
    intro a b
    rcases htot a.floor b.floor with h | h
    · exact Or.inl ((hcmp a b).mpr h)
    · exact Or.inr ((hcmp b a).mpr h)
  have hsortedb := pySort_sorted cmp hbtot (m ++ [src, tgt])
  have hchainL : List.Chain'
      (fun s t : ElevatorStop α => le s.floor t.floor)
      (pySort cmp (m ++ [src, tgt])) :=
    hsortedb.imp (fun _ _ hab => (hcmp _ _).mp hab)
  have hpair := SMono_pairwise_ne m hsm
  have hcF : ∀ v, countF v (pySort cmp (m ++ [src, tgt])) ≤ 2 := by
    intro v
    rw [countF_perm v hperm, countF_append]
    have h1 : countF v m ≤ 1 := countF_le_one_of_pairwise v m hpair
    have h2 : countF v [src, tgt] ≤ 1 := by
      rw [countF_cons, countF_cons, countF_nil]
      by_cases hs : src.floor = v
      · by_cases ht : tgt.floor = v
        · exact absurd (by rw [hs, ht]) hstf
        · simp [hs, ht]
      · by_cases ht : tgt.floor = v <;> simp [hs, ht]
    omega
  have h3 : No3 (pySort cmp (m ++ [src, tgt])) :=
    No3_of_countF _ hcF
  have hndM : NoAdjDup (coalesce_plan (pySort cmp (m ++ [src, tgt]))) :=
    coalesce_NoAdjDup _ h3
  have hmne : m ≠ [] := SMono_ne_nil m hsm
  have hLne : pySort cmp (m ++ [src, tgt]) ≠ [] := by
    intro h0
    have hl := hperm.length_eq
    rw [h0] at hl
    simp at hl
  have hmhm : mh ∈ m := List.mem_of_mem_head? hmh
  have hmtm : mt ∈ m := List.mem_of_mem_getLast? hmt
  have hmdec : mh :: m.tail = m := List.cons_head?_tail hmh
  have hmhmin : ∀ s ∈ m, le mh.floor s.floor := fun s hs =>
    chain'_rel_head (fun u v : ElevatorStop α => le u.floor v.floor)
      (fun p q r hpq hqr => htr _ _ _ hpq hqr) (fun p => hrefl _)
      m hchm mh hmh s hs
  have hmtmax : ∀ s ∈ m, le s.floor mt.floor := fun s hs =>
    chain'_rel_getLast (fun u v : ElevatorStop α => le u.floor v.floor)
      (fun p q r hpq hqr => htr _ _ _ hpq hqr) (fun p => hrefl _)
      m hchm mt hmt s hs
  have hboundlo : ∀ s ∈ m ++ [src, tgt], le mh.floor s.floor := by
    intro s hs
    rcases List.mem_append.mp hs with hs | hs
    · exact hmhmin s hs
    · rcases List.mem_cons.mp hs with h' | h'
      · rw [h']; exact hsf1
      · rw [List.mem_singleton] at h'
        rw [h']; exact htf1
  have hboundhi : ∀ s ∈ m ++ [src, tgt], le s.floor mt.floor := by
    intro s hs
    rcases List.mem_append.mp hs with hs | hs
    · exact hmtmax s hs
    · rcases List.mem_cons.mp hs with h' | h'
      · rw [h']; exact hsf2
      · rw [List.mem_singleton] at h'
        rw [h']; exact htf2
  have hpair2 : List.Pairwise
      (fun a b : ElevatorStop α => a.floor ≠ b.floor) (mh :: m.tail) := by
    rw [hmdec]
    exact hpair
  -- the unique stop of the extended list on mh's floor carrying tokens is mh
  have huniq_lo : ∀ s ∈ m ++ [src, tgt], s.floor = mh.floor →
      ∀ x, x ∈ sel s → x ∈ sel mh := by
    intro s hs hsf x hx
    rcases List.mem_append.mp hs with hs | hs
    · rw [← hmdec] at hs
      rcases List.mem_cons.mp hs with h' | h'
      · rw [← h']; exact hx
      · exfalso
        exact (List.pairwise_cons.mp hpair2).1 s h' hsf.symm
    · exfalso
      rcases List.mem_cons.mp hs with h' | h'
      · rw [h', hsrc] at hx
        exact absurd hx (List.not_mem_nil x)
      · rw [List.mem_singleton] at h'
        rw [h', htgt] at hx
        exact absurd hx (List.not_mem_nil x)
  have hmtne : m.dropLast ++ [mt] = m := by
    have hmtlast : m.getLast hmne = mt := by
      have h0 := List.getLast?_eq_getLast m hmne
      rw [hmt, Option.some.injEq] at h0
      exact h0.symm
    rw [← hmtlast]
    exact List.dropLast_append_getLast hmne
  have huniq_hi : ∀ s ∈ m ++ [src, tgt], s.floor = mt.floor →
      ∀ x, x ∈ sel s → x ∈ sel mt := by
    intro s hs hsf x hx
    rcases List.mem_append.mp hs with hs | hs
    · rw [← hmtne] at hs
      rcases List.mem_append.mp hs with h' | h'
      · exfalso
        have hpair3 := hpair
        rw [← hmtne] at hpair3
        rcases List.pairwise_append.mp hpair3 with ⟨_, _, h4⟩
        exact h4 s h' mt (List.mem_singleton_self mt) hsf
      · rw [List.mem_singleton] at h'
        rw [← h']; exact hx
    · exfalso
      rcases List.mem_cons.mp hs with h' | h'
      · rw [h', hsrc] at hx
        exact absurd hx (List.not_mem_nil x)
      · rw [List.mem_singleton] at h'
        rw [h', htgt] at hx
        exact absurd hx (List.not_mem_nil x)
  obtain ⟨l0, Lt, hLshape⟩ : ∃ l0 Lt,
      pySort cmp (m ++ [src, tgt]) = l0 :: Lt := by
    cases hx : pySort cmp (m ++ [src, tgt]) with
    | nil => exact absurd hx hLne
    | cons u v => exact ⟨u, v, rfl⟩
  have hLhead : (pySort cmp (m ++ [src, tgt])).head? = some l0 := by
    rw [hLshape]; rfl
  have hl0m : l0 ∈ m ++ [src, tgt] :=
    hperm.mem_iff.mp (List.mem_of_mem_head? hLhead)
  have hl0min : ∀ s ∈ pySort cmp (m ++ [src, tgt]), le l0.floor s.floor :=
    fun s hs =>
      chain'_rel_head (fun u v : ElevatorStop α => le u.floor v.floor)
        (fun p q r hpq hqr => htr _ _ _ hpq hqr) (fun p => hrefl _)
        _ hchainL l0 hLhead s hs
  have hl0f : l0.floor = mh.floor := by
    have h1 : le l0.floor mh.floor := hl0min mh
      (hperm.mem_iff.mpr (List.mem_append_left _ hmhm))
    have h2 : le mh.floor l0.floor := hboundlo l0 hl0m
    exact hanti _ _ h1 h2
  obtain ⟨s0, Tc, hcoalshape, hs0f⟩ := coalesce_head_floor l0 Lt
  rw [← hLshape] at hcoalshape
  have hs0mh : s0.floor = mh.floor := by rw [hs0f, hl0f]
  refine ⟨hndM, ⟨s0, Tc, hcoalshape, hs0mh, ?_⟩, ?_, ?_⟩
  · -- head token iff
    intro x
    have hht := coalesce_head_tokens sel hm le htr hanti hrefl
      (pySort cmp (m ++ [src, tgt])) hchainL h3 s0 Tc hcoalshape x
    rw [hht]
    constructor
    · rintro ⟨s, hs, hsf, hx⟩
      exact huniq_lo s (hperm.mem_iff.mp hs) (by rw [hsf, hs0mh]) x hx
    · intro hx
      exact ⟨mh, hperm.mem_iff.mpr (List.mem_append_left _ hmhm),
        hs0mh.symm, hx⟩
  · -- last stop
    have hcne : coalesce_plan (pySort cmp (m ++ [src, tgt])) ≠ [] := by
      rw [hcoalshape]
      exact List.cons_ne_nil s0 Tc
    obtain ⟨ml, hml⟩ : ∃ ml,
        (coalesce_plan (pySort cmp (m ++ [src, tgt]))).getLast? =
          some ml :=
      ⟨_, List.getLast?_eq_getLast _ hcne⟩
    obtain ⟨fl, hfl, hmlfl⟩ := coalesce_getLast_floor _ ml hml
    have hflm : fl ∈ m ++ [src, tgt] :=
      hperm.mem_iff.mp (List.mem_of_mem_getLast? hfl)
    have hflmax : ∀ s ∈ pySort cmp (m ++ [src, tgt]), le s.floor fl.floor :=
      fun s hs =>
        chain'_rel_getLast (fun u v : ElevatorStop α => le u.floor v.floor)
          (fun p q r hpq hqr => htr _ _ _ hpq hqr) (fun p => hrefl _)
          _ hchainL fl hfl s hs
    have hflf : fl.floor = mt.floor := by
      have h1 : le mt.floor fl.floor := hflmax mt
        (hperm.mem_iff.mpr (List.mem_append_left _ hmtm))
      have h2 : le fl.floor mt.floor := hboundhi fl hflm
      exact hanti _ _ h2 h1
    have hmlmt : ml.floor = mt.floor := by rw [hmlfl, hflf]
    refine ⟨ml, hml, hmlmt, ?_⟩
    intro x
    have hlt := coalesce_last_tokens sel hm le htr hanti hrefl
      (pySort cmp (m ++ [src, tgt])) hchainL h3 ml hml x
    rw [hlt]
    constructor
    · rintro ⟨s, hs, hsf, hx⟩
      exact huniq_hi s (hperm.mem_iff.mp hs) (by rw [hsf, hmlmt]) x hx
    · intro hx
      exact ⟨mt, hperm.mem_iff.mpr (List.mem_append_left _ hmtm),
        hmlmt.symm, hx⟩
  · -- counts
    intro x
    have h1 := coalesce_countS_le sel hm x (pySort cmp (m ++ [src, tgt]))
    have h2 : countS sel x (pySort cmp (m ++ [src, tgt])) =
        countS sel x (m ++ [src, tgt]) := countS_perm sel x hperm
    have h3' : countS sel x (m ++ [src, tgt]) = countS sel x m := by
      rw [countS_append, countS_cons, countS_cons, countS_nil]
      rw [hsrc, htgt]
      simp
    omega

theorem find_matching_go_spec [DecidableEq α]
    (request_dir source_floor target_floor : Int) :
    ∀ (subs : List (List (ElevatorStop α))) (i : Nat)
      (m : List (ElevatorStop α)) (loc : Nat),
    find_matching_subplan_go request_dir source_floor target_floor subs i =
      .ok (some (m, loc)) →
    ∃ j, j < subs.length ∧ loc = i + j ∧ subs.getD j [] = m ∧
      Int.sign ((floorsOf m).getLastD 0 - (floorsOf m).getD 0 0) =
        request_dir ∧
      ∃ sset rset,
        pyRange ((floorsOf m).getD 0 0) ((floorsOf m).getLastD 0)
          (Int.sign ((floorsOf m).getLastD 0 - (floorsOf m).getD 0 0)) =
          .ok sset ∧
        pyRange source_floor target_floor request_dir = .ok rset ∧
        ∀ x ∈ rset, x ∈ sset := by
  intro subs
  induction subs with
  | nil =>
    intro i m loc h
    simp [find_matching_subplan_go] at h
  | cons S rest ih =>
    intro i m loc h
    rw [find_matching_subplan_go] at h
    cases hps : pyRange ((floorsOf S).getD 0 0) ((floorsOf S).getLastD 0)
        (Int.sign ((floorsOf S).getLastD 0 - (floorsOf S).getD 0 0)) with
    | error e =>
      rw [hps] at h
      simp [bind, Except.bind] at h
    | ok sset =>
      cases hpr : pyRange source_floor target_floor request_dir with
      | error e =>
        rw [hps, hpr] at h
        simp [bind, Except.bind] at h
      | ok rset =>
        rw [hps, hpr] at h
        simp only [bind, Except.bind] at h
        split at h
        · rename_i hcond
          rw [Except.ok.injEq, Option.some.injEq, Prod.mk.injEq] at h
          obtain ⟨hm', hloc⟩ := h
          rw [Bool.and_eq_true, decide_eq_true_eq, List.all_eq_true] at hcond
          refine ⟨0, by simp, by omega, by simpa using hm', ?_, sset, rset,
            ?_, rfl, ?_⟩
          · rw [← hm']
            exact hcond.1
          · rw [← hm']
            exact hps
          · intro x hx
            have := hcond.2 x hx
            simpa using this
        · rename_i hcond
          obtain ⟨j, hj, hloc, hget, hrest⟩ := ih (i + 1) m loc h
          rw [hpr] at hrest
          exact ⟨j + 1, by simpa using Nat.succ_lt_succ hj, by omega,
            by simpa using hget, hrest⟩

theorem StopNodup_of_mem (P Q : List (ElevatorStop α))
    (hsub : ∀ s ∈ P, s ∈ Q) (h : StopNodup Q) : StopNodup P :=
  fun s hs => h s (hsub s hs)

theorem coalesce_mem [DecidableEq α] :
    ∀ (L : List (ElevatorStop α)) (s : ElevatorStop α),
    s ∈ coalesce_plan L →
    s ∈ L ∨ ∃ a b, a ∈ L ∧ b ∈ L ∧ s = mergeStop a b := by
  intro L
  induction L using coalesce_plan.induct with
  | case1 => intro s hs; simp [coalesce_plan] at hs
  | case2 a => intro s hs; exact Or.inl hs
  | case3 a b rest h ih =>
    intro s hs
    rw [coalesce_cons_merge a b rest h] at hs
    rcases List.mem_cons.mp hs with hs' | hs'
    · exact Or.inr ⟨a, b, List.mem_cons_self a _,
        List.mem_cons_of_mem a (List.mem_cons_self b rest), hs'⟩
    · rcases ih s hs' with h' | ⟨u, v, hu, hv, huv⟩
      · exact Or.inl (List.mem_cons_of_mem a
          (List.mem_cons_of_mem b h'))
      · exact Or.inr ⟨u, v,
          List.mem_cons_of_mem a (List.mem_cons_of_mem b hu),
          List.mem_cons_of_mem a (List.mem_cons_of_mem b hv), huv⟩
  | case4 a b rest h ih =>
    intro s hs
    rw [coalesce_cons_ne a b rest h] at hs
    rcases List.mem_cons.mp hs with hs' | hs'
    · exact Or.inl (hs' ▸ List.mem_cons_self a _)
    · rcases ih s hs' with h' | ⟨u, v, hu, hv, huv⟩
      · exact Or.inl (List.mem_cons_of_mem a h')
      · exact Or.inr ⟨u, v, List.mem_cons_of_mem a hu,
          List.mem_cons_of_mem a hv, huv⟩

theorem StopNodup_coalesce [DecidableEq α] (L : List (ElevatorStop α))
    (h : StopNodup L) : StopNodup (coalesce_plan L) := by
  intro s hs
  rcases coalesce_mem L s hs with h' | ⟨a, b, _, _, hab⟩
  · exact h s h'
  · rw [hab]
    exact ⟨List.nodup_dedup _, List.nodup_dedup _⟩

theorem ChainedFrom_mem :
    ∀ (subs : List (List (ElevatorStop α))) (p : List (ElevatorStop α)),
    ChainedFrom p subs → ∀ S ∈ subs, ∀ s ∈ S, s ∈ p := by
  intro subs
  induction subs with
  | nil => intro p hcf S hS; exact absurd hS (List.not_mem_nil S)
  | cons S0 rest ih =>
    intro p hcf S hS s hs
    cases rest with
    | nil =>
      rw [List.mem_singleton] at hS
      have hp : p = S0 := hcf
      rw [hp, ← hS]
      exact hs
    | cons S' rest' =>
      obtain ⟨lastS, restq, hlast, hp, hcf'⟩ := hcf
      rcases List.mem_cons.mp hS with hS' | hS'
      · rw [hp]
        exact List.mem_append_left _ (hS' ▸ hs)
      · have hmem := ih (lastS :: restq) hcf' S hS' s hs
        rcases List.mem_cons.mp hmem with h' | h'
        · rw [hp]
          exact List.mem_append_left _
            (h' ▸ List.mem_of_mem_getLast? hlast)
        · rw [hp]
          exact List.mem_append_right _ h'

theorem joinSubplans_mem :
    ∀ (subs : List (List (ElevatorStop α))) (M : List (ElevatorStop α))
      (loc : Nat) (s : ElevatorStop α),
    s ∈ joinSubplans subs M loc →
    (∃ S ∈ subs, s ∈ S) ∨ s ∈ M := by
  intro subs
  induction subs with
  | nil =>
    intro M loc s hs
    simp [joinSubplans] at hs
  | cons S subs' ih =>
    intro M loc s hs
    cases loc with
    | zero =>
      rw [joinSubplans_zero] at hs
      rcases List.mem_append.mp hs with h | h
      · exact Or.inr h
      · obtain ⟨X, hX, hsX⟩ := List.mem_flatten.mp h
        exact Or.inl ⟨X, List.mem_cons_of_mem S hX, hsX⟩
    | succ k =>
      rw [joinSubplans_succ] at hs
      rcases List.mem_append.mp hs with h | h
      · exact Or.inl ⟨S, List.mem_cons_self S _, h⟩
      · rcases ih M k s h with ⟨X, hX, hsX⟩ | h'
        · exact Or.inl ⟨X, List.mem_cons_of_mem S hX, hsX⟩
        · exact Or.inr h'

theorem floorsOf_head (m : List (ElevatorStop α)) (mh : ElevatorStop α)
    (h : m.head? = some mh) : (floorsOf m).getD 0 0 = mh.floor := by
  cases m with
  | nil => simp at h
  | cons a l =>
    injection h with h
    rw [← h]
    rfl

theorem floorsOf_getLast (m : List (ElevatorStop α)) (mt : ElevatorStop α)
    (h : m.getLast? = some mt) : (floorsOf m).getLastD 0 = mt.floor := by
  rw [List.getLastD_eq_getLast?, floorsOf, List.getLast?_map, h]
  rfl

theorem countS_tail [DecidableEq α] (sel : ElevatorStop α → List α) (x : α)
    (l : List (ElevatorStop α)) :
    countS sel x l.tail ≤ countS sel x l := by
  cases l with
  | nil => exact Nat.le_refl _
  | cons a t =>
    show countS sel x t ≤ countS sel x (a :: t)
    rw [countS_cons]
    omega

theorem matched_branch_facts [DecidableEq α]
    (sel : ElevatorStop α → List α) (hm : MergeSel sel)
    (le : Int → Int → Prop)
    (cmp : ElevatorStop α → ElevatorStop α → Bool)
    (hcmp : ∀ a b : ElevatorStop α, cmp a b = true ↔ le a.floor b.floor)
    (htot : ∀ a b : Int, le a b ∨ le b a)
    (htr : ∀ a b c : Int, le a b → le b c → le a c)
    (hanti : ∀ a b : Int, le a b → le b a → a = b)
    (hrefl : ∀ a : Int, le a a)
    (cp : List (ElevatorStop α)) (subs : List (List (ElevatorStop α)))
    (hcf : ChainedFrom cp subs) (hsm : ∀ S ∈ subs, SMono S)
    (loc : Nat) (hloc : loc < subs.length)
    (matching : List (ElevatorStop α))
    (hgetD : subs.getD loc [] = matching)
    (hchm : List.Chain'
      (fun s t : ElevatorStop α => le s.floor t.floor) matching)
    (mh mt : ElevatorStop α)
    (hmh : matching.head? = some mh) (hmt : matching.getLast? = some mt)
    (sf tf : Int)
    (hsrcsel : sel (⟨sf, [], []⟩ : ElevatorStop α) = [])
    (htgtsel : sel (⟨tf, [], []⟩ : ElevatorStop α) = [])
    (hb1 : le mh.floor sf) (hb2 : le sf mt.floor)
    (hb3 : le mh.floor tf) (hb4 : le tf mt.floor)
    (hstf : sf ≠ tf) :
    ∃ t0 T,
      coalesce_plan (joinSubplans subs
        (coalesce_plan (pySort cmp
          (matching ++ [⟨sf, [], []⟩, ⟨tf, [], []⟩]))) loc) = t0 :: T ∧
      NoAdjDup (t0 :: T) ∧
      (∀ x, countS sel x (t0 :: T) ≤ countS sel x cp) := by
  have hmem : matching ∈ subs := by
    rw [← hgetD]
    rw [List.getD_eq_getElem subs [] hloc]
    exact List.getElem_mem hloc
  have hsmm : SMono matching := hsm matching hmem
  obtain ⟨hndM, ⟨m0, tM, hM, hm0f, hm0iff⟩, ⟨ml, hml, hmlf, hmliff⟩,
      hcnt⟩ :=
    processed_subplan_facts sel hm le cmp hcmp htot htr hanti hrefl
      matching hsmm hchm mh mt hmh hmt
      (⟨sf, [], []⟩ : ElevatorStop α) (⟨tf, [], []⟩ : ElevatorStop α)
      hsrcsel htgtsel hb1 hb2 hb3 hb4 hstf
  obtain ⟨t0, T, heq, hnd, _, hcnt2⟩ :=
    coalesce_join_chained sel hm subs cp loc
      (coalesce_plan (pySort cmp
        (matching ++ [⟨sf, [], []⟩, ⟨tf, [], []⟩])))
      hcf hsm hloc hndM
      ⟨m0, tM, mh, hM, by rw [hgetD]; exact hmh, hm0f, hm0iff⟩
      ⟨ml, mt, hml, by rw [hgetD]; exact hmt, hmlf, hmliff⟩
  refine ⟨t0, T, heq, hnd, fun x => ?_⟩
  have h1 := hcnt2 x
  have h2 := hcnt x
  rw [hgetD] at h1
  omega

theorem matching_direction_facts (m : List (ElevatorStop α)) (hsm : SMono m)
    (mh mt : ElevatorStop α) (hmh : m.head? = some mh)
    (hmt : m.getLast? = some mt)
    (sf tf : Int) (hstf : sf ≠ tf)
    (hsign : Int.sign ((floorsOf m).getLastD 0 - (floorsOf m).getD 0 0) =
      Int.sign (tf - sf))
    (sset rset : List Int)
    (hss : pyRange ((floorsOf m).getD 0 0) ((floorsOf m).getLastD 0)
      (Int.sign ((floorsOf m).getLastD 0 - (floorsOf m).getD 0 0)) =
      .ok sset)
    (hrs : pyRange sf tf (Int.sign (tf - sf)) = .ok rset)
    (hsub : ∀ x ∈ rset, x ∈ sset) :
    (sf < tf ∧
      List.Chain' (fun s t : ElevatorStop α => s.floor ≤ t.floor) m ∧
      mh.floor ≤ sf ∧ sf ≤ mt.floor ∧ mh.floor ≤ tf ∧ tf ≤ mt.floor) ∨
    (tf < sf ∧
      List.Chain' (fun s t : ElevatorStop α => t.floor ≤ s.floor) m ∧
      sf ≤ mh.floor ∧ mt.floor ≤ sf ∧ tf ≤ mh.floor ∧ mt.floor ≤ tf) := by
  rw [floorsOf_head m mh hmh, floorsOf_getLast m mt hmt] at hsign hss
  rcases lt_trichotomy sf tf with hlt | heq | hgt
  · left
    have hs1 : Int.sign (tf - sf) = 1 :=
      Int.sign_eq_one_iff_pos.mpr (by omega)
    rw [hs1] at hsign hrs
    have hf0fk : mh.floor < mt.floor := by
      have := Int.sign_eq_one_iff_pos.mp hsign
      omega
    rw [hsign] at hss
    have hchm : List.Chain'
        (fun s t : ElevatorStop α => s.floor ≤ t.floor) m := by
      rcases hsm.2 with hc | hc
      · exact hc.imp (fun _ _ hab => le_of_lt hab)
      · exfalso
        have hrel := chain'_rel_getLast
          (fun u v : ElevatorStop α => v.floor ≤ u.floor)
          (fun p q r hpq hqr => le_trans hqr hpq) (fun p => le_refl _)
          m (hc.imp (fun _ _ hab => le_of_lt hab)) mt hmt mh
          (List.mem_of_mem_head? hmh)
        omega
    rw [pyRange_one] at hss hrs
    rw [Except.ok.injEq] at hss hrs
    have hsfr : sf ∈ rset := by
      rw [← hrs]
      exact (mem_pyRange_pos sf tf sf).mpr ⟨le_refl sf, hlt⟩
    have hsfs := hsub sf hsfr
    rw [← hss] at hsfs
    have hsfb := (mem_pyRange_pos mh.floor mt.floor sf).mp hsfs
    have htfr : tf - 1 ∈ rset := by
      rw [← hrs]
      exact (mem_pyRange_pos sf tf (tf - 1)).mpr ⟨by omega, by omega⟩
    have htfs := hsub (tf - 1) htfr
    rw [← hss] at htfs
    have htfb := (mem_pyRange_pos mh.floor mt.floor (tf - 1)).mp htfs
    exact ⟨hlt, hchm, by omega, by omega, by omega, by omega⟩
  · exact absurd heq hstf
  · right
    have hs1 : Int.sign (tf - sf) = -1 :=
      Int.sign_eq_neg_one_iff_neg.mpr (by omega)
    rw [hs1] at hsign hrs
    have hf0fk : mt.floor < mh.floor := by
      have := Int.sign_eq_neg_one_iff_neg.mp hsign
      omega
    rw [hsign] at hss
    have hchm : List.Chain'
        (fun s t : ElevatorStop α => t.floor ≤ s.floor) m := by
      rcases hsm.2 with hc | hc
      · exfalso
        have hrel := chain'_rel_getLast
          (fun u v : ElevatorStop α => u.floor ≤ v.floor)
          (fun p q r hpq hqr => le_trans hpq hqr) (fun p => le_refl _)
          m (hc.imp (fun _ _ hab => le_of_lt hab)) mt hmt mh
          (List.mem_of_mem_head? hmh)
        omega
      · exact hc.imp (fun _ _ hab => le_of_lt hab)
    rw [pyRange_neg_one] at hss hrs
    rw [Except.ok.injEq] at hss hrs
    have hsfr : sf ∈ rset := by
      rw [← hrs]
      exact (mem_pyRange_neg sf tf sf).mpr ⟨hgt, le_refl sf⟩
    have hsfs := hsub sf hsfr
    rw [← hss] at hsfs
    have hsfb := (mem_pyRange_neg mh.floor mt.floor sf).mp hsfs
    have htfr : tf + 1 ∈ rset := by
      rw [← hrs]
      exact (mem_pyRange_neg sf tf (tf + 1)).mpr ⟨by omega, by omega⟩
    have htfs := hsub (tf + 1) htfr
    rw [← hss] at htfs
    have htfb := (mem_pyRange_neg mh.floor mt.floor (tf + 1)).mp htfs
    exact ⟨hgt, hchm, by omega, by omega, by omega, by omega⟩

theorem countS_fresh_pair [DecidableEq α] (sel : ElevatorStop α → List α)
    (hself : ∀ f : Int, sel (⟨f, [], []⟩ : ElevatorStop α) = [])
    (x : α) (sf tf : Int) :
    countS sel x
      ([⟨sf, [], []⟩, ⟨tf, [], []⟩] : List (ElevatorStop α)) = 0 := by
  simp [countS, hself]

theorem sortByFloor_perm (rd : Int) (l : List (ElevatorStop α)) :
    (sortByFloor rd l).Perm l := by
  rw [sortByFloor]
  split
  · exact pySort_perm _ l
  · exact pySort_perm _ l

theorem fallback_facts [DecidableEq α] (sel : ElevatorStop α → List α)
    (hm : MergeSel sel)
    (hself : ∀ f : Int, sel (⟨f, [], []⟩ : ElevatorStop α) = [])
    (plan : List (ElevatorStop α)) (hnd : NoAdjDup plan)
    (sf tf : Int) (hstf : sf ≠ tf) :
    (∀ x, countS sel x
      (coalesce_plan (plan ++ [⟨sf, [], []⟩, ⟨tf, [], []⟩])) ≤
      countS sel x plan) ∧
    NoAdjDup (coalesce_plan (plan ++ [⟨sf, [], []⟩, ⟨tf, [], []⟩])) ∧
    (StopNodup plan →
      StopNodup (coalesce_plan (plan ++ [⟨sf, [], []⟩, ⟨tf, [], []⟩]))) := by
  refine ⟨fun x => ?_, ?_, fun hsn => ?_⟩
  · have h1 := coalesce_countS_le sel hm x
      (plan ++ [⟨sf, [], []⟩, ⟨tf, [], []⟩])
    rw [countS_append, countS_fresh_pair sel hself x sf tf] at h1
    omega
  · exact coalesce_NoAdjDup _ (No3_append_pair plan _ _ hnd hstf)
  · refine StopNodup_coalesce _ (fun s hs => ?_)
    rcases List.mem_append.mp hs with h | h
    · exact hsn s h
    · rcases List.mem_cons.mp h with h' | h'
      · rw [h']; exact ⟨List.nodup_nil, List.nodup_nil⟩
      · rw [List.mem_singleton] at h'
        rw [h']; exact ⟨List.nodup_nil, List.nodup_nil⟩

theorem matched_case_facts [DecidableEq α]
    (sel : ElevatorStop α → List α) (hm : MergeSel sel)
    (hself : ∀ f : Int, sel (⟨f, [], []⟩ : ElevatorStop α) = [])
    (sf tf : Int) (hstf : sf ≠ tf)
    (cp : List (ElevatorStop α)) (hndcp : NoAdjDup cp)
    (hsncp : StopNodup cp)
    (subs : List (List (ElevatorStop α)))
    (hsplit : split_plan_into_ordered_subplans cp = .ok subs)
    (m : List (ElevatorStop α)) (loc : Nat)
    (hfind : find_matching_subplan_for_request subs sf tf =
      .ok (some (m, loc))) :
    ∃ t0 T,
      coalesce_plan (joinSubplans subs
        (coalesce_plan (sortByFloor (Int.sign (tf - sf))
          (m ++ [⟨sf, [], []⟩, ⟨tf, [], []⟩]))) loc) = t0 :: T ∧
      NoAdjDup (t0 :: T) ∧
      (∀ x, countS sel x (t0 :: T) ≤ countS sel x cp) ∧
      StopNodup (t0 :: T) := by
  obtain ⟨hcf, hsm⟩ := split_plan_chained cp subs hndcp hsplit
  rw [find_matching_subplan_for_request] at hfind
  obtain ⟨j, hj, hloc, hgetD, hsign, sset, rset, hss, hrs, hsub⟩ :=
    find_matching_go_spec _ sf tf subs 0 m loc hfind
  have hloc' : loc < subs.length := by omega
  have hgetD' : subs.getD loc [] = m := by
    rw [hloc, Nat.zero_add]; exact hgetD
  have hmem : m ∈ subs := by
    rw [← hgetD', List.getD_eq_getElem subs [] hloc']
    exact List.getElem_mem hloc'
  have hsmm : SMono m := hsm m hmem
  have hmne : m ≠ [] := SMono_ne_nil m hsmm
  obtain ⟨mh, hmh⟩ : ∃ mh, m.head? = some mh := by
    cases m with
    | nil => exact absurd rfl hmne
    | cons a l => exact ⟨a, rfl⟩
  obtain ⟨mt, hmt⟩ : ∃ mt, m.getLast? = some mt :=
    ⟨m.getLast hmne, List.getLast?_eq_getLast m hmne⟩
  have hsnJ : StopNodup (coalesce_plan (joinSubplans subs
      (coalesce_plan (sortByFloor (Int.sign (tf - sf))
        (m ++ [⟨sf, [], []⟩, ⟨tf, [], []⟩]))) loc)) := by
    refine StopNodup_coalesce _ (fun s hs => ?_)
    rcases joinSubplans_mem subs _ loc s hs with ⟨S, hS, hsS⟩ | hsM
    · exact hsncp s (ChainedFrom_mem subs cp hcf S hS s hsS)
    · have hsn2 : StopNodup (sortByFloor (Int.sign (tf - sf))
          (m ++ [⟨sf, [], []⟩, ⟨tf, [], []⟩])) := by
        intro u hu
        have hu' := (sortByFloor_perm _ _).mem_iff.mp hu
        rcases List.mem_append.mp hu' with h | h
        · exact hsncp u (ChainedFrom_mem subs cp hcf m hmem u h)
        · rcases List.mem_cons.mp h with h' | h'
          · rw [h']; exact ⟨List.nodup_nil, List.nodup_nil⟩
          · rw [List.mem_singleton] at h'
            rw [h']; exact ⟨List.nodup_nil, List.nodup_nil⟩
      exact StopNodup_coalesce _ hsn2 s hsM
  rcases matching_direction_facts m hsmm mh mt hmh hmt sf tf hstf hsign
      sset rset hss hrs hsub with
    ⟨hlt, hch, hb1, hb2, hb3, hb4⟩ | ⟨hgt, hch, hb1, hb2, hb3, hb4⟩
  · have hrd : Int.sign (tf - sf) = 1 :=
      Int.sign_eq_one_iff_pos.mpr (by omega)
    rw [hrd] at hsnJ ⊢
    rw [sortByFloor, if_neg (by decide)] at hsnJ ⊢
    obtain ⟨t0, T, heq, hnd, hcnt⟩ :=
      matched_branch_facts sel hm (fun a b : Int => a ≤ b)
        (fun a b : ElevatorStop α => decide (a.floor ≤ b.floor))
        (fun a b => by simp)
        (fun a b => le_total a b) (fun a b c => le_trans)
        (fun a b => le_antisymm) (fun a => le_refl a)
        cp subs hcf hsm loc hloc' m hgetD' hch mh mt hmh hmt sf tf
        (hself sf) (hself tf) hb1 hb2 hb3 hb4 hstf
    rw [heq] at hsnJ
    exact ⟨t0, T, heq, hnd, hcnt, hsnJ⟩
  · have hrd : Int.sign (tf - sf) = -1 :=
      Int.sign_eq_neg_one_iff_neg.mpr (by omega)
    rw [hrd] at hsnJ ⊢
    rw [sortByFloor, if_pos rfl] at hsnJ ⊢
    obtain ⟨t0, T, heq, hnd, hcnt⟩ :=
      matched_branch_facts sel hm (fun a b : Int => b ≤ a)
        (fun a b : ElevatorStop α => decide (b.floor ≤ a.floor))
        (fun a b => by simp)
        (fun a b => le_total b a) (fun a b c h1 h2 => le_trans h2 h1)
        (fun a b h1 h2 => le_antisymm h2 h1) (fun a => le_refl a)
        cp subs hcf hsm loc hloc' m hgetD' hch mh mt hmh hmt sf tf
        (hself sf) (hself tf) hb1 hb2 hb3 hb4 hstf
    rw [heq] at hsnJ
    exact ⟨t0, T, heq, hnd, hcnt, hsnJ⟩

theorem build_updated_facts [DecidableEq α]
    (sel : ElevatorStop α → List α) (hm : MergeSel sel)
    (hself : ∀ f : Int, sel (⟨f, [], []⟩ : ElevatorStop α) = [])
    (e : Elevator α) (sf tf : Int) (hstf : sf ≠ tf)
    (hnd : NoAdjDup e.elevator_plan) (hsn : StopNodup e.elevator_plan)
    (P : List (ElevatorStop α))
    (hok : build_updated_elevator_plan_for_request_in_elevator e sf tf =
      .ok P) :
    (∀ x, countS sel x P ≤ countS sel x e.elevator_plan) ∧
    StopNodup P ∧
    (NoAdjDup P ∨
      ∃ p0 s1 s2, P = [p0, s1, s2] ∧ p0.floor = s1.floor ∧
        s1.floor ≠ s2.floor ∧ e.current_floor = p0.floor ∧
        sel s1 = [] ∧ sel s2 = []) := by
  simp only [build_updated_elevator_plan_for_request_in_elevator] at hok
  split at hok
  · rename_i heq
    rw [Except.ok.injEq] at hok
    rw [← hok]
    simp only [heq]
    refine ⟨fun x => ?_, ?_, Or.inl ?_⟩
    · rw [countS_fresh_pair sel hself x sf tf]
      exact Nat.zero_le _
    · intro s hs
      rcases List.mem_cons.mp hs with h | h
      · rw [h]; exact ⟨List.nodup_nil, List.nodup_nil⟩
      · rw [List.mem_singleton] at h
        rw [h]; exact ⟨List.nodup_nil, List.nodup_nil⟩
    · exact List.chain'_cons.mpr ⟨hstf, List.chain'_singleton _⟩
  · rename_i p0 rest heq
    rw [heq] at hnd hsn
    simp only [heq] at hok ⊢
    split at hok
    · rename_i hc1
      obtain ⟨hlen1, hcur⟩ := hc1
      have hrest : rest = [] := by
        rw [List.length_cons] at hlen1
        exact List.eq_nil_of_length_eq_zero (by omega)
      subst hrest
      rw [Except.ok.injEq] at hok
      rw [← hok]
      refine ⟨fun x => ?_, ?_, ?_⟩
      · rw [countS_append, countS_fresh_pair sel hself x sf tf]
        omega
      · intro s hs
        rcases List.mem_append.mp hs with h | h
        · exact hsn s h
        · rcases List.mem_cons.mp h with h' | h'
          · rw [h']; exact ⟨List.nodup_nil, List.nodup_nil⟩
          · rw [List.mem_singleton] at h'
            rw [h']; exact ⟨List.nodup_nil, List.nodup_nil⟩
      · by_cases hps : p0.floor = sf
        · exact Or.inr ⟨p0, ⟨sf, [], []⟩, ⟨tf, [], []⟩, rfl, hps, hstf,
            hcur, hself sf, hself tf⟩
        · exact Or.inl (List.chain'_cons.mpr ⟨hps,
            List.chain'_cons.mpr ⟨hstf, List.chain'_singleton _⟩⟩)
    · by_cases hcur : e.current_floor = p0.floor
      · simp only [if_pos hcur, List.nil_append] at hok
        cases hsp : split_plan_into_ordered_subplans (p0 :: rest) with
        | error err =>
          rw [hsp] at hok
          simp only [bind, Except.bind] at hok
          exact Except.noConfusion hok
        | ok subs =>
          rw [hsp] at hok
          simp only [bind, Except.bind] at hok
          cases hfd : find_matching_subplan_for_request subs sf tf with
          | error err =>
            rw [hfd] at hok
            simp only [bind, Except.bind] at hok
            exact Except.noConfusion hok
          | ok res =>
            cases res with
            | none =>
              rw [hfd] at hok
              simp only [bind, Except.bind] at hok
              rw [Except.ok.injEq] at hok
              rw [← hok]
              obtain ⟨hc, hn, hs2⟩ :=
                fallback_facts sel hm hself (p0 :: rest) hnd sf tf hstf
              exact ⟨hc, hs2 hsn, Or.inl hn⟩
            | some pair =>
              obtain ⟨m, loc⟩ := pair
              rw [hfd] at hok
              simp only [bind, Except.bind] at hok
              obtain ⟨t0, T, hJ, hndJ, hcntJ, hsnJ⟩ :=
                matched_case_facts sel hm hself sf tf hstf (p0 :: rest)
                  hnd hsn subs hsp m loc hfd
              rw [hJ] at hok
              split at hok
              · split at hok
                · rw [Except.ok.injEq] at hok
                  rw [← hok]
                  refine ⟨fun x => ?_,
                    StopNodup_of_mem _ _
                      (fun s hs => List.mem_cons_of_mem t0 hs) hsnJ,
                    Or.inl (NoAdjDup_tail hndJ)⟩
                  have h1 := countS_tail sel x (t0 :: T)
                  have h2 := hcntJ x
                  omega
                · rw [Except.ok.injEq] at hok
                  rw [← hok]
                  obtain ⟨hc, hn, hs2⟩ :=
                    fallback_facts sel hm hself (p0 :: rest) hnd sf tf hstf
                  exact ⟨hc, hs2 hsn, Or.inl hn⟩
              · split at hok
                · rw [Except.ok.injEq] at hok
                  rw [← hok]
                  exact ⟨hcntJ, hsnJ, Or.inl hndJ⟩
                · rw [Except.ok.injEq] at hok
                  rw [← hok]
                  obtain ⟨hc, hn, hs2⟩ :=
                    fallback_facts sel hm hself (p0 :: rest) hnd sf tf hstf
                  exact ⟨hc, hs2 hsn, Or.inl hn⟩
      · simp only [if_neg hcur, List.singleton_append] at hok
        have hndcp : NoAdjDup
            ((⟨e.current_floor, [], []⟩ : ElevatorStop α) :: p0 :: rest) :=
          List.chain'_cons.mpr ⟨hcur, hnd⟩
        have hsncp : StopNodup
            ((⟨e.current_floor, [], []⟩ : ElevatorStop α) :: p0 :: rest) := by
          intro s hs
          rcases List.mem_cons.mp hs with h | h
          · rw [h]; exact ⟨List.nodup_nil, List.nodup_nil⟩
          · exact hsn s h
        have hcpc : ∀ x, countS sel x
            ((⟨e.current_floor, [], []⟩ : ElevatorStop α) :: p0 :: rest) =
            countS sel x (p0 :: rest) := by
          intro x
          rw [countS_cons, hself e.current_floor]
          simp
        cases hsp : split_plan_into_ordered_subplans
            ((⟨e.current_floor, [], []⟩ : ElevatorStop α) :: p0 :: rest) with
        | error err =>
          rw [hsp] at hok
          simp only [bind, Except.bind] at hok
          exact Except.noConfusion hok
        | ok subs =>
          rw [hsp] at hok
          simp only [bind, Except.bind] at hok
          cases hfd : find_matching_subplan_for_request subs sf tf with
          | error err =>
            rw [hfd] at hok
            simp only [bind, Except.bind] at hok
            exact Except.noConfusion hok
          | ok res =>
            cases res with
            | none =>
              rw [hfd] at hok
              simp only [bind, Except.bind] at hok
              rw [Except.ok.injEq] at hok
              rw [← hok]
              obtain ⟨hc, hn, hs2⟩ :=
                fallback_facts sel hm hself (p0 :: rest) hnd sf tf hstf
              exact ⟨hc, hs2 hsn, Or.inl hn⟩
            | some pair =>
              obtain ⟨m, loc⟩ := pair
              rw [hfd] at hok
              simp only [bind, Except.bind] at hok
              obtain ⟨t0, T, hJ, hndJ, hcntJ, hsnJ⟩ :=
                matched_case_facts sel hm hself sf tf hstf
                  ((⟨e.current_floor, [], []⟩ : ElevatorStop α) :: p0 :: rest)
                  hndcp hsncp subs hsp m loc hfd
              rw [hJ] at hok
              split at hok
              · split at hok
                · rw [Except.ok.injEq] at hok
                  rw [← hok]
                  refine ⟨fun x => ?_,
                    StopNodup_of_mem _ _
                      (fun s hs => List.mem_cons_of_mem t0 hs) hsnJ,
                    Or.inl (NoAdjDup_tail hndJ)⟩
                  have h1 := countS_tail sel x (t0 :: T)
                  have h2 := hcntJ x
                  have h3 := hcpc x
                  omega
                · rw [Except.ok.injEq] at hok
                  rw [← hok]
                  obtain ⟨hc, hn, hs2⟩ :=
                    fallback_facts sel hm hself (p0 :: rest) hnd sf tf hstf
                  exact ⟨hc, hs2 hsn, Or.inl hn⟩
              · split at hok
                · rw [Except.ok.injEq] at hok
                  rw [← hok]
                  refine ⟨fun x => ?_, hsnJ, Or.inl hndJ⟩
                  have h2 := hcntJ x
                  have h3 := hcpc x
                  omega
                · rw [Except.ok.injEq] at hok
                  rw [← hok]
                  obtain ⟨hc, hn, hs2⟩ :=
                    fallback_facts sel hm hself (p0 :: rest) hnd sf tf hstf
                  exact ⟨hc, hs2 hsn, Or.inl hn⟩

/-
C6 support: the engine invariant.  The master list only ever grows; plans
hold tokens (indices) below the master list's length; each request is picked
up at most once; the boarded passenger ids name picked, not yet dropped
requests.  `DFormP` is the one transient adjacent-duplicate plan shape the
dispatcher can store (created when a request starts at a lone planned stop's
floor), which either crashes the next dispatch of the same tick or is
resolved by the elevator servicing that stop at the end of the tick.
-/

theorem getD_append_left (l1 l2 : List β) (d : β) (i : Nat)
    (h : i < l1.length) : (l1 ++ l2).getD i d = l1.getD i d := by
  rw [List.getD_eq_getElem?_getD, List.getD_eq_getElem?_getD,
    List.getElem?_append_left h]

theorem getD_append_len (l1 : List β) (a : β) (d : β) :
    (l1 ++ [a]).getD l1.length d = a := by
  rw [List.getD_eq_getElem?_getD, List.getElem?_append_right (le_refl _)]
  simp

theorem getD_big (l : List β) (d : β) (i : Nat) (h : l.length ≤ i) :
    l.getD i d = d := by
  rw [List.getD_eq_getElem?_getD, List.getElem?_eq_none (by omega)]
  rfl

theorem take_getD_drop [Inhabited β] :
    ∀ (l : List β) (i : Nat), i < l.length →
    l = l.take i ++ l.getD i default :: l.drop (i + 1) := by
  intro l
  induction l with
  | nil => intro i h; simp at h
  | cons x xs ih =>
    intro i h
    cases i with
    | zero => simp
    | succ k =>
      have := ih k (by simpa using h)
      calc x :: xs = x :: (xs.take k ++ xs.getD k default ::
          xs.drop (k + 1)) := by rw [← this]
        _ = _ := by simp

theorem modifyIdx_eq [Inhabited β] (f : β → β) :
    ∀ (l : List β) (i : Nat), i < l.length →
    modifyIdx f i l =
      l.take i ++ f (l.getD i default) :: l.drop (i + 1) := by
  intro l
  induction l with
  | nil => intro i h; simp at h
  | cons x xs ih =>
    intro i h
    cases i with
    | zero => simp [modifyIdx]
    | succ k =>
      have := ih k (by simpa using h)
      calc modifyIdx f (k + 1) (x :: xs) = x :: modifyIdx f k xs := rfl
        _ = x :: (xs.take k ++ f (xs.getD k default) ::
            xs.drop (k + 1)) := by rw [this]
        _ = _ := by simp

theorem mem_modifyIdx_eq [Inhabited β] (f : β → β) (l : List β) (i : Nat)
    (hi : i < l.length) (a : β) (ha : a ∈ modifyIdx f i l) :
    a ∈ l ∨ a = f (l.getD i default) := by
  rw [modifyIdx_eq f l i hi] at ha
  rcases List.mem_append.mp ha with h | h
  · exact Or.inl (List.mem_of_mem_take h)
  · rcases List.mem_cons.mp h with h' | h'
    · exact Or.inr h'
    · exact Or.inl (List.mem_of_mem_drop h')

theorem nodup_append_singleton {l : List β} (x : β) (h : l.Nodup)
    (hx : x ∉ l) : (l ++ [x]).Nodup := by
  induction l with
  | nil => simp
  | cons y ys ih =>
    rw [List.cons_append, List.nodup_cons]
    refine ⟨?_, ih (List.nodup_cons.mp h).2
      (fun hc => hx (List.mem_cons_of_mem _ hc))⟩
    intro hc
    rcases List.mem_append.mp hc with h' | h'
    · exact (List.nodup_cons.mp h).1 h'
    · rw [List.mem_singleton] at h'
      exact hx (h' ▸ List.mem_cons_self y ys)

theorem getD_mem (l : List β) (i : Nat) (d : β) (h : i < l.length) :
    l.getD i d ∈ l := by
  rw [List.getD_eq_getElem l d h]
  exact List.getElem_mem h

/-- The request store indexed through `getD`: distinct ids at distinct
indices (consequence of a duplicate-free id column). -/
theorem store_id_inj (store : List CallRequest)
    (hnd : (store.map (fun r => r.id)).Nodup) (a b : Nat)
    (ha : a < store.length) (hb : b < store.length)
    (h : (store.getD a default).id = (store.getD b default).id) :
    a = b := by
  have hinj := List.nodup_iff_injective_get.mp hnd
  have hga : (store.map (fun r => r.id)).get
      ⟨a, by simpa using ha⟩ = (store.getD a default).id := by
    rw [List.get_map]
    rw [List.getD_eq_getElem store default ha]
    rfl
  have hgb : (store.map (fun r => r.id)).get
      ⟨b, by simpa using hb⟩ = (store.getD b default).id := by
    rw [List.get_map]
    rw [List.getD_eq_getElem store default hb]
    rfl
  have heq : (store.map (fun r => r.id)).get ⟨a, by simpa using ha⟩ =
      (store.map (fun r => r.id)).get ⟨b, by simpa using hb⟩ := by
    rw [hga, hgb]
    exact h
  have := hinj heq
  exact congrArg Fin.val this

theorem map_id_ext (l1 l2 : List CallRequest)
    (hlen : l1.length = l2.length)
    (h : ∀ x, (l1.getD x default).id = (l2.getD x default).id) :
    l1.map (fun r => r.id) = l2.map (fun r => r.id) := by
  apply List.ext_getElem (by simpa using hlen)
  intro i h1 h2
  have := h i
  rw [List.getD_eq_getElem l1 default (by simpa using h1),
    List.getD_eq_getElem l2 default (by simpa using h2)] at this
  simpa using this

/-- Splitting the rows seen up to `T + 1` into those seen up to `T` and the
batch arriving at `T + 1` (a multiset identity). -/
theorem filter_le_succ_perm (T : Int) (hT : -1 ≤ T) :
    ∀ rows : List Row,
    (rows.filter (fun row => decide (0 ≤ row.time) &&
        decide (row.time ≤ T + 1))).Perm
      (rows.filter (fun row => decide (0 ≤ row.time) &&
        decide (row.time ≤ T)) ++
       rows.filter (fun row => decide (row.time = T + 1))) := by
  intro rows
  induction rows with
  | nil => simp
  | cons row rest ih =>
    by_cases h1 : 0 ≤ row.time ∧ row.time ≤ T
    · have hne : ¬ row.time = T + 1 := by omega
      simp only [List.filter_cons]
      rw [if_pos (by simp; omega), if_pos (by simp [h1.1, h1.2]),
        if_neg (by simpa using hne)]
      exact (ih.cons row).trans (List.Perm.refl _)
    · by_cases h2 : row.time = T + 1
      · simp only [List.filter_cons]
        rw [if_pos (by simp; omega), if_neg (by simp; omega),
          if_pos (by simpa using h2)]
        exact (ih.cons row).trans List.perm_middle.symm
      · simp only [List.filter_cons]
        rw [if_neg (by simp; omega), if_neg (by simp; omega),
          if_neg (by simpa using h2)]
        exact ih

/-- Every token of a plan is an index below `n` (the master list length). -/
def PlanTok (n : Nat) (P : List (ElevatorStop Nat)) : Prop :=
  ∀ st ∈ P, (∀ rid ∈ st.pickup_requests, rid < n) ∧
    (∀ rid ∈ st.dropoff_requests, rid < n)

/-- The transient stored-plan shape with one adjacent duplicate floor: three
stops on floors `f, f, t` (`f ≠ t`) with the elevator standing on `f`. -/
def DFormP (cur : Int) (P : List (ElevatorStop α)) : Prop :=
  ∃ f t, floorsOf P = [f, f, t] ∧ f ≠ t ∧ cur = f

/-- Total number of stops holding a pickup token `x` over all plans. -/
def countP (E : List (Elevator Nat)) (x : Nat) : Nat :=
  (E.map (fun e => countS pickOf x e.elevator_plan)).sum

/-- 1 when the request at index `x` has been picked up. -/
def pickedFlag (R : List CallRequest) (x : Nat) : Nat :=
  if (R.getD x default).pickup_time ≠ -1 then 1 else 0

/-- The boarded ids of all elevators, in elevator order. -/
def allPassengers (E : List (Elevator Nat)) : List String :=
  E.flatMap (fun e => e.passengers)

/-- A boarded id names a request that has been picked up and not yet dropped
off. -/
def OnBoard (R : List CallRequest) (p : String) : Prop :=
  ∃ rid, rid < R.length ∧ (R.getD rid default).id = p ∧
    (R.getD rid default).pickup_time ≠ -1 ∧
    (R.getD rid default).dropoff_time = -1

/-- Timestamp ordering facts for every request at clock `T`: calls are not
in the future, a set pickup time lies between the call and the clock, and a
set dropoff time follows a set pickup time. -/
def StoreInv (T : Int) (R : List CallRequest) : Prop :=
  ∀ x, x < R.length →
    (R.getD x default).time ≤ T ∧
    ((R.getD x default).pickup_time ≠ -1 →
      (R.getD x default).time ≤ (R.getD x default).pickup_time ∧
      (R.getD x default).pickup_time ≤ T) ∧
    ((R.getD x default).dropoff_time ≠ -1 →
      (R.getD x default).pickup_time ≠ -1 ∧
      (R.getD x default).pickup_time ≤ (R.getD x default).dropoff_time)

theorem StoreInv.mono {T T' : Int} {R : List CallRequest}
    (h : StoreInv T R) (hT : T ≤ T') : StoreInv T' R := by
  intro x hx
  obtain ⟨h1, h2, h3⟩ := h x hx
  exact ⟨by omega, fun hp => ⟨(h2 hp).1, by have := (h2 hp).2; omega⟩, h3⟩

theorem StoreInv.append (T : Int) (R : List CallRequest)
    (h : StoreInv T R) (req : CallRequest) (ht : req.time ≤ T)
    (hp : req.pickup_time = -1) (hd : req.dropoff_time = -1) :
    StoreInv T (R ++ [req]) := by
  intro x hx
  rw [List.length_append, List.length_singleton] at hx
  by_cases hlt : x < R.length
  · rw [getD_append_left R [req] default x hlt]
    exact h x hlt
  · have hx' : x = R.length := by omega
    subst hx'
    rw [getD_append_len R req default]
    exact ⟨ht, fun hc => absurd hp hc, fun hc => absurd hd hc⟩

theorem modifyIdx_floors (f : ElevatorStop Nat → ElevatorStop Nat)
    (hf : ∀ b, (f b).floor = b.floor) :
    ∀ (P : List (ElevatorStop Nat)) (i : Nat),
    floorsOf (modifyIdx f i P) = floorsOf P := by
  intro P
  induction P with
  | nil => intro i; cases i <;> rfl
  | cons x xs ih =>
    intro i
    cases i with
    | zero =>
      show (f x).floor :: floorsOf xs = x.floor :: floorsOf xs
      rw [hf x]
    | succ k =>
      show x.floor :: floorsOf (modifyIdx f k xs) = x.floor :: floorsOf xs
      rw [ih k]

theorem modifyIdx_countS_eq (sel : ElevatorStop Nat → List Nat) (x : Nat)
    (f : ElevatorStop Nat → ElevatorStop Nat)
    (hf : ∀ b, x ∈ sel (f b) ↔ x ∈ sel b) :
    ∀ (P : List (ElevatorStop Nat)) (i : Nat),
    countS sel x (modifyIdx f i P) = countS sel x P := by
  intro P
  induction P with
  | nil => intro i; cases i <;> rfl
  | cons s xs ih =>
    intro i
    cases i with
    | zero =>
      show countS sel x (f s :: xs) = countS sel x (s :: xs)
      rw [countS_cons, countS_cons]
      by_cases h : x ∈ sel s
      · rw [if_pos ((hf s).mpr h), if_pos h]
      · rw [if_neg (fun hc => h ((hf s).mp hc)), if_neg h]
    | succ k =>
      show countS sel x (s :: modifyIdx f k xs) = countS sel x (s :: xs)
      rw [countS_cons, countS_cons, ih k]

theorem modifyIdx_countS_le (sel : ElevatorStop Nat → List Nat) (x : Nat)
    (f : ElevatorStop Nat → ElevatorStop Nat) :
    ∀ (P : List (ElevatorStop Nat)) (i : Nat),
    countS sel x (modifyIdx f i P) ≤ countS sel x P + 1 := by
  intro P
  induction P with
  | nil => intro i; cases i <;> simp [modifyIdx, countS]
  | cons s xs ih =>
    intro i
    cases i with
    | zero =>
      show countS sel x (f s :: xs) ≤ countS sel x (s :: xs) + 1
      rw [countS_cons, countS_cons]
      by_cases h1 : x ∈ sel (f s) <;> by_cases h2 : x ∈ sel s <;>
        simp [h1, h2] <;> omega
    | succ k =>
      show countS sel x (s :: modifyIdx f k xs) ≤
        countS sel x (s :: xs) + 1
      rw [countS_cons, countS_cons]
      have := ih k
      omega

theorem NoAdjDup_of_floors (P Q : List (ElevatorStop α))
    (h : floorsOf P = floorsOf Q) (hQ : NoAdjDup Q) : NoAdjDup P := by
  have h1 : List.Chain' (fun a b : Int => a ≠ b) (floorsOf P) := by
    rw [h]
    exact List.chain'_map_of_chain'
      (fun s : ElevatorStop α => s.floor) (fun a b hab => hab) hQ
  have h2 := (List.chain'_map (fun s : ElevatorStop α => s.floor)).mp h1
  exact h2.imp (fun _ _ hab => hab)

theorem DFormP_of_floors (cur : Int) (P Q : List (ElevatorStop α))
    (h : floorsOf P = floorsOf Q) (hQ : DFormP cur Q) : DFormP cur P := by
  obtain ⟨f, t, hfl, hft, hcur⟩ := hQ
  exact ⟨f, t, by rw [h, hfl], hft, hcur⟩

theorem mem_modifyIdx (f : β → β) :
    ∀ (l : List β) (i : Nat) (a : β), a ∈ modifyIdx f i l →
    a ∈ l ∨ ∃ b ∈ l, a = f b := by
  intro l
  induction l with
  | nil => intro i a ha; cases i <;> simp [modifyIdx] at ha
  | cons x xs ih =>
    intro i a ha
    cases i with
    | zero =>
      rcases List.mem_cons.mp ha with h | h
      · exact Or.inr ⟨x, List.mem_cons_self x xs, h⟩
      · exact Or.inl (List.mem_cons_of_mem x h)
    | succ k =>
      rcases List.mem_cons.mp ha with h | h
      · exact Or.inl (h ▸ List.mem_cons_self x xs)
      · rcases ih k a h with h' | ⟨b, hb, hab⟩
        · exact Or.inl (List.mem_cons_of_mem x h')
        · exact Or.inr ⟨b, List.mem_cons_of_mem x hb, hab⟩

theorem put_request_ok_facts (sf tf : Int) (rid n : Nat) (hn : n ≤ rid)
    (P P' : List (ElevatorStop Nat))
    (hput : put_request_id_in_elevator_plan sf tf rid P = (P', none))
    (htk : PlanTok n P) (hsnP : StopNodup P) :
    floorsOf P' = floorsOf P ∧
    (∀ x, x ≠ rid → countS pickOf x P' = countS pickOf x P) ∧
    (∀ x, x ≠ rid → countS dropOf x P' = countS dropOf x P) ∧
    countS pickOf rid P' ≤ countS pickOf rid P + 1 ∧
    countS dropOf rid P' ≤ countS dropOf rid P + 1 ∧
    PlanTok (rid + 1) P' ∧ StopNodup P' := by
  simp only [put_request_id_in_elevator_plan] at hput
  split at hput
  · exact absurd (congrArg Prod.snd hput) (by simp)
  · rename_i ti hti
    split at hput
    · exact absurd (congrArg Prod.snd hput) (by simp)
    · rename_i h0
      have hd1 : floorsOf (modifyIdx (fun s =>
          { s with dropoff_requests := s.dropoff_requests ++ [rid] })
          ti P) = floorsOf P :=
        modifyIdx_floors (fun s =>
          { s with dropoff_requests := s.dropoff_requests ++ [rid] })
          (fun b => rfl) P ti
      have hd2 : ∀ x, countS pickOf x (modifyIdx (fun s =>
          { s with dropoff_requests := s.dropoff_requests ++ [rid] })
          ti P) = countS pickOf x P :=
        fun x => modifyIdx_countS_eq pickOf x (fun s =>
          { s with dropoff_requests := s.dropoff_requests ++ [rid] })
          (fun b => Iff.rfl) P ti
      have hd3 : ∀ x, x ≠ rid → countS dropOf x (modifyIdx (fun s =>
          { s with dropoff_requests := s.dropoff_requests ++ [rid] })
          ti P) = countS dropOf x P := by
        intro x hx
        refine modifyIdx_countS_eq dropOf x _ (fun b => ?_) P ti
        show x ∈ b.dropoff_requests ++ [rid] ↔ x ∈ b.dropoff_requests
        rw [List.mem_append, List.mem_singleton]
        exact ⟨fun h => h.resolve_right hx, Or.inl⟩
      have hd4 : countS dropOf rid (modifyIdx (fun s =>
          { s with dropoff_requests := s.dropoff_requests ++ [rid] })
          ti P) ≤ countS dropOf rid P + 1 :=
        modifyIdx_countS_le dropOf rid _ P ti
      have hd5 : ∀ st ∈ (modifyIdx (fun s =>
          { s with dropoff_requests := s.dropoff_requests ++ [rid] })
          ti P),
          (∀ y ∈ st.pickup_requests, y < n) ∧
          (∀ y ∈ st.dropoff_requests, y < rid + 1) ∧
          st.pickup_requests.Nodup ∧ st.dropoff_requests.Nodup := by
        intro st hst
        rcases mem_modifyIdx _ P ti st hst with h | ⟨b, hb, hab⟩
        · exact ⟨(htk st h).1, fun y hy => by
            have := (htk st h).2 y hy; omega,
            (hsnP st h).1, (hsnP st h).2⟩
        · subst hab
          refine ⟨(htk b hb).1, ?_, (hsnP b hb).1, ?_⟩
          · intro y hy
            rcases List.mem_append.mp hy with h' | h'
            · have := (htk b hb).2 y h'; omega
            · rw [List.mem_singleton] at h'; omega
          · exact nodup_append_singleton rid (hsnP b hb).2
              (fun hc => by have := (htk b hb).2 rid hc; omega)
      split at hput
      · rename_i si hsi
        rw [Prod.mk.injEq] at hput
        rw [← hput.1]
        have hp1 : floorsOf (modifyIdx (fun s =>
            { s with pickup_requests := s.pickup_requests ++ [rid] })
            si (modifyIdx (fun s =>
            { s with dropoff_requests := s.dropoff_requests ++ [rid] })
            ti P)) = floorsOf P := by
          rw [modifyIdx_floors (fun s =>
            { s with pickup_requests := s.pickup_requests ++ [rid] })
            (fun b => rfl), hd1]
        refine ⟨hp1, fun x hx => ?_, fun x hx => ?_, ?_, ?_, ?_, ?_⟩
        · rw [modifyIdx_countS_eq pickOf x _ (fun b => ?_), hd2 x]
          show x ∈ b.pickup_requests ++ [rid] ↔ x ∈ b.pickup_requests
          rw [List.mem_append, List.mem_singleton]
          exact ⟨fun h => h.resolve_right hx, Or.inl⟩
        · rw [modifyIdx_countS_eq dropOf x (fun s =>
            { s with pickup_requests := s.pickup_requests ++ [rid] })
            (fun b => Iff.rfl), hd3 x hx]
        · calc countS pickOf rid (modifyIdx _ si _) ≤
              countS pickOf rid (modifyIdx (fun s =>
                { s with dropoff_requests :=
                  s.dropoff_requests ++ [rid] }) ti P) + 1 :=
              modifyIdx_countS_le pickOf rid _ _ si
            _ = countS pickOf rid P + 1 := by rw [hd2 rid]
        · rw [modifyIdx_countS_eq dropOf rid (fun s =>
            { s with pickup_requests := s.pickup_requests ++ [rid] })
            (fun b => Iff.rfl)]
          exact hd4
        · intro st hst
          rcases mem_modifyIdx _ _ si st hst with h | ⟨b, hb, hab⟩
          · obtain ⟨q1, q2, _, _⟩ := hd5 st h
            exact ⟨fun y hy => by have := q1 y hy; omega, q2⟩
          · subst hab
            obtain ⟨q1, q2, _, _⟩ := hd5 b hb
            refine ⟨?_, q2⟩
            intro y hy
            rcases List.mem_append.mp hy with h' | h'
            · have := q1 y h'; omega
            · rw [List.mem_singleton] at h'; omega
        · intro st hst
          rcases mem_modifyIdx _ _ si st hst with h | ⟨b, hb, hab⟩
          · obtain ⟨_, _, q3, q4⟩ := hd5 st h
            exact ⟨q3, q4⟩
          · subst hab
            obtain ⟨q1, _, q3, q4⟩ := hd5 b hb
            refine ⟨?_, q4⟩
            exact nodup_append_singleton rid q3
              (fun hc => by have := q1 rid hc; omega)
      · rw [Prod.mk.injEq] at hput
        rw [← hput.1]
        refine ⟨hd1, fun x _ => hd2 x, hd3, by rw [hd2 rid]; omega, hd4,
          ?_, ?_⟩
        · intro st hst
          obtain ⟨q1, q2, _, _⟩ := hd5 st hst
          exact ⟨fun y hy => by have := q1 y hy; omega, q2⟩
        · intro st hst
          obtain ⟨_, _, q3, q4⟩ := hd5 st hst
          exact ⟨q3, q4⟩

theorem buildAll_ok_facts (sf tf : Int) :
    ∀ (E : List (Elevator Nat))
      (pairs : List (Int × List (ElevatorStop Nat))),
    buildAll sf tf E = .ok pairs →
    pairs.length = E.length ∧
    ∀ j, j < E.length →
      build_updated_elevator_plan_for_request_in_elevator
        (E.getD j default) sf tf = .ok ((pairs.getD j (0, [])).2) := by
  intro E
  induction E with
  | nil =>
    intro pairs h
    have h' : (Except.ok [] : Except String
        (List (Int × List (ElevatorStop Nat)))) = .ok pairs := h
    rw [Except.ok.injEq] at h'
    exact ⟨congrArg List.length h'.symm, fun j hj => absurd hj (by simp)⟩
  | cons e rest ih =>
    intro pairs h
    simp only [buildAll] at h
    cases hb : build_updated_elevator_plan_for_request_in_elevator e sf tf
        with
    | error err =>
      rw [hb] at h
      simp only [bind, Except.bind] at h
      exact Except.noConfusion h
    | ok plan =>
      rw [hb] at h
      simp only [bind, Except.bind] at h
      cases ht : get_total_time_for_request e.current_floor plan sf tf with
      | error err =>
        rw [ht] at h
        simp only [bind, Except.bind] at h
        exact Except.noConfusion h
      | ok t =>
        rw [ht] at h
        simp only [bind, Except.bind] at h
        cases hr : buildAll sf tf rest with
        | error err =>
          rw [hr] at h
          simp only [bind, Except.bind] at h
          exact Except.noConfusion h
        | ok restPairs =>
          rw [hr] at h
          simp only [bind, Except.bind, pure, Except.pure,
            Except.ok.injEq] at h
          obtain ⟨hlen, hall⟩ := ih restPairs hr
          refine ⟨by rw [← h]; simp [hlen], fun j hj => ?_⟩
          cases j with
          | zero =>
            rw [← h]
            exact hb
          | succ k =>
            rw [← h]
            rw [List.getD_cons_succ, List.getD_cons_succ]
            exact hall k (by simpa using hj)

theorem getD_map_snd (pairs : List (Int × List (ElevatorStop Nat))) :
    ∀ i, i < pairs.length →
    (pairs.map (fun p => p.2)).getD i [] = (pairs.getD i (0, [])).2 := by
  induction pairs with
  | nil => intro i h; simp at h
  | cons p rest ih =>
    intro i h
    cases i with
    | zero => rfl
    | succ k => exact ih k (by simpa using h)

theorem get_elevator_ok_facts
    (E : List (Elevator Nat)) (sf tf : Int) (hstf : sf ≠ tf) (rid : Nat)
    (hadj : ∀ e ∈ E, NoAdjDup e.elevator_plan)
    (hsn : ∀ e ∈ E, StopNodup e.elevator_plan)
    (htokE : ∀ e ∈ E, PlanTok rid e.elevator_plan)
    (i : Nat) (P' : List (ElevatorStop Nat))
    (hok : get_elevator_and_updated_plan_for_request E sf tf rid =
      .ok (i, P')) :
    i < E.length ∧
    (∀ x, x ≠ rid →
      countS pickOf x P' ≤
        countS pickOf x (E.getD i default).elevator_plan) ∧
    (∀ x, x ≠ rid →
      countS dropOf x P' ≤
        countS dropOf x (E.getD i default).elevator_plan) ∧
    countS pickOf rid P' ≤ 1 ∧ countS dropOf rid P' ≤ 1 ∧
    PlanTok (rid + 1) P' ∧ StopNodup P' ∧
    (NoAdjDup P' ∨ DFormP (E.getD i default).current_floor P') := by
  simp only [get_elevator_and_updated_plan_for_request] at hok
  cases hb : buildAll sf tf E with
  | error err =>
    rw [hb] at hok
    simp only [bind, Except.bind] at hok
    exact Except.noConfusion hok
  | ok pairs =>
    rw [hb] at hok
    simp only [bind, Except.bind] at hok
    cases hidx : idxOfMin (pairs.map (fun p => p.1)) with
    | none =>
      rw [hidx] at hok
      exact Except.noConfusion hok
    | some i0 =>
      rw [hidx] at hok
      simp only [] at hok
      rcases hput : put_request_id_in_elevator_plan sf tf rid
        ((pairs.map (fun p => p.2)).getD i0 []) with ⟨P2, opt⟩
      rw [hput] at hok
      cases opt with
      | some msg => exact Except.noConfusion hok
      | none =>
        have hok2 : (Except.ok (i0, P2) : Except String
            (Nat × List (ElevatorStop Nat))) = .ok (i, P') := hok
        rw [Except.ok.injEq, Prod.mk.injEq] at hok2
        obtain ⟨hi0, hP2⟩ := hok2
        rw [hi0] at hidx hput
        rw [hP2] at hput
        obtain ⟨hlen, hall⟩ := buildAll_ok_facts sf tf E pairs hb
        have hi : i < E.length := by
          have h1 := idxOfMin_lt_length _ i hidx
          rw [List.length_map] at h1
          omega
        have hmem : E.getD i default ∈ E := getD_mem E i default hi
        have hbuild : build_updated_elevator_plan_for_request_in_elevator
            (E.getD i default) sf tf =
            .ok ((pairs.map (fun p => p.2)).getD i []) := by
          rw [getD_map_snd pairs i (by omega)]
          exact hall i hi
        obtain ⟨hc1, hsn1, hadj1⟩ := build_updated_facts pickOf
          mergeSel_pickOf (fun f => rfl) (E.getD i default) sf tf hstf
          (hadj _ hmem) (hsn _ hmem) _ hbuild
        obtain ⟨hc2, _, _⟩ := build_updated_facts dropOf
          mergeSel_dropOf (fun f => rfl) (E.getD i default) sf tf hstf
          (hadj _ hmem) (hsn _ hmem) _ hbuild
        have htkc : PlanTok rid ((pairs.map (fun p => p.2)).getD i []) := by
          intro st hst
          constructor
          · intro y hy
            have hpos : 0 < countS pickOf y
                ((pairs.map (fun p => p.2)).getD i []) :=
              (countS_pos_iff pickOf y _).mpr ⟨st, hst, hy⟩
            have := hc1 y
            have hpos2 := (countS_pos_iff pickOf y
              (E.getD i default).elevator_plan).mp (by omega)
            obtain ⟨st', hst', hy'⟩ := hpos2
            exact (htokE _ hmem st' hst').1 y hy'
          · intro y hy
            have hpos : 0 < countS dropOf y
                ((pairs.map (fun p => p.2)).getD i []) :=
              (countS_pos_iff dropOf y _).mpr ⟨st, hst, hy⟩
            have := hc2 y
            have hpos2 := (countS_pos_iff dropOf y
              (E.getD i default).elevator_plan).mp (by omega)
            obtain ⟨st', hst', hy'⟩ := hpos2
            exact (htokE _ hmem st' hst').2 y hy'
        obtain ⟨hfl, hq1, hq2, hq3, hq4, htk', hsn'⟩ :=
          put_request_ok_facts sf tf rid rid (le_refl rid) _ P' hput htkc
            hsn1
        have hcz1 : countS pickOf rid
            ((pairs.map (fun p => p.2)).getD i []) = 0 := by
          by_contra hc
          obtain ⟨st, hst, hy⟩ := (countS_pos_iff pickOf rid
            ((pairs.map (fun p => p.2)).getD i [])).mp (by omega)
          exact absurd ((htkc st hst).1 rid hy) (by omega)
        have hcz2 : countS dropOf rid
            ((pairs.map (fun p => p.2)).getD i []) = 0 := by
          by_contra hc
          obtain ⟨st, hst, hy⟩ := (countS_pos_iff dropOf rid
            ((pairs.map (fun p => p.2)).getD i [])).mp (by omega)
          exact absurd ((htkc st hst).2 rid hy) (by omega)
        refine ⟨hi, fun x hx => ?_, fun x hx => ?_, by omega, by omega,
          htk', hsn', ?_⟩
        · rw [hq1 x hx]
          exact hc1 x
        · rw [hq2 x hx]
          exact hc2 x
        · rcases hadj1 with h | ⟨p0, s1, s2, hsh, hf1, hf2, hcur, _, _⟩
          · exact Or.inl (NoAdjDup_of_floors _ _ hfl h)
          · refine Or.inr (DFormP_of_floors _ _ _ hfl
              ⟨p0.floor, s2.floor, ?_, ?_, hcur⟩)
            · rw [hsh]
              show [p0.floor, s1.floor, s2.floor] = _
              rw [hf1]
            · rw [hf1]
              exact hf2

theorem floors_three (P : List (ElevatorStop α)) (a b c : Int)
    (h : floorsOf P = [a, b, c]) :
    ∃ p0 s1 s2, P = [p0, s1, s2] ∧ p0.floor = a ∧ s1.floor = b ∧
      s2.floor = c := by
  cases P with
  | nil => simp [floorsOf] at h
  | cons x xs =>
    cases xs with
    | nil => simp [floorsOf] at h
    | cons y ys =>
      cases ys with
      | nil => simp [floorsOf] at h
      | cons z zs =>
        cases zs with
        | nil =>
          simp only [floorsOf, List.map_cons, List.map_nil,
            List.cons.injEq, and_true] at h
          exact ⟨x, y, z, rfl, h.1, h.2.1, h.2.2⟩
        | cons w ws => simp [floorsOf] at h

theorem inflection_DForm (f t : Int) (hft : f ≠ t) :
    inflection_go [f, f, t] 3 1 0 = [2] := by
  have hs : Int.sign (t - f) ≠ 0 := fun h => by
    have := Int.sign_eq_zero_iff_zero.mp h
    omega
  show inflection_go [f, f, t] (2 + 1) 1 0 = [2]
  rw [inflection_go]
  rw [if_pos (by simp)]
  show (if Int.sign (t - f) ≠ 0 then
      2 :: inflection_go [f, f, t] 2 2 (Int.sign (t - f))
    else inflection_go [f, f, t] 2 2 0) = [2]
  rw [if_pos hs]
  show 2 :: inflection_go [f, f, t] (1 + 1) 2 (Int.sign (t - f)) = [2]
  rw [inflection_go]
  rw [if_neg (by simp)]

theorem split_DForm (p0 s1 s2 : ElevatorStop α)
    (h01 : p0.floor = s1.floor) (h12 : s1.floor ≠ s2.floor) :
    split_plan_into_ordered_subplans [p0, s1, s2] =
      .ok [[p0, s1], [s1, s2]] := by
  rw [split_plan_into_ordered_subplans]
  rw [if_neg (by simp)]
  show Except.ok (subplans_go [p0, s1, s2]
    (inflection_go (floorsOf [p0, s1, s2]) (floorsOf [p0, s1, s2]).length 1
      (Int.sign ((floorsOf [p0, s1, s2]).getD 1 0 -
        (floorsOf [p0, s1, s2]).getD 0 0)) ++
      [([p0, s1, s2] : List (ElevatorStop α)).length]) 0) = _
  have h1 : (floorsOf [p0, s1, s2]).getD 1 0 -
      (floorsOf [p0, s1, s2]).getD 0 0 = 0 := by
    show s1.floor - p0.floor = 0
    omega
  rw [h1, Int.sign_zero]
  have h2 : (floorsOf ([p0, s1, s2] : List (ElevatorStop α))).length = 3 :=
    rfl
  rw [h2]
  have h3 : floorsOf [p0, s1, s2] =
      [p0.floor, p0.floor, s2.floor] := by
    show [p0.floor, s1.floor, s2.floor] = _
    rw [← h01]
  rw [h3, inflection_DForm p0.floor s2.floor (by rw [h01]; exact h12)]
  rfl

theorem find_DForm [DecidableEq α] (p0 s1 : ElevatorStop α)
    (h01 : p0.floor = s1.floor) (rest : List (List (ElevatorStop α)))
    (rd sf tf : Int) (i : Nat) :
    find_matching_subplan_go rd sf tf (([p0, s1]) :: rest) i =
      .error "range() arg 3 must not be zero" := by
  rw [find_matching_subplan_go]
  have hdir : Int.sign
      ((floorsOf ([p0, s1] : List (ElevatorStop α))).getLastD 0 -
        (floorsOf ([p0, s1] : List (ElevatorStop α))).getD 0 0) = 0 := by
    show Int.sign (s1.floor - p0.floor) = 0
    rw [h01, sub_self, Int.sign_zero]
  rw [hdir]
  have hpr : pyRange
      ((floorsOf ([p0, s1] : List (ElevatorStop α))).getD 0 0)
      ((floorsOf ([p0, s1] : List (ElevatorStop α))).getLastD 0) 0 =
      .error "range() arg 3 must not be zero" := by
    rw [pyRange, if_pos rfl]
  rw [hpr]
  rfl

theorem build_updated_DForm_error [DecidableEq α] (e : Elevator α)
    (hD : DFormP e.current_floor e.elevator_plan) (sf tf : Int) :
    ∀ P, build_updated_elevator_plan_for_request_in_elevator e sf tf ≠
      .ok P := by
  intro P hok
  obtain ⟨f, t, hfl, hft, hcur⟩ := hD
  obtain ⟨p0, s1, s2, hplan, hp0, hs1, hs2⟩ :=
    floors_three e.elevator_plan f f t hfl
  simp only [build_updated_elevator_plan_for_request_in_elevator,
    hplan] at hok
  rw [if_neg (by simp)] at hok
  simp only [if_pos (show e.current_floor = p0.floor by omega),
    List.nil_append] at hok
  rw [split_DForm p0 s1 s2 (by omega) (by omega)] at hok
  simp only [bind, Except.bind] at hok
  rw [find_matching_subplan_for_request,
    find_DForm p0 s1 (by omega) _ _ sf tf 0] at hok
  exact Except.noConfusion hok

theorem buildAll_DForm_error (sf tf : Int) :
    ∀ (E : List (Elevator Nat)),
    (∃ e ∈ E, DFormP e.current_floor e.elevator_plan) →
    ∀ pairs, buildAll sf tf E ≠ .ok pairs := by
  intro E
  induction E with
  | nil =>
    rintro ⟨e, he, _⟩ pairs h
    exact absurd he (List.not_mem_nil e)
  | cons e0 rest ih =>
    rintro ⟨e, he, hD⟩ pairs h
    simp only [buildAll] at h
    cases hb : build_updated_elevator_plan_for_request_in_elevator e0 sf tf
        with
    | error err =>
      rw [hb] at h
      simp only [bind, Except.bind] at h
      exact Except.noConfusion h
    | ok plan =>
      rcases List.mem_cons.mp he with he0 | herest
      · exact build_updated_DForm_error e0 (he0 ▸ hD) sf tf plan hb
      · rw [hb] at h
        simp only [bind, Except.bind] at h
        cases ht : get_total_time_for_request e0.current_floor plan sf tf
            with
        | error err =>
          rw [ht] at h
          simp only [bind, Except.bind] at h
          exact Except.noConfusion h
        | ok tt =>
          rw [ht] at h
          simp only [bind, Except.bind] at h
          cases hr : buildAll sf tf rest with
          | error err =>
            rw [hr] at h
            simp only [bind, Except.bind] at h
            exact Except.noConfusion h
          | ok restPairs =>
            exact ih ⟨e, herest, hD⟩ restPairs hr

theorem get_elevator_DForm_error (E : List (Elevator Nat)) (sf tf : Int)
    (rid : Nat)
    (hD : ∃ e ∈ E, DFormP e.current_floor e.elevator_plan) :
    ∀ z, get_elevator_and_updated_plan_for_request E sf tf rid ≠
      .ok z := by
  intro z hok
  simp only [get_elevator_and_updated_plan_for_request] at hok
  cases hb : buildAll sf tf E with
  | error err =>
    rw [hb] at hok
    simp only [bind, Except.bind] at hok
    exact Except.noConfusion hok
  | ok pairs => exact buildAll_DForm_error sf tf E hD pairs hb

theorem servicePickups_entry_rest (t : Int) :
    ∀ (l : List Nat) (store : List CallRequest) (ps : List String) (x : Nat),
    ((servicePickups t l store ps).1.getD x default).dropoff_time =
      (store.getD x default).dropoff_time ∧
    ((servicePickups t l store ps).1.getD x default).time =
      (store.getD x default).time ∧
    ((servicePickups t l store ps).1.getD x default).source_floor =
      (store.getD x default).source_floor ∧
    ((servicePickups t l store ps).1.getD x default).target_floor =
      (store.getD x default).target_floor := by
  intro l
  induction l with
  | nil => intro store ps x; exact ⟨rfl, rfl, rfl, rfl⟩
  | cons rid rest ih =>
    intro store ps x
    simp only [servicePickups]
    obtain ⟨h1, h2, h3, h4⟩ := ih (store.set rid
      { store.getD rid default with pickup_time := t }) (ps ++
      [(store.getD rid default).id]) x
    rw [h1, h2, h3, h4]
    by_cases hx : rid = x
    · subst hx
      by_cases hr : rid < store.length
      · rw [getD_set_self store rid _ hr]
        exact ⟨rfl, rfl, rfl, rfl⟩
      · rw [List.set_eq_of_length_le (by omega)]
        exact ⟨rfl, rfl, rfl, rfl⟩
    · rw [getD_set_ne store rid x _ hx]
      exact ⟨rfl, rfl, rfl, rfl⟩

theorem serviceDropoffs_time_stable (t : Int) :
    ∀ (l : List Nat) (store store' : List CallRequest)
      (ps ps' : List String),
    serviceDropoffs t l store ps = .ok (store', ps') →
    ∀ x, (store'.getD x default).time = (store.getD x default).time := by
  intro l
  induction l with
  | nil =>
    intro store store' ps ps' h x
    simp only [serviceDropoffs] at h
    cases h
    rfl
  | cons rid rest ih =>
    intro store store' ps ps' h x
    simp only [serviceDropoffs] at h
    cases hr : remove_first (store.getD rid default).id ps with
    | error e => rw [hr] at h; simp [Except.bind, bind] at h
    | ok ps1 =>
      rw [hr] at h
      simp only [Except.bind, bind] at h
      rw [ih _ _ _ _ h x]
      by_cases hx : rid = x
      · subst hx
        by_cases hl : rid < store.length
        · rw [getD_set_self store rid _ hl]
        · rw [List.set_eq_of_length_le (by omega)]
      · rw [getD_set_ne store rid x _ hx]

theorem remove_first_mem (x : String) :
    ∀ (l l' : List String), remove_first x l = .ok l' → x ∈ l := by
  intro l
  induction l with
  | nil => intro l' h; simp [remove_first] at h
  | cons z zs ih =>
    intro l' h
    simp only [remove_first] at h
    by_cases hz : z = x
    · exact hz ▸ List.mem_cons_self z zs
    · rw [if_neg hz] at h
      cases hr : remove_first x zs with
      | error e => rw [hr] at h; simp [Except.bind, bind] at h
      | ok zs' => exact List.mem_cons_of_mem _ (ih zs' hr)

theorem serviceDropoffs_mem (t : Int) :
    ∀ (l : List Nat) (store store' : List CallRequest)
      (ps ps' : List String),
    serviceDropoffs t l store ps = .ok (store', ps') →
    ∀ rid ∈ l, (store.getD rid default).id ∈ ps := by
  intro l
  induction l with
  | nil => intro _ _ _ _ _ rid h; simp at h
  | cons r0 rest ih =>
    intro store store' ps ps' h rid hmem
    simp only [serviceDropoffs] at h
    cases hr : remove_first (store.getD r0 default).id ps with
    | error e => rw [hr] at h; simp [Except.bind, bind] at h
    | ok ps1 =>
      rw [hr] at h
      simp only [Except.bind, bind] at h
      rcases List.mem_cons.mp hmem with h0 | h0
      · exact h0 ▸ remove_first_mem _ ps ps1 hr
      · have := ih _ _ _ _ h rid h0
        rw [getD_id_set store r0
          { store.getD r0 default with dropoff_time := t } rfl rid] at this
        exact (remove_first_ok _ ps ps1 hr).1 _ this

theorem serviceDropoffs_nodup (t : Int) :
    ∀ (l : List Nat) (store store' : List CallRequest)
      (ps ps' : List String),
    serviceDropoffs t l store ps = .ok (store', ps') → ps.Nodup →
    ps'.Nodup := by
  intro l
  induction l with
  | nil =>
    intro store store' ps ps' h hnd
    simp only [serviceDropoffs] at h
    cases h
    exact hnd
  | cons rid rest ih =>
    intro store store' ps ps' h hnd
    simp only [serviceDropoffs] at h
    cases hr : remove_first (store.getD rid default).id ps with
    | error e => rw [hr] at h; simp [Except.bind, bind] at h
    | ok ps1 =>
      rw [hr] at h
      simp only [Except.bind, bind] at h
      exact ih _ _ _ _ h ((remove_first_ok _ ps ps1 hr).2.1 hnd).2

theorem next_inv (T : Int) (hT : 0 ≤ T) (e : Elevator Nat)
    (store : List CallRequest) (e' : Elevator Nat)
    (store' : List CallRequest)
    (hok : Elevator.next e T store = .ok (e', store'))
    (hids : (store.map (fun r => r.id)).Nodup)
    (hS : StoreInv T store)
    (htk : PlanTok store.length e.elevator_plan)
    (hsn : StopNodup e.elevator_plan)
    (hadj : NoAdjDup e.elevator_plan ∨
      DFormP e.current_floor e.elevator_plan)
    (restP : List String) (restC : Nat → Nat)
    (hpnd : (e.passengers ++ restP).Nodup)
    (hpss : ∀ p ∈ e.passengers ++ restP, OnBoard store p)
    (hcp : ∀ x, countS pickOf x e.elevator_plan + restC x +
      pickedFlag store x ≤ 1) :
    store'.length = store.length ∧
    (∀ x, (store'.getD x default).id = (store.getD x default).id) ∧
    (∀ x, (store'.getD x default).time = (store.getD x default).time) ∧
    StoreInv T store' ∧
    NoAdjDup e'.elevator_plan ∧
    PlanTok store.length e'.elevator_plan ∧
    StopNodup e'.elevator_plan ∧
    (e'.passengers ++ restP).Nodup ∧
    (∀ p ∈ e'.passengers ++ restP, OnBoard store' p) ∧
    (∀ x, countS pickOf x e'.elevator_plan + restC x +
      pickedFlag store' x ≤ 1) := by
  simp only [Elevator.next] at hok
  split at hok
  · rename_i hplan
    rw [Except.ok.injEq, Prod.mk.injEq] at hok
    obtain ⟨he', hst'⟩ := hok
    rw [← he', ← hst']
    refine ⟨rfl, fun x => rfl, fun x => rfl, hS, ?_, ?_, ?_, hpnd, hpss,
      ?_⟩
    · show NoAdjDup e.elevator_plan
      rw [hplan]
      exact List.chain'_nil
    · show PlanTok store.length e.elevator_plan
      exact htk
    · exact hsn
    · exact hcp
  · rename_i s0 rest hplan
    have hDne : ∀ hD : DFormP e.current_floor e.elevator_plan,
        e.current_floor = s0.floor := by
      intro hD
      obtain ⟨f, t, hfl, hft, hcur⟩ := hD
      obtain ⟨p0, s1, s2, hsh, hp0, _, _⟩ :=
        floors_three e.elevator_plan f f t hfl
      rw [hplan] at hsh
      rw [List.cons.injEq] at hsh
      rw [hcur, hsh.1, hp0]
    split at hok
    · rename_i hlt
      rw [Except.ok.injEq, Prod.mk.injEq] at hok
      obtain ⟨he', hst'⟩ := hok
      rw [← he', ← hst']
      have hnd : NoAdjDup e.elevator_plan := by
        rcases hadj with h | h
        · exact h
        · have := hDne h
          omega
      exact ⟨rfl, fun x => rfl, fun x => rfl, hS, hnd, htk, hsn, hpnd,
        hpss, hcp⟩
    · split at hok
      · rename_i hgt
        rw [Except.ok.injEq, Prod.mk.injEq] at hok
        obtain ⟨he', hst'⟩ := hok
        rw [← he', ← hst']
        have hnd : NoAdjDup e.elevator_plan := by
          rcases hadj with h | h
          · exact h
          · have := hDne h
            omega
        exact ⟨rfl, fun x => rfl, fun x => rfl, hS, hnd, htk, hsn, hpnd,
          hpss, hcp⟩
      · simp only [bind, Except.bind] at hok
        cases hd : serviceDropoffs T s0.dropoff_requests
            (servicePickups T s0.pickup_requests store e.passengers).1
            (servicePickups T s0.pickup_requests store e.passengers).2
            with
        | error err =>
          rw [hd] at hok
          exact Except.noConfusion hok
        | ok d =>
          rw [hd] at hok
          have hok2 : (Except.ok ({ e with state := .at_stop, passengers := d.2, elevator_plan := rest }, d.1) : Except String (Elevator Nat × List CallRequest)) = .ok (e', store') := hok
          rw [Except.ok.injEq, Prod.mk.injEq] at hok2
          obtain ⟨he', hst'⟩ := hok2
          rw [← he', ← hst']
          set n := store.length with hn
          have hs0mem : s0 ∈ e.elevator_plan := by
            rw [hplan]; exact List.mem_cons_self s0 rest
          have htkL : ∀ y ∈ s0.pickup_requests, y < n := (htk s0 hs0mem).1
          have htkD : ∀ y ∈ s0.dropoff_requests, y < n := (htk s0 hs0mem).2
          have hsnL : s0.pickup_requests.Nodup := (hsn s0 hs0mem).1
          set store1 := (servicePickups T s0.pickup_requests store
            e.passengers).1 with hstore1
          set ps1 := (servicePickups T s0.pickup_requests store
            e.passengers).2 with hps1
          have len1 : store1.length = n := servicePickups_length T _ _ _
          have ids1 : ∀ x, (store1.getD x default).id =
              (store.getD x default).id :=
            fun x => servicePickups_id_stable T _ _ _ x
          have rest1 := fun x => servicePickups_entry_rest T
            s0.pickup_requests store e.passengers x
          have unch1 : ∀ x, x ∉ s0.pickup_requests →
              store1.getD x default = store.getD x default :=
            fun x hx => servicePickups_getD_not_mem T _ _ _ x hx
          have pkt1 : ∀ rid ∈ s0.pickup_requests,
              (store1.getD rid default).pickup_time = T :=
            fun rid hr => servicePickups_pickup_time T _ _ _ rid hr
              (htkL rid hr)
          have hps1eq : ps1 = e.passengers ++
              idsOf store s0.pickup_requests :=
            servicePickups_passengers T _ _ _
          -- requests with a pending pickup token here are unpicked
          have hunpicked : ∀ rid ∈ s0.pickup_requests,
              (store.getD rid default).pickup_time = -1 ∧
              (store.getD rid default).dropoff_time = -1 := by
            intro rid hr
            have hc1 : 1 ≤ countS pickOf rid e.elevator_plan := by
              rw [hplan, countS_cons, if_pos (show rid ∈ pickOf s0 from hr)]
              omega
            have := hcp rid
            have hflag : pickedFlag store rid = 0 := by omega
            rw [pickedFlag] at hflag
            have hpk : (store.getD rid default).pickup_time = -1 := by
              by_cases hc : (store.getD rid default).pickup_time = -1
              · exact hc
              · rw [if_pos hc] at hflag; omega
            refine ⟨hpk, ?_⟩
            by_cases hc : (store.getD rid default).dropoff_time = -1
            · exact hc
            · have := ((hS rid (htkL rid hr)).2.2 hc).1
              exact absurd hpk this
          have hS1 : StoreInv T store1 := by
            intro x hx
            rw [len1] at hx
            by_cases hxL : x ∈ s0.pickup_requests
            · obtain ⟨hd1, ht1, _, _⟩ := rest1 x
              rw [hd1, ht1, pkt1 x hxL]
              refine ⟨(hS x hx).1, fun _ => ⟨(hS x hx).1, le_refl T⟩,
                fun hc => ?_⟩
              exact absurd (hunpicked x hxL).2 hc
            · rw [unch1 x hxL]
              exact hS x hx
          have hflag1 : ∀ x, pickedFlag store1 x =
              (if x ∈ s0.pickup_requests then 1 else pickedFlag store x)
              := by
            intro x
            by_cases hxL : x ∈ s0.pickup_requests
            · rw [if_pos hxL, pickedFlag, if_pos]
              rw [pkt1 x hxL]
              omega
            · rw [if_neg hxL, pickedFlag, pickedFlag, unch1 x hxL]
          -- new boarded ids are fresh and duplicate-free
          have hfresh : ∀ q ∈ idsOf store s0.pickup_requests,
              q ∉ e.passengers ++ restP := by
            intro q hq hqmem
            obtain ⟨rid, hrid, hqid⟩ := List.mem_map.mp hq
            obtain ⟨rid', hlt', hid', hpick', _⟩ := hpss q hqmem
            have : rid' = rid :=
              store_id_inj store hids rid' rid hlt' (htkL rid hrid)
                (by rw [hid', ← hqid])
            rw [this] at hpick'
            exact hpick' (hunpicked rid hrid).1
          have hnewnd : (idsOf store s0.pickup_requests).Nodup := by
            refine List.Nodup.map_on ?_ hsnL
            intro x hx y hy hxy
            exact store_id_inj store hids x y (htkL x hx) (htkL y hy) hxy
          have hpnd1 : (ps1 ++ restP).Nodup := by
            rw [hps1eq, List.append_assoc]
            rw [List.nodup_append] at hpnd ⊢
            refine ⟨hpnd.1, ?_, ?_⟩
            · rw [List.nodup_append]
              refine ⟨hnewnd, hpnd.2.1, ?_⟩
              intro a ha hb
              exact hfresh a ha (List.mem_append_right _ hb)
            · intro a ha hb
              rcases List.mem_append.mp hb with h | h
              · exact hfresh a h (List.mem_append_left _ ha)
              · exact hpnd.2.2 ha h
          have hpss1 : ∀ p ∈ ps1 ++ restP, OnBoard store1 p := by
            intro p hp
            rw [hps1eq, List.append_assoc] at hp
            rcases List.mem_append.mp hp with hpe | hrest
            · obtain ⟨rid', hlt', hid', hpick', hdrop'⟩ :=
                hpss p (List.mem_append_left _ hpe)
              have hnL : rid' ∉ s0.pickup_requests := by
                intro hc
                exact hpick' (hunpicked rid' hc).1
              refine ⟨rid', by omega, ?_, ?_, ?_⟩ <;>
                rw [unch1 rid' hnL]
              · exact hid'
              · exact hpick'
              · exact hdrop'
            · rcases List.mem_append.mp hrest with hnew | hrp
              · obtain ⟨rid, hrid, hqid⟩ := List.mem_map.mp hnew
                refine ⟨rid, by have := htkL rid hrid; omega, ?_, ?_, ?_⟩
                · rw [ids1 rid]
                  exact hqid
                · rw [pkt1 rid hrid]
                  omega
                · rw [(rest1 rid).1]
                  exact (hunpicked rid hrid).2
              · obtain ⟨rid', hlt', hid', hpick', hdrop'⟩ :=
                  hpss p (List.mem_append_right _ hrp)
                have hnL : rid' ∉ s0.pickup_requests := by
                  intro hc
                  exact hpick' (hunpicked rid' hc).1
                refine ⟨rid', by omega, ?_, ?_, ?_⟩ <;>
                  rw [unch1 rid' hnL]
                · exact hid'
                · exact hpick'
                · exact hdrop'
          have hids1 : (store1.map (fun r => r.id)).Nodup := by
            rw [map_id_ext store1 store (by omega) ids1]
            exact hids
          -- dropoff phase
          obtain ⟨len2, ent2, sub2⟩ :=
            serviceDropoffs_entries T s0.dropoff_requests store1 d.1
              ps1 d.2 hd
          have time2 : ∀ x, ((d.1).getD x default).time =
              (store1.getD x default).time :=
            serviceDropoffs_time_stable T _ _ _ _ _ hd
          have unch2 : ∀ x, x ∉ s0.dropoff_requests →
              (d.1).getD x default = store1.getD x default :=
            fun x hx => serviceDropoffs_getD_not_mem T _ _ _ _ _ x hd hx
          have dent2 : ∀ rid ∈ s0.dropoff_requests,
              (d.1).getD rid default =
                { store1.getD rid default with dropoff_time := T } := by
            intro rid hr
            exact serviceDropoffs_dropoff_entry T _ _ _ _ _ rid hd hr
              (by have := htkD rid hr; omega)
          have hmemD : ∀ rid ∈ s0.dropoff_requests,
              (store1.getD rid default).id ∈ ps1 :=
            fun rid hr => serviceDropoffs_mem T _ _ _ _ _ hd rid hr
          have hps1nd : ps1.Nodup := (List.nodup_append.mp hpnd1).1
          have hnd2 : (d.2).Nodup :=
            serviceDropoffs_nodup T _ _ _ _ _ hd hps1nd
          -- a successfully dropped request was already picked up
          have hdropfact : ∀ rid ∈ s0.dropoff_requests,
              (store1.getD rid default).pickup_time ≠ -1 ∧
              (store1.getD rid default).dropoff_time = -1 := by
            intro rid hr
            have hmem := hmemD rid hr
            obtain ⟨rid', hlt', hid', hpick', hdrop'⟩ :=
              hpss1 _ (List.mem_append_left _ hmem)
            have heq : rid' = rid := by
              refine store_id_inj store1 hids1 rid' rid (by omega)
                (by have := htkD rid hr; omega) ?_
              rw [hid']
            rw [heq] at hpick' hdrop'
            exact ⟨hpick', hdrop'⟩
          have hS2 : StoreInv T d.1 := by
            intro x hx
            rw [len2, len1] at hx
            by_cases hxD : x ∈ s0.dropoff_requests
            · rw [dent2 x hxD]
              obtain ⟨h1, h2, _⟩ := hS1 x (by omega)
              refine ⟨h1, h2, fun _ => ?_⟩
              refine ⟨(hdropfact x hxD).1, ?_⟩
              exact (h2 (hdropfact x hxD).1).2
            · rw [unch2 x hxD]
              exact hS1 x (by omega)
          have hpnd2 : (d.2 ++ restP).Nodup := by
            rw [List.nodup_append] at hpnd1 ⊢
            refine ⟨hnd2, hpnd1.2.1, ?_⟩
            intro a ha hb
            exact hpnd1.2.2 (sub2 a ha) hb
          have hpss2 : ∀ p ∈ d.2 ++ restP, OnBoard (d.1) p := by
            intro p hp
            rcases List.mem_append.mp hp with hp2 | hrp
            · obtain ⟨rid', hlt', hid', hpick', hdrop'⟩ :=
                hpss1 p (List.mem_append_left _ (sub2 p hp2))
              have hnD : rid' ∉ s0.dropoff_requests := by
                intro hc
                have := serviceDropoffs_removes T _ _ _ _ _ hd hps1nd
                  rid' hc
                rw [hid'] at this
                exact this hp2
              refine ⟨rid', by omega, ?_, ?_, ?_⟩ <;> rw [unch2 rid' hnD]
              · exact hid'
              · exact hpick'
              · exact hdrop'
            · obtain ⟨rid', hlt', hid', hpick', hdrop'⟩ :=
                hpss1 p (List.mem_append_right _ hrp)
              have hnD : rid' ∉ s0.dropoff_requests := by
                intro hc
                have hmem := hmemD rid' hc
                rw [hid'] at hmem
                exact (List.nodup_append.mp hpnd1).2.2 hmem hrp
              refine ⟨rid', by omega, ?_, ?_, ?_⟩ <;> rw [unch2 rid' hnD]
              · exact hid'
              · exact hpick'
              · exact hdrop'
          have hcp2 : ∀ x, countS pickOf x rest + restC x +
              pickedFlag (d.1) x ≤ 1 := by
            intro x
            have hflag2 : pickedFlag (d.1) x = pickedFlag store1 x := by
              rw [pickedFlag, pickedFlag, (ent2 x).1]
            rw [hflag2, hflag1 x]
            have := hcp x
            rw [hplan, countS_cons] at this
            by_cases hxL : x ∈ s0.pickup_requests
            · rw [if_pos hxL]
              rw [if_pos (show x ∈ pickOf s0 from hxL)] at this
              omega
            · rw [if_neg hxL]
              rw [if_neg (show x ∉ pickOf s0 from hxL)] at this
              omega
          -- plan facts
          have hndrest : NoAdjDup rest := by
            rcases hadj with h | h
            · rw [hplan] at h
              exact (List.chain'_cons'.mp h).2
            · obtain ⟨f, t, hfl, hft, hcur⟩ := h
              obtain ⟨p0, s1, s2, hsh, _, hf1, hf2⟩ :=
                floors_three e.elevator_plan f f t hfl
              rw [hplan, List.cons.injEq] at hsh
              rw [hsh.2]
              refine List.chain'_cons.mpr ⟨?_, List.chain'_singleton _⟩
              rw [hf1, hf2]
              exact hft
          refine ⟨by omega, ?_, ?_, hS2, hndrest, ?_, ?_, hpnd2, hpss2,
            hcp2⟩
          · intro x
            rw [(ent2 x).2, ids1 x]
          · intro x
            rw [time2 x, (rest1 x).2.1]
          · intro st hst
            exact htk st (by rw [hplan]; exact List.mem_cons_of_mem _ hst)
          · intro st hst
            exact hsn st (by rw [hplan]; exact List.mem_cons_of_mem _ hst)

theorem nodup_rotate (A B C : List β) (h : (A ++ (B ++ C)).Nodup) :
    (B ++ (A ++ C)).Nodup := by
  have hp : (A ++ (B ++ C)).Perm (B ++ (A ++ C)) := by
    rw [← List.append_assoc, ← List.append_assoc]
    exact (List.perm_append_comm).append_right C
  exact (List.Perm.nodup_iff hp).mp h

theorem mem_rotate (A B C : List β) (p : β) (h : p ∈ B ++ (A ++ C)) :
    p ∈ A ++ (B ++ C) := by
  rw [List.mem_append, List.mem_append] at h ⊢
  rcases h with h | h | h
  · exact Or.inr (Or.inl h)
  · exact Or.inl h
  · exact Or.inr (Or.inr h)

theorem nextAll_inv (T : Int) (hT : 0 ≤ T) :
    ∀ (todo : List (Elevator Nat)) (store : List CallRequest)
      (E' : List (Elevator Nat)) (store' : List CallRequest),
    nextAll T todo store = .ok (E', store') →
    (store.map (fun r => r.id)).Nodup →
    StoreInv T store →
    (∀ e ∈ todo, PlanTok store.length e.elevator_plan) →
    (∀ e ∈ todo, StopNodup e.elevator_plan) →
    (∀ e ∈ todo, NoAdjDup e.elevator_plan ∨
      DFormP e.current_floor e.elevator_plan) →
    ∀ (restP : List String) (restC : Nat → Nat),
    (allPassengers todo ++ restP).Nodup →
    (∀ p ∈ allPassengers todo ++ restP, OnBoard store p) →
    (∀ x, (todo.map (fun e => countS pickOf x e.elevator_plan)).sum +
      restC x + pickedFlag store x ≤ 1) →
    store'.length = store.length ∧
    (∀ x, (store'.getD x default).id = (store.getD x default).id) ∧
    (∀ x, (store'.getD x default).time = (store.getD x default).time) ∧
    StoreInv T store' ∧
    (∀ e ∈ E', NoAdjDup e.elevator_plan) ∧
    (∀ e ∈ E', PlanTok store.length e.elevator_plan) ∧
    (∀ e ∈ E', StopNodup e.elevator_plan) ∧
    (allPassengers E' ++ restP).Nodup ∧
    (∀ p ∈ allPassengers E' ++ restP, OnBoard store' p) ∧
    (∀ x, (E'.map (fun e => countS pickOf x e.elevator_plan)).sum +
      restC x + pickedFlag store' x ≤ 1) := by
  intro todo
  induction todo with
  | nil =>
    intro store E' store' hok hids hS htk hsn hadj restP restC hpnd hpss
      hcp
    have hok2 : (Except.ok (([] : List (Elevator Nat)), store) :
        Except String (List (Elevator Nat) × List CallRequest)) =
        .ok (E', store') := hok
    rw [Except.ok.injEq, Prod.mk.injEq] at hok2
    obtain ⟨hE, hst⟩ := hok2
    rw [← hE, ← hst]
    exact ⟨rfl, fun x => rfl, fun x => rfl, hS,
      fun e he => absurd he (List.not_mem_nil e),
      fun e he => absurd he (List.not_mem_nil e),
      fun e he => absurd he (List.not_mem_nil e), hpnd, hpss, hcp⟩
  | cons e todo' ih =>
    intro store E' store' hok hids hS htk hsn hadj restP restC hpnd hpss
      hcp
    simp only [nextAll, bind, Except.bind] at hok
    cases hne : Elevator.next e T store with
    | error err =>
      rw [hne] at hok
      exact Except.noConfusion hok
    | ok r =>
      rw [hne] at hok
      simp only [] at hok
      cases hra : nextAll T todo' r.2 with
      | error err =>
        rw [hra] at hok
        exact Except.noConfusion hok
      | ok rr =>
        rw [hra] at hok
        simp only [pure, Except.pure] at hok
        have hok2 : (Except.ok (r.1 :: rr.1, rr.2) : Except String
            (List (Elevator Nat) × List CallRequest)) = .ok (E', store')
            := hok
        rw [Except.ok.injEq, Prod.mk.injEq] at hok2
        obtain ⟨hE, hst⟩ := hok2
        rw [← hE, ← hst]
        have hnr : Elevator.next e T store = .ok (r.1, r.2) := by
          rw [hne]
        have hemem : e ∈ e :: todo' := List.mem_cons_self e todo'
        have hpndA : (e.passengers ++ (allPassengers todo' ++
            restP)).Nodup := by
          rw [← List.append_assoc]
          show ((e.passengers ++ allPassengers todo') ++ restP).Nodup
          exact hpnd
        have hpssA : ∀ p ∈ e.passengers ++ (allPassengers todo' ++ restP),
            OnBoard store p := by
          intro p hp
          refine hpss p ?_
          show p ∈ (e.passengers ++ allPassengers todo') ++ restP
          rw [List.append_assoc]
          exact hp
        have hcpA : ∀ x, countS pickOf x e.elevator_plan +
            ((todo'.map (fun u => countS pickOf x u.elevator_plan)).sum +
              restC x) + pickedFlag store x ≤ 1 := by
          intro x
          have := hcp x
          rw [List.map_cons, List.sum_cons] at this
          omega
        obtain ⟨len1, ids1, time1, hS1, hnd1, htk1, hsn1, hpnd1, hpss1,
            hcp1⟩ :=
          next_inv T hT e store r.1 r.2 hnr hids hS (htk e hemem)
            (hsn e hemem) (hadj e hemem) (allPassengers todo' ++ restP)
            (fun x => (todo'.map
              (fun u => countS pickOf x u.elevator_plan)).sum + restC x)
            hpndA hpssA hcpA
        have hids2 : (r.2.map (fun q => q.id)).Nodup := by
          rw [map_id_ext r.2 store (by omega) ids1]
          exact hids
        have htk2 : ∀ u ∈ todo', PlanTok r.2.length u.elevator_plan := by
          intro u hu
          rw [len1]
          exact htk u (List.mem_cons_of_mem e hu)
        have hpnd2 : (allPassengers todo' ++ (r.1.passengers ++
            restP)).Nodup :=
          nodup_rotate r.1.passengers (allPassengers todo') restP hpnd1
        have hpss2 : ∀ p ∈ allPassengers todo' ++ (r.1.passengers ++
            restP), OnBoard r.2 p := by
          intro p hp
          exact hpss1 p (mem_rotate r.1.passengers (allPassengers todo')
            restP p hp)
        have hcp2 : ∀ x, (todo'.map
            (fun u => countS pickOf x u.elevator_plan)).sum +
            (countS pickOf x r.1.elevator_plan + restC x) +
            pickedFlag r.2 x ≤ 1 := by
          intro x
          have := hcp1 x
          omega
        obtain ⟨len3, ids3, time3, hS3, hnd3, htk3, hsn3, hpnd3, hpss3,
            hcp3⟩ :=
          ih r.2 rr.1 rr.2 hra hids2 hS1 htk2
            (fun u hu => hsn u (List.mem_cons_of_mem e hu))
            (fun u hu => hadj u (List.mem_cons_of_mem e hu))
            (r.1.passengers ++ restP)
            (fun x => countS pickOf x r.1.elevator_plan + restC x)
            hpnd2 hpss2 hcp2
        refine ⟨by omega, ?_, ?_, hS3, ?_, ?_, ?_, ?_, ?_, ?_⟩
        · intro x
          rw [ids3 x, ids1 x]
        · intro x
          rw [time3 x, time1 x]
        · intro u hu
          rcases List.mem_cons.mp hu with h | h
          · exact h ▸ hnd1
          · exact hnd3 u h
        · intro u hu
          rcases List.mem_cons.mp hu with h | h
          · exact h ▸ htk1
          · intro st hst
            have := htk3 u h st hst
            constructor
            · intro y hy
              have := (htk3 u h st hst).1 y hy
              omega
            · intro y hy
              have := (htk3 u h st hst).2 y hy
              omega
        · intro u hu
          rcases List.mem_cons.mp hu with h | h
          · exact h ▸ hsn1
          · exact hsn3 u h
        · show ((r.1.passengers ++ allPassengers rr.1) ++ restP).Nodup
          rw [List.append_assoc]
          exact nodup_rotate (allPassengers rr.1) r.1.passengers restP
            hpnd3
        · intro p hp
          refine hpss3 p ?_
          have hp' : p ∈ (r.1.passengers ++ allPassengers rr.1) ++ restP
              := hp
          rw [List.append_assoc] at hp'
          exact mem_rotate (allPassengers rr.1) r.1.passengers restP p hp'
        · intro x
          have := hcp3 x
          rw [List.map_cons, List.sum_cons]
          omega

theorem allPassengers_modify (f : Elevator Nat → Elevator Nat)
    (hf : ∀ u, (f u).passengers = u.passengers) :
    ∀ (E : List (Elevator Nat)) (i : Nat),
    allPassengers (modifyIdx f i E) = allPassengers E := by
  intro E
  induction E with
  | nil => intro i; cases i <;> rfl
  | cons e es ih =>
    intro i
    cases i with
    | zero =>
      show (f e).passengers ++ allPassengers es =
        e.passengers ++ allPassengers es
      rw [hf e]
    | succ k =>
      show e.passengers ++ allPassengers (modifyIdx f k es) =
        e.passengers ++ allPassengers es
      rw [ih k]

theorem countP_modify (E : List (Elevator Nat)) (i : Nat)
    (hi : i < E.length) (P' : List (ElevatorStop Nat)) (x : Nat) :
    countP (modifyIdx (fun u => { u with elevator_plan := P' }) i E) x +
      countS pickOf x (E.getD i default).elevator_plan =
    countP E x + countS pickOf x P' := by
  have hE : E = E.take i ++ E.getD i default :: E.drop (i + 1) :=
    take_getD_drop E i hi
  rw [modifyIdx_eq _ E i hi]
  conv_rhs => rw [countP, hE]
  rw [countP]
  simp only [List.map_append, List.sum_append, List.map_cons,
    List.sum_cons]
  omega

theorem countP_zero_of_tok (E : List (Elevator Nat)) (m x : Nat)
    (hx : m ≤ x) (htk : ∀ e ∈ E, PlanTok m e.elevator_plan) :
    countP E x = 0 := by
  rw [countP]
  refine List.sum_eq_zero ?_
  intro y hy
  obtain ⟨e, he, hey⟩ := List.mem_map.mp hy
  rw [← hey]
  by_contra hc
  obtain ⟨st, hst, hmem⟩ :=
    (countS_pos_iff pickOf x e.elevator_plan).mp (by omega)
  have := (htk e he st hst).1 x hmem
  omega

theorem pickedFlag_append (R : List CallRequest) (req : CallRequest)
    (hreq : req.pickup_time = -1) (x : Nat) :
    pickedFlag (R ++ [req]) x = pickedFlag R x := by
  rw [pickedFlag, pickedFlag]
  by_cases hx : x < R.length
  · rw [getD_append_left R [req] default x hx]
  · by_cases hx2 : x = R.length
    · subst hx2
      rw [getD_append_len, getD_big R default _ (le_refl _)]
      simp [hreq, default]
    · rw [getD_big _ default x
        (by rw [List.length_append, List.length_singleton]; omega),
        getD_big R default x (by omega)]

theorem processCallsRev_inv (input_rows : List Row) :
    ∀ (rows : List Row) (s s' : EngineState),
    processCallsRev input_rows rows s = .ok s' →
    (∀ row ∈ rows, row.time = s.time ∧ row.source ≠ row.dest) →
    StoreInv s.time s.elevator_requests →
    (∀ e ∈ s.elevators,
      PlanTok s.elevator_requests.length e.elevator_plan) →
    (∀ e ∈ s.elevators, StopNodup e.elevator_plan) →
    (∀ e ∈ s.elevators, NoAdjDup e.elevator_plan ∨
      DFormP e.current_floor e.elevator_plan) →
    (allPassengers s.elevators).Nodup →
    (∀ p ∈ allPassengers s.elevators, OnBoard s.elevator_requests p) →
    (∀ x, countP s.elevators x + pickedFlag s.elevator_requests x ≤ 1) →
    s'.time = s.time ∧
    s'.elevators.length = s.elevators.length ∧
    (∃ newReqs : List CallRequest,
      s'.elevator_requests = s.elevator_requests ++ newReqs ∧
      newReqs.map (fun r => r.id) = rows.map (fun row => row.id)) ∧
    StoreInv s'.time s'.elevator_requests ∧
    (∀ e ∈ s'.elevators,
      PlanTok s'.elevator_requests.length e.elevator_plan) ∧
    (∀ e ∈ s'.elevators, StopNodup e.elevator_plan) ∧
    (∀ e ∈ s'.elevators, NoAdjDup e.elevator_plan ∨
      DFormP e.current_floor e.elevator_plan) ∧
    (allPassengers s'.elevators).Nodup ∧
    (∀ p ∈ allPassengers s'.elevators, OnBoard s'.elevator_requests p) ∧
    (∀ x, countP s'.elevators x + pickedFlag s'.elevator_requests x ≤ 1)
    := by
  intro rows
  induction rows with
  | nil =>
    intro s s' hok hrows hS htk hsn hadj hpnd hpss hcp
    have hok2 : (Except.ok s : Except String EngineState) = .ok s' := hok
    rw [Except.ok.injEq] at hok2
    rw [← hok2]
    exact ⟨rfl, rfl, ⟨[], by rw [List.append_nil], by simp⟩, hS, htk, hsn,
      hadj, hpnd, hpss, hcp⟩
  | cons row rest ih =>
    intro s s' hok hrows hS htk hsn hadj hpnd hpss hcp
    simp only [processCallsRev, bind, Except.bind] at hok
    cases hg : get_elevator_and_updated_plan_for_request s.elevators
        row.source row.dest s.elevator_requests.length with
    | error err =>
      rw [hg] at hok
      exact Except.noConfusion hok
    | ok res =>
      rw [hg] at hok
      simp only [] at hok
      obtain ⟨i, P'⟩ := res
      have hallnd : ∀ e ∈ s.elevators, NoAdjDup e.elevator_plan := by
        intro e he
        rcases hadj e he with h | h
        · exact h
        · exact absurd hg
            (get_elevator_DForm_error s.elevators row.source row.dest
              s.elevator_requests.length ⟨e, he, h⟩ (i, P'))
      obtain ⟨hi, hq1, hq2, hq3, hq4, htk', hsn', hadj'⟩ :=
        get_elevator_ok_facts s.elevators row.source row.dest
          (hrows row (List.mem_cons_self row rest)).2
          s.elevator_requests.length hallnd hsn htk i P' hg
      set n := s.elevator_requests.length with hn
      set req : CallRequest :=
        { time := row.time, id := row.id, source_floor := row.source,
          target_floor := row.dest, pickup_time := -1, dropoff_time := -1,
          elevator_name :=
            (s.elevators.getD i default).name } with hreq
      set E1 := modifyIdx (fun u => { u with elevator_plan := P' }) i
        s.elevators with hE1
      set R1 := s.elevator_requests ++ [req] with hR1
      have hreqtime : req.time ≤ s.time := by
        have h := (hrows row (List.mem_cons_self row rest)).1
        rw [hreq]
        show row.time ≤ s.time
        omega
      have hS1 : StoreInv s.time R1 :=
        StoreInv.append s.time s.elevator_requests hS req hreqtime rfl rfl
      have hlen1 : R1.length = n + 1 := by
        rw [hR1, List.length_append, List.length_singleton]
      have hmemE1 : ∀ u ∈ E1, u ∈ s.elevators ∨
          u = { s.elevators.getD i default with elevator_plan := P' } :=
        fun u hu => mem_modifyIdx_eq _ s.elevators i hi u hu
      have htk1 : ∀ e ∈ E1, PlanTok R1.length e.elevator_plan := by
        intro u hu
        rcases hmemE1 u hu with h | h
        · intro st hst
          refine ⟨fun y hy => ?_, fun y hy => ?_⟩
          · have := (htk u h st hst).1 y hy
            omega
          · have := (htk u h st hst).2 y hy
            omega
        · rw [h]
          intro st hst
          refine ⟨fun y hy => ?_, fun y hy => ?_⟩
          · have := (htk' st hst).1 y hy
            omega
          · have := (htk' st hst).2 y hy
            omega
      have hsn1 : ∀ e ∈ E1, StopNodup e.elevator_plan := by
        intro u hu
        rcases hmemE1 u hu with h | h
        · exact hsn u h
        · rw [h]
          exact hsn'
      have hadj1 : ∀ e ∈ E1, NoAdjDup e.elevator_plan ∨
          DFormP e.current_floor e.elevator_plan := by
        intro u hu
        rcases hmemE1 u hu with h | h
        · exact Or.inl (hallnd u h)
        · rw [h]
          exact hadj'
      have hpass1 : allPassengers E1 = allPassengers s.elevators :=
        allPassengers_modify (fun u => { u with elevator_plan := P' })
          (fun u => rfl) s.elevators i
      have hpss1 : ∀ p ∈ allPassengers E1, OnBoard R1 p := by
        intro p hp
        rw [hpass1] at hp
        obtain ⟨rid', hlt', hid', hpick', hdrop'⟩ := hpss p hp
        refine ⟨rid', by omega, ?_, ?_, ?_⟩ <;>
          rw [hR1, getD_append_left _ _ default rid' hlt']
        · exact hid'
        · exact hpick'
        · exact hdrop'
      have hcp1 : ∀ x, countP E1 x + pickedFlag R1 x ≤ 1 := by
        intro x
        have hledger := countP_modify s.elevators i hi P' x
        rw [← hE1] at hledger
        have hflag : pickedFlag R1 x = pickedFlag s.elevator_requests x :=
          pickedFlag_append s.elevator_requests req rfl x
        rw [hflag]
        by_cases hx : x = n
        · rw [hx] at hledger ⊢
          have hz : countP s.elevators n = 0 :=
            countP_zero_of_tok s.elevators n n (le_refl n) htk
          have hz2 : countS pickOf n
              (s.elevators.getD i default).elevator_plan = 0 := by
            by_contra hc
            obtain ⟨st, hst, hmem⟩ := (countS_pos_iff pickOf n
              ((s.elevators.getD i default).elevator_plan)).mp (by omega)
            have := (htk _ (getD_mem s.elevators i default hi) st hst).1
              n hmem
            omega
          have hfl0 : pickedFlag s.elevator_requests n = 0 := by
            rw [pickedFlag, getD_big _ default n (le_refl _)]
            rfl
          have hq3' := hq3
          rw [hfl0]
          omega
        · by_cases hlt : x < n
          · have hb1 := hq1 x (by omega)
            have hb2 := hcp x
            omega
          · have hz : countP s.elevators x = 0 :=
              countP_zero_of_tok s.elevators n x (by omega) htk
            have hz3 : countS pickOf x P' = 0 := by
              by_contra hc
              obtain ⟨st, hst, hmem⟩ := (countS_pos_iff pickOf x P').mp
                (by omega)
              have := (htk' st hst).1 x hmem
              omega
            have hz2 : countS pickOf x
                (s.elevators.getD i default).elevator_plan = 0 := by
              by_contra hc
              obtain ⟨st, hst, hmem⟩ := (countS_pos_iff pickOf x
                ((s.elevators.getD i default).elevator_plan)).mp
                (by omega)
              have := (htk _ (getD_mem s.elevators i default hi) st hst).1
                x hmem
              omega
            have hfl0 : pickedFlag s.elevator_requests x = 0 := by
              rw [pickedFlag, getD_big _ default x (by omega)]
              rfl
            rw [hfl0]
            omega
      obtain ⟨ht2, hlen2, ⟨newRest, hshape, hids2⟩, hS2, htk2, hsn2,
          hadj2, hpnd2, hpss2, hcp2⟩ :=
        ih { s with elevators := E1, elevator_requests := R1 } s' hok
          (fun row' hr =>
            ⟨(hrows row' (List.mem_cons_of_mem _ hr)).1,
             (hrows row' (List.mem_cons_of_mem _ hr)).2⟩)
          hS1 htk1 hsn1 hadj1
          (by show (allPassengers E1).Nodup; rw [hpass1]; exact hpnd)
          hpss1 hcp1
      refine ⟨ht2, ?_, ⟨req :: newRest, ?_, ?_⟩, hS2, htk2, hsn2, hadj2,
        hpnd2, hpss2, hcp2⟩
      · rw [hlen2]
        show E1.length = s.elevators.length
        rw [hE1]
        exact modifyIdx_length _ i s.elevators
      · rw [hshape]
        show R1 ++ newRest = _
        rw [hR1, List.append_assoc]
        rfl
      · rw [List.map_cons]
        have : s'.elevator_requests =
            R1 ++ newRest := hshape
        rw [hids2]
        rfl

/-- The engine loop invariant at tick boundaries: the clock never precedes
-1; the accepted requests are exactly the input rows whose call time has
been reached (as a multiset of ids); timestamps are ordered; plans hold
in-range tokens, duplicate-free stop lists and no adjacent duplicate
floors; each request has at most one pending pickup token, none once
picked; and the boarded ids name picked, not yet dropped requests. -/
structure EngineInv (input_rows : List Row) (s : EngineState) : Prop where
  htlo : -1 ≤ s.time
  hfetch : (s.elevator_requests.map (fun r => r.id)).Perm
    ((input_rows.filter (fun row => decide (0 ≤ row.time) &&
      decide (row.time ≤ s.time))).map (fun row => row.id))
  hstore : StoreInv s.time s.elevator_requests
  htok : ∀ e ∈ s.elevators,
    PlanTok s.elevator_requests.length e.elevator_plan
  hsn : ∀ e ∈ s.elevators, StopNodup e.elevator_plan
  hadj : ∀ e ∈ s.elevators, NoAdjDup e.elevator_plan
  hcp : ∀ x, countP s.elevators x + pickedFlag s.elevator_requests x ≤ 1
  hpnd : (allPassengers s.elevators).Nodup
  hpss : ∀ p ∈ allPassengers s.elevators, OnBoard s.elevator_requests p

theorem EngineInv.ids_nodup {input_rows : List Row} {s : EngineState}
    (hND : (input_rows.map (fun r => r.id)).Nodup)
    (hinv : EngineInv input_rows s) :
    (s.elevator_requests.map (fun r => r.id)).Nodup := by
  refine (List.Perm.nodup_iff hinv.hfetch).mpr ?_
  refine List.Nodup.sublist ?_ hND
  exact List.Sublist.map _ (List.filter_sublist _)

theorem engineInv_init (input_rows : List Row) (n : Nat) (cap : Int) :
    EngineInv input_rows
      { time := -1, elevator_requests := [],
        elevators := buildingElevators n cap, elevator_log := [] } := by
  have hplans : ∀ e ∈ buildingElevators n cap, e.elevator_plan = [] ∧
      e.passengers = [] := by
    intro e he
    obtain ⟨k, hk, hke⟩ := List.mem_map.mp he
    rw [← hke]
    exact ⟨rfl, rfl⟩
  have hpass : allPassengers (buildingElevators n cap) = [] := by
    rw [List.eq_nil_iff_forall_not_mem]
    intro p hp
    obtain ⟨e, he, hpe⟩ := List.mem_flatMap.mp hp
    rw [(hplans e he).2] at hpe
    exact absurd hpe (List.not_mem_nil p)
  refine ⟨le_refl _, ?_, ?_, ?_, ?_, ?_, ?_, ?_, ?_⟩
  · have hfil : input_rows.filter (fun row => decide (0 ≤ row.time) &&
        decide (row.time ≤ (-1 : Int))) = [] := by
      rw [List.filter_eq_nil]
      intro row _
      simp only [Bool.and_eq_true, decide_eq_true_eq, not_and]
      intro h1 h2
      omega
    rw [hfil]
    exact List.Perm.refl []
  · intro x hx
    exact absurd hx (by simp)
  · intro e he st hst
    rw [(hplans e he).1] at hst
    exact absurd hst (List.not_mem_nil st)
  · intro e he st hst
    rw [(hplans e he).1] at hst
    exact absurd hst (List.not_mem_nil st)
  · intro e he
    rw [(hplans e he).1]
    exact List.chain'_nil
  · intro x
    have hz : countP (buildingElevators n cap) x = 0 := by
      rw [countP]
      refine List.sum_eq_zero ?_
      intro y hy
      obtain ⟨e, he, hey⟩ := List.mem_map.mp hy
      rw [← hey, (hplans e he).1]
      rfl
    have hfl : pickedFlag ([] : List CallRequest) x = 0 := by
      rw [pickedFlag, getD_big _ default x (by simp)]
      rfl
    rw [hz, hfl]
    omega
  · rw [hpass]
    exact List.nodup_nil
  · intro p hp
    rw [hpass] at hp
    exact absurd hp (List.not_mem_nil p)

theorem tick_time_inv (input_rows : List Row)
    (hND : (input_rows.map (fun r => r.id)).Nodup)
    (hSD : ∀ row ∈ input_rows, row.source ≠ row.dest)
    (s s' : EngineState) (hok : tick_time input_rows s = .ok s')
    (hinv : EngineInv input_rows s) : EngineInv input_rows s' := by
  simp only [tick_time, bind, Except.bind] at hok
  cases hp : processCallsRev input_rows
      (fetch_call_requests_at_time_t input_rows (s.time + 1)).reverse
      { s with time := s.time + 1 } with
  | error err =>
    rw [hp] at hok
    exact Except.noConfusion hok
  | ok s1 =>
    rw [hp] at hok
    simp only [] at hok
    cases hn : nextAll s1.time s1.elevators s1.elevator_requests with
    | error err =>
      rw [hn] at hok
      exact Except.noConfusion hok
    | ok r =>
      rw [hn] at hok
      simp only [pure, Except.pure] at hok
      have hok2 : (Except.ok { s1 with elevators := r.1, elevator_requests := r.2 } : Except String EngineState) = .ok s' := hok
      rw [Except.ok.injEq] at hok2
      have hbatch : ∀ row ∈ (fetch_call_requests_at_time_t input_rows
          (s.time + 1)).reverse,
          row.time = s.time + 1 ∧ row.source ≠ row.dest := by
        intro row hrow
        rw [List.mem_reverse] at hrow
        rw [fetch_call_requests_at_time_t] at hrow
        obtain ⟨hmem, hcond⟩ := List.mem_filter.mp hrow
        exact ⟨by simpa using hcond, hSD row hmem⟩
      have htlo := hinv.htlo
      have hsm : StoreInv (s.time + 1) s.elevator_requests :=
        hinv.hstore.mono (by omega)
      obtain ⟨ht2, hlen2, ⟨newReqs, hshape, hids2⟩, hS2, htk2, hsn2,
          hadj2, hpnd2, hpss2, hcp2⟩ :=
        processCallsRev_inv input_rows
          (fetch_call_requests_at_time_t input_rows (s.time + 1)).reverse
          { s with time := s.time + 1 } s1 hp hbatch
          hsm hinv.htok hinv.hsn
          (fun e he => Or.inl (hinv.hadj e he)) hinv.hpnd hinv.hpss
          hinv.hcp
      have ht2' : s1.time = s.time + 1 := ht2
      have hshape' : s1.elevator_requests =
          s.elevator_requests ++ newReqs := hshape
      have hB : (newReqs.map (fun q => q.id)).Perm
          ((input_rows.filter (fun row =>
            decide (row.time = s.time + 1))).map (fun row => row.id)) := by
        rw [hids2, fetch_call_requests_at_time_t, List.map_reverse]
        exact List.reverse_perm _
      have hids1 : (s1.elevator_requests.map (fun q => q.id)).Perm
          ((input_rows.filter (fun row => decide (0 ≤ row.time) &&
            decide (row.time ≤ s.time + 1))).map (fun row => row.id)) := by
        rw [hshape', List.map_append]
        refine (List.Perm.append hinv.hfetch hB).trans ?_
        rw [← List.map_append]
        exact ((filter_le_succ_perm s.time htlo input_rows).map _).symm
      have hids1nd : (s1.elevator_requests.map (fun q => q.id)).Nodup := by
        refine (List.Perm.nodup_iff hids1).mpr ?_
        refine List.Nodup.sublist ?_ hND
        exact List.Sublist.map _ (List.filter_sublist _)
      have hpndA : (allPassengers s1.elevators ++ ([] : List String)).Nodup
          := by
        rw [List.append_nil]
        exact hpnd2
      have hpssA : ∀ p ∈ allPassengers s1.elevators ++ ([] : List String),
          OnBoard s1.elevator_requests p := by
        intro p hp'
        rw [List.append_nil] at hp'
        exact hpss2 p hp'
      have hcpA : ∀ x, (s1.elevators.map
          (fun e => countS pickOf x e.elevator_plan)).sum +
          0 + pickedFlag s1.elevator_requests x ≤ 1 := by
        intro x
        have := hcp2 x
        rw [countP] at this
        omega
      obtain ⟨len3, ids3, time3, hS3, hnd3, htk3, hsn3, hpnd3, hpss3,
          hcp3⟩ :=
        nextAll_inv s1.time (by omega) s1.elevators s1.elevator_requests
          r.1 r.2 (by rw [hn]) hids1nd hS2 htk2 hsn2 hadj2 []
          (fun _ => 0) hpndA hpssA hcpA
      rw [← hok2]
      refine ⟨by show -1 ≤ s1.time; omega, ?_, ?_, ?_, ?_, ?_, ?_, ?_, ?_⟩
      · show (r.2.map (fun q => q.id)).Perm _
        have hmapeq : r.2.map (fun q => q.id) =
            s1.elevator_requests.map (fun q => q.id) :=
          map_id_ext r.2 s1.elevator_requests len3 ids3
        rw [hmapeq]
        show (s1.elevator_requests.map (fun q => q.id)).Perm
          ((input_rows.filter (fun row => decide (0 ≤ row.time) &&
            decide (row.time ≤ s1.time))).map (fun row => row.id))
        rw [ht2']
        exact hids1
      · show StoreInv s1.time r.2
        exact hS3
      · intro e he st hst
        have hlen : r.2.length = s1.elevator_requests.length := len3
        have := htk3 e he st hst
        constructor
        · intro y hy
          have := (htk3 e he st hst).1 y hy
          show y < r.2.length
          omega
        · intro y hy
          have := (htk3 e he st hst).2 y hy
          show y < r.2.length
          omega
      · exact hsn3
      · exact hnd3
      · intro x
        show countP r.1 x + pickedFlag r.2 x ≤ 1
        have := hcp3 x
        rw [countP]
        omega
      · show (allPassengers r.1).Nodup
        have := hpnd3
        rw [List.append_nil] at this
        exact this
      · intro p hp'
        refine hpss3 p ?_
        rw [List.append_nil]
        exact hp'

theorem update_elevator_log_EngineInv (input_rows : List Row)
    (s : EngineState) (hinv : EngineInv input_rows s) :
    EngineInv input_rows (update_elevator_log s) :=
  ⟨hinv.htlo, hinv.hfetch, hinv.hstore, hinv.htok, hinv.hsn, hinv.hadj,
   hinv.hcp, hinv.hpnd, hinv.hpss⟩

theorem run_loop_inv_C6 (input_rows : List Row) (expected : Nat)
    (hND : (input_rows.map (fun r => r.id)).Nodup)
    (hSD : ∀ row ∈ input_rows, row.source ≠ row.dest) :
    ∀ (fuel : Nat) (s s' : EngineState),
    run_loop input_rows expected fuel s = .ok (some s') →
    EngineInv input_rows s →
    EngineInv input_rows s' ∧ loopCond expected s' = false := by
  intro fuel
  induction fuel with
  | zero =>
    intro s s' hok hinv
    simp only [run_loop] at hok
    by_cases hc : loopCond expected s
    · rw [if_pos hc] at hok
      rw [Except.ok.injEq] at hok
      exact Option.noConfusion hok
    · rw [if_neg hc] at hok
      rw [Except.ok.injEq, Option.some.injEq] at hok
      rw [← hok]
      exact ⟨hinv, by
        cases hb : loopCond expected s
        · rfl
        · exact absurd hb hc⟩
  | succ fuel ih =>
    intro s s' hok hinv
    simp only [run_loop] at hok
    by_cases hc : loopCond expected s
    · rw [if_pos hc] at hok
      simp only [bind, Except.bind] at hok
      cases ht : tick_time input_rows (update_elevator_log s) with
      | error err =>
        rw [ht] at hok
        exact Except.noConfusion hok
      | ok s1 =>
        rw [ht] at hok
        exact ih s1 s' hok (tick_time_inv input_rows hND hSD _ s1 ht
          (update_elevator_log_EngineInv input_rows s hinv))
    · rw [if_neg hc] at hok
      rw [Except.ok.injEq, Option.some.injEq] at hok
      rw [← hok]
      exact ⟨hinv, by
        cases hb : loopCond expected s
        · rfl
        · exact absurd hb hc⟩

/-- C6: in every terminating simulation of input rows with pairwise
distinct ids and distinct source and destination floors, every accepted
request ends with both timestamps set (not the -1 sentinel) and
`call_time ≤ pickup_time ≤ dropoff_time`. -/
theorem claim_C6_timestamps (input_rows : List Row)
    (number_of_elevators : Nat) (max_capacity : Int) (fuel : Nat)
    (hND : (input_rows.map (fun r => r.id)).Nodup)
    (hSD : ∀ row ∈ input_rows, row.source ≠ row.dest)
    (s : EngineState)
    (hok : run_simulation input_rows number_of_elevators max_capacity
      fuel = .ok (some s)) :
    ∀ r ∈ s.elevator_requests,
      r.pickup_time ≠ -1 ∧ r.dropoff_time ≠ -1 ∧
      r.time ≤ r.pickup_time ∧ r.pickup_time ≤ r.dropoff_time := by
  simp only [run_simulation, bind, Except.bind] at hok
  cases hr : run_loop input_rows input_rows.length fuel
      { time := -1, elevator_requests := [],
        elevators := buildingElevators number_of_elevators max_capacity,
        elevator_log := [] } with
  | error err =>
    rw [hr] at hok
    exact Except.noConfusion hok
  | ok res =>
    rw [hr] at hok
    simp only [] at hok
    cases res with
    | none =>
      have hok2 : (Except.ok (none : Option EngineState) : Except String
          (Option EngineState)) = .ok (some s) := hok
      rw [Except.ok.injEq] at hok2
      exact Option.noConfusion hok2
    | some s1 =>
      have hok2 : (Except.ok (some (update_elevator_log s1)) :
          Except String (Option EngineState)) = .ok (some s) := hok
      rw [Except.ok.injEq, Option.some.injEq] at hok2
      obtain ⟨hinv1, hcond⟩ :=
        run_loop_inv_C6 input_rows input_rows.length hND hSD fuel _ s1 hr
          (engineInv_init input_rows number_of_elevators max_capacity)
      intro r hrmem
      have hrmem1 : r ∈ s1.elevator_requests := by
        rw [← hok2] at hrmem
        exact hrmem
      rw [loopCond, Bool.or_eq_false_iff] at hcond
      have hcomp : r.is_complete = true := by
        have hany := hcond.2
        rw [List.any_eq_false] at hany
        have h := hany r hrmem1
        simp at h
        exact h
      rw [CallRequest.is_complete, Bool.and_eq_true, decide_eq_true_eq,
        decide_eq_true_eq] at hcomp
      obtain ⟨hup, hdown⟩ := hcomp
      obtain ⟨i, hi, hgi⟩ := List.mem_iff_getElem.mp hrmem1
      obtain ⟨h1, h2, h3⟩ := hinv1.hstore i hi
      rw [List.getD_eq_getElem _ default hi, hgi] at h1 h2 h3
      exact ⟨hup, hdown, (h2 hup).1, (h3 hdown).2⟩

/-- Input and final state of a concrete terminating run: one request 1 → 3
at time 0, one elevator of capacity 5, fuel 20 ticks. -/
def c6rows : List Row := [⟨0, "A", 1, 3⟩]

def c6final : EngineState :=
  { time := 3,
    elevator_requests := [⟨0, "A", 1, 3, 0, 3, "Ele 1"⟩],
    elevators := [⟨.at_stop, "Ele 1", 3, [], 5, []⟩],
    elevator_log := [(-1, [(1, "idle", "")]), (0, [(1, "at_stop", "A")]),
      (1, [(2, "moving_upwards", "A")]), (2, [(3, "moving_upwards", "A")]),
      (3, [(3, "at_stop", "")])] }

/-- Witness for C6 at a concrete terminating run. -/
theorem claim_C6_timestamps_witness :
    ((c6rows.map (fun r => r.id)).Nodup ∧
      (∀ row ∈ c6rows, row.source ≠ row.dest) ∧
      run_simulation c6rows 1 5 20 = .ok (some c6final)) ∧
    ∀ r ∈ c6final.elevator_requests,
      r.pickup_time ≠ -1 ∧ r.dropoff_time ≠ -1 ∧
      r.time ≤ r.pickup_time ∧ r.pickup_time ≤ r.dropoff_time :=
  ⟨⟨by decide, by decide, by rfl⟩,
   claim_C6_timestamps c6rows 1 5 20 (by decide) (by decide) c6final
     (by rfl)⟩
